import Mathlib

/-!
# ZM_Memory: a boundary-tag heap allocator

A shallow embedding of `ZM_Memory.c` / `ZM_Memory.h`.

* `zm_size_t` is `unsigned int`; every `zm_size_t` expression is computed modulo `2^32`
  (`u32add`, `u32sub`).  `sizeof` is taken on a 32-bit target, so it has the same width.
* Addresses are natural numbers, `NULL` is address `0`, and `&zmMemHeap[idx]` is
  `zmMemHeap + idx`.
* The memory is seen through two planes indexed by byte address: `mem a` is the
  `zmMem_t` record stored at address `a`, `bytes a` is the payload byte stored at `a`.
  Records at different addresses are independent: a store to the record at `a` changes
  `mem a` only.  On a well-formed heap the headers are at least `sizeof(zmMem_t)` apart,
  so no two of them share a byte.  For heaps on which headers overlap, `Raw` embeds the
  functions a second time, over a memory of bytes.
* A call either returns (`Outcome.ret`), spins forever in `ZM_MEM_ASSERT`
  (`Outcome.halt`, carrying the state at that point), or has not left its loops
  within the given number of iterations (`Outcome.more`).
* Sequences of calls are inductive relations on states: `Reach` for `zm_mem_malloc` and
  `zm_mem_free`, `ReachR` for sequences that also call `zm_mem_realloc`; both carry the
  list of the pointers the caller owns.
-/

namespace ZM

/-! ## Machine arithmetic and the macros of `ZM_Memory.h` -/

/-- The number of values of `zm_size_t` (`unsigned int`, 32 bits). -/
def U32 : Nat := 4294967296

/-- Addition of two `zm_size_t` values. -/
def u32add (a b : Nat) : Nat := (a + b) % 4294967296

/-- Subtraction of two `zm_size_t` values. -/
def u32sub (a b : Nat) : Nat := (a + 4294967296 - b % 4294967296) % 4294967296

/-- The macro `ZM_ALIGN(size, align)`, that is `((size) + (align) - 1) & ~((align) - 1)`
on `zm_size_t`; for `align` a power of two the mask clears the low bits. -/
def ZM_ALIGN (size align : Nat) : Nat :=
  (size + align - 1) % 4294967296 - ((size + align - 1) % 4294967296) % align

/-- The macro `ZM_ALIGN_DOWN(size, align)`, that is `(size) & ~((align) - 1)`. -/
def ZM_ALIGN_DOWN (size align : Nat) : Nat := size - size % align

def ZM_ALIGN_SIZE : Nat := 4

def ZM_MIN_SIZE : Nat := 12

def ZM_MEM_ALIGN_SIZE : Nat := ZM_ALIGN_SIZE

def ZM_HEAP_MAGIC : Nat := 0x1EA0

/-- The value of `sizeof(zmMem_t)`: two 16-bit fields and two 32-bit fields. -/
def sizeof_zmMem_t : Nat := 12

def ZM_ALIGN_GET (size : Nat) : Nat := ZM_ALIGN size ZM_MEM_ALIGN_SIZE

def MIN_SIZE_ALIGNED : Nat := ZM_ALIGN ZM_MIN_SIZE ZM_MEM_ALIGN_SIZE

def MEM_STRUCT_SIZE : Nat := ZM_ALIGN sizeof_zmMem_t ZM_MEM_ALIGN_SIZE

/-- The difference of two byte pointers stored into a `zm_size_t`. -/
def ptrdiff (p q : Nat) : Nat :=
  if q ≤ p then (p - q) % 4294967296
  else (4294967296 - (q - p) % 4294967296) % 4294967296

/-! ## Data model -/

/-- The block header `zmMem_t`. -/
structure zmMem_t where
  magic : Nat
  used : Nat
  prev : Nat
  next : Nat
deriving DecidableEq

/-- The globals of `ZM_Memory.c` (`memStats` flattened) and the memory. -/
structure State where
  mem : Nat → zmMem_t
  bytes : Nat → Nat
  zmMemHeap : Nat
  zmMemEnd : Nat
  lfree : Nat
  zmMemSize : Nat
  usedSize : Nat
  maxSize : Nat

/-- How a call ends. -/
inductive Outcome (α : Type) where
  | ret (v : α) (s : State)
  | halt (s : State)
  | more

/-- The returned value, when the call returns. -/
def Outcome.val {α : Type} : Outcome α → Option α
  | Outcome.ret v _ => some v
  | _ => none

/-- The state in which the call returns, when it does. -/
def Outcome.state {α : Type} : Outcome α → Option State
  | Outcome.ret _ s => some s
  | _ => none

/-- The state in which the call spins, when it does. -/
def Outcome.halted {α : Type} : Outcome α → Option State
  | Outcome.halt s => some s
  | _ => none

/-- Store a header record at address `a`. -/
def State.store (s : State) (a : Nat) (h : zmMem_t) : State :=
  { s with mem := fun x => if x = a then h else s.mem x }

/-- The assignment `p->magic = v`. -/
def State.setMagic (s : State) (p v : Nat) : State :=
  s.store p { s.mem p with magic := v }

/-- The assignment `p->used = v`. -/
def State.setUsed (s : State) (p v : Nat) : State :=
  s.store p { s.mem p with used := v }

/-- The assignment `p->prev = v`. -/
def State.setPrev (s : State) (p v : Nat) : State :=
  s.store p { s.mem p with prev := v }

/-- The assignment `p->next = v`. -/
def State.setNext (s : State) (p v : Nat) : State :=
  s.store p { s.mem p with next := v }

/-- The call `memcpy(dst, src, len)` on the payload plane. -/
def State.memcpy (s : State) (dst src len : Nat) : State :=
  { s with bytes := fun x => if dst ≤ x ∧ x < dst + len then s.bytes (src + (x - dst)) else s.bytes x }

/-! ## The functions of `ZM_Memory.c` -/

/-- The function `zm_putTogether(pMem)`. -/
def zm_putTogether (s : State) (pMem : Nat) : State :=
  let nextMem := s.zmMemHeap + (s.mem pMem).next
  let s1 :=
    if (s.mem nextMem).magic = ZM_HEAP_MAGIC ∧ nextMem ≠ pMem ∧
        (s.mem nextMem).used = 0 ∧ nextMem ≠ s.zmMemEnd then
      let a := if s.lfree = nextMem then { s with lfree := pMem } else s
      let b := a.setNext pMem (a.mem nextMem).next
      b.setPrev (b.zmMemHeap + (b.mem nextMem).next) (ptrdiff pMem b.zmMemHeap)
    else s
  let prevMem := s1.zmMemHeap + (s1.mem pMem).prev
  if (s1.mem prevMem).magic = ZM_HEAP_MAGIC ∧ nextMem ≠ pMem ∧ (s1.mem prevMem).used = 0 then
    let a := if s1.lfree = pMem then { s1 with lfree := prevMem } else s1
    let b := a.setNext prevMem (a.mem pMem).next
    b.setPrev (b.zmMemHeap + (b.mem pMem).next) (ptrdiff prevMem b.zmMemHeap)
  else s1

/-- The function `zm_mem_init(beginAddr, endAddr)`. -/
def zm_mem_init (s : State) (beginAddr endAddr : Nat) : State :=
  let beginAlign := ZM_ALIGN (beginAddr % 4294967296) ZM_MEM_ALIGN_SIZE
  let endAlign := ZM_ALIGN_DOWN (endAddr % 4294967296) ZM_MEM_ALIGN_SIZE
  if endAlign > 2 * MEM_STRUCT_SIZE ∧ u32sub endAlign (2 * MEM_STRUCT_SIZE) ≥ beginAlign then
    let s1 := { s with zmMemSize := u32sub (u32sub endAlign beginAlign) (2 * MEM_STRUCT_SIZE) }
    let s2 := { s1 with zmMemHeap := beginAlign }
    let pMem := s2.zmMemHeap
    let s3 := s2.setMagic pMem ZM_HEAP_MAGIC
    let s4 := s3.setUsed pMem 0
    let s5 := s4.setNext pMem (u32add s4.zmMemSize MEM_STRUCT_SIZE)
    let s6 := s5.setPrev pMem 0
    let s7 := { s6 with zmMemEnd := s6.zmMemHeap + (s6.mem pMem).next }
    let s8 := s7.setMagic s7.zmMemEnd ZM_HEAP_MAGIC
    let s9 := s8.setUsed s8.zmMemEnd 1
    let s10 := s9.setNext s9.zmMemEnd (u32add s9.zmMemSize MEM_STRUCT_SIZE)
    let s11 := s10.setPrev s10.zmMemEnd (u32add s10.zmMemSize MEM_STRUCT_SIZE)
    let s12 := { s11 with lfree := pMem }
    let s13 := { s12 with maxSize := 0 }
    { s13 with usedSize := 0 }
  else s

/-- The loop `while(lfree->used && lfree != zmMemEnd) lfree = &zmMemHeap[lfree->next];`
of `zm_mem_malloc`; `none` when it has not ended within `fuel` iterations. -/
def lfreeAdvance : Nat → State → Option State
  | 0, _ => none
  | fuel + 1, s =>
    if (s.mem s.lfree).used ≠ 0 ∧ s.lfree ≠ s.zmMemEnd then
      lfreeAdvance fuel { s with lfree := s.zmMemHeap + (s.mem s.lfree).next }
    else some s

/-- The statistics update of `zm_mem_malloc`: `usedSize += d`, then the peak. -/
def statsAdd (s : State) (d : Nat) : State :=
  let s1 := { s with usedSize := u32add s.usedSize d }
  if s1.maxSize < s1.usedSize then { s1 with maxSize := s1.usedSize } else s1

/-- The block body of the search loop of `zm_mem_malloc` once the block at `idx` has
passed the fit test, up to `pMem->magic = ZM_HEAP_MAGIC`: split or consume, statistics. -/
def mallocBody (s : State) (size idx : Nat) : State :=
  let pMem := s.zmMemHeap + idx
  let s1 :=
    if u32sub (u32sub (s.mem pMem).next idx) MEM_STRUCT_SIZE ≥
        u32add (u32add size MEM_STRUCT_SIZE) MIN_SIZE_ALIGNED then
      let ptr := u32add (u32add idx MEM_STRUCT_SIZE) size
      let mem := s.zmMemHeap + ptr
      let a := s.setMagic mem ZM_HEAP_MAGIC
      let b := a.setUsed mem 0
      let c := b.setNext mem (b.mem pMem).next
      let d := c.setPrev mem idx
      let e := d.setNext pMem ptr
      let f := e.setUsed pMem 1
      let g :=
        if (f.mem mem).next ≠ u32add f.zmMemSize MEM_STRUCT_SIZE then
          f.setPrev (f.zmMemHeap + (f.mem mem).next) ptr
        else f
      statsAdd g (u32add size MEM_STRUCT_SIZE)
    else
      let a := s.setUsed pMem 1
      statsAdd a (u32sub (a.mem pMem).next idx)
  s1.setMagic pMem ZM_HEAP_MAGIC

/-- The end of the block body: the update of `lfree` when the block taken, at address
`pMem`, was the lowest free one, the assertion, and the return of the payload address. -/
def lfreeUpdate (fuel : Nat) (s2 : State) (pMem : Nat) : Outcome Nat :=
  if pMem = s2.lfree then
    match lfreeAdvance fuel s2 with
    | none => Outcome.more
    | some s3 =>
      if s3.lfree = s3.zmMemEnd ∨ (s3.mem s3.lfree).used = 0 then
        Outcome.ret (pMem + MEM_STRUCT_SIZE) s3
      else Outcome.halt s3
  else Outcome.ret (pMem + MEM_STRUCT_SIZE) s2

/-- The block body of the search loop once the block at `idx` has passed the fit test. -/
def mallocTake (fuel : Nat) (s : State) (size idx : Nat) : Outcome Nat :=
  lfreeUpdate fuel (mallocBody s size idx) (s.zmMemHeap + idx)

/-- The search loop of `zm_mem_malloc`, entered at offset `idx` with the rounded and
clamped `size`. -/
def mallocLoop : Nat → State → Nat → Nat → Outcome Nat
  | 0, _, _, _ => Outcome.more
  | fuel + 1, s, size, idx =>
    if idx < u32sub s.zmMemSize size then
      let pMem := s.zmMemHeap + idx
      if (s.mem pMem).used = 0 ∧
          u32sub (u32sub (s.mem pMem).next idx) MEM_STRUCT_SIZE ≥ size then
        mallocTake fuel s size idx
      else mallocLoop fuel s size (s.mem pMem).next
    else Outcome.ret 0 s

/-- The size `zm_mem_malloc` searches for once the request passed its two tests. -/
def mallocSize (size : Nat) : Nat :=
  if ZM_ALIGN_GET size < MIN_SIZE_ALIGNED then MIN_SIZE_ALIGNED else ZM_ALIGN_GET size

/-- The function `zm_mem_malloc(size)`; `fuel` bounds the loop iterations. -/
def zm_mem_malloc (fuel : Nat) (s : State) (size : Nat) : Outcome Nat :=
  if size = 0 then Outcome.ret 0 s
  else if ZM_ALIGN_GET size > s.zmMemSize then Outcome.ret 0 s
  else mallocLoop fuel s (mallocSize size) (ptrdiff s.lfree s.zmMemHeap)

/-- The function `zm_mem_free(ptr)`. -/
def zm_mem_free (s : State) (ptr : Nat) : Outcome Unit :=
  if ptr = 0 then Outcome.ret () s
  else if ptr < s.zmMemHeap ∨ ptr ≥ s.zmMemEnd then Outcome.ret () s
  else
    let pMem := ptr - MEM_STRUCT_SIZE
    if (s.mem pMem).magic ≠ ZM_HEAP_MAGIC ∨ (s.mem pMem).used = 0 then Outcome.halt s
    else
      let s1 := s.setUsed pMem 0
      let s2 := if pMem < s1.lfree then { s1 with lfree := pMem } else s1
      let d := u32sub (s2.mem pMem).next (ptrdiff pMem s2.zmMemHeap)
      let s3 := { s2 with usedSize := u32sub s2.usedSize d }
      Outcome.ret () (zm_putTogether s3 pMem)

/-- The shrink branch of `zm_mem_realloc`. -/
def reallocShrink (s : State) (ptr newsize idx size : Nat) : Outcome Nat :=
  let pMem := ptr - MEM_STRUCT_SIZE
  let idx2 := u32add (u32add idx MEM_STRUCT_SIZE) size
  let mem := s.zmMemHeap + idx2
  let a := s.setMagic mem ZM_HEAP_MAGIC
  let b := a.setUsed mem 0
  let c := b.setNext mem (b.mem pMem).next
  let d := c.setPrev mem idx
  let e := d.setNext pMem idx2
  let f :=
    if (e.mem mem).next ≠ u32add e.zmMemSize MEM_STRUCT_SIZE then
      e.setPrev (e.zmMemHeap + (e.mem mem).next) idx2
    else e
  let g := { f with usedSize := u32sub f.usedSize (u32sub size newsize) }
  let h := if mem < g.lfree then { g with lfree := mem } else g
  Outcome.ret ptr (zm_putTogether h mem)

/-- The function `zm_mem_realloc(ptr, newsize)`. -/
def zm_mem_realloc (fuel : Nat) (s : State) (ptr newsize : Nat) : Outcome Nat :=
  let newsize := ZM_ALIGN_GET newsize
  if newsize > s.zmMemSize then Outcome.ret 0 s
  else if newsize = 0 then
    match zm_mem_free s ptr with
    | Outcome.ret _ s1 => Outcome.ret 0 s1
    | Outcome.halt s1 => Outcome.halt s1
    | Outcome.more => Outcome.more
  else
    let newsize := if newsize < MIN_SIZE_ALIGNED then MIN_SIZE_ALIGNED else newsize
    if ptr = 0 then zm_mem_malloc fuel s newsize
    else if ptr < s.zmMemHeap ∨ ptr ≥ s.zmMemEnd then Outcome.ret ptr s
    else
      let pMem := ptr - MEM_STRUCT_SIZE
      let idx := ptrdiff pMem s.zmMemHeap
      let size := u32sub (u32sub (s.mem pMem).next idx) MEM_STRUCT_SIZE
      if size = newsize then Outcome.ret ptr s
      else if u32add (u32add newsize MEM_STRUCT_SIZE) MIN_SIZE_ALIGNED < size then
        reallocShrink s ptr newsize idx size
      else
        match zm_mem_malloc fuel s newsize with
        | Outcome.ret newMem s1 =>
          if newMem ≠ 0 then
            let s2 := s1.memcpy newMem ptr (if size < newsize then size else newsize)
            match zm_mem_free s2 ptr with
            | Outcome.ret _ s3 => Outcome.ret newMem s3
            | Outcome.halt s3 => Outcome.halt s3
            | Outcome.more => Outcome.more
          else Outcome.ret newMem s1
        | Outcome.halt s1 => Outcome.halt s1
        | Outcome.more => Outcome.more

/-- The functions `zm_getMemTotal`, `zm_getMemUsed`, `zm_getMemMaxUsed`. -/
def zm_getMemTotal (s : State) : Nat := s.zmMemSize

def zm_getMemUsed (s : State) : Nat := s.usedSize

def zm_getMemMaxUsed (s : State) : Nat := s.maxSize

/-- The memory and the globals before `zm_mem_init`: everything zero. -/
def zeroState : State :=
  { mem := fun _ => ⟨0, 0, 0, 0⟩, bytes := fun _ => 0, zmMemHeap := 0, zmMemEnd := 0,
    lfree := 0, zmMemSize := 0, usedSize := 0, maxSize := 0 }

/-! ## Well-formed heaps -/

/-- The header stored at byte offset `o` of the heap, `*(zmMem_t *)&zmMemHeap[o]`. -/
def State.hdr (s : State) (o : Nat) : zmMem_t := s.mem (s.zmMemHeap + o)

/-- The offset of the sentinel header, `zmMemSize + MEM_STRUCT_SIZE`. -/
def State.sentinel (s : State) : Nat := s.zmMemSize + MEM_STRUCT_SIZE

/-- The payload capacity `next - o - MEM_STRUCT_SIZE` of the block at offset `o`,
as the code computes it. -/
def State.cap (s : State) (o : Nat) : Nat :=
  u32sub (u32sub (s.hdr o).next o) MEM_STRUCT_SIZE

/-- A run of blocks: `Seg s p a L b` says that `L` lists the offsets of the headers met
from offset `a` up to, and without, offset `b` when following `next`; each header has
its magic, an aligned offset, a `next` that leaves room for the header, and a `prev`
that is the offset of the block before it (`p` for the first one). -/
def Seg (s : State) : Nat → Nat → List Nat → Nat → Prop
  | _, a, [], b => a = b
  | p, a, o :: L, b =>
    o = a ∧ (s.hdr a).magic = ZM_HEAP_MAGIC ∧ (s.hdr a).prev = p ∧ a % ZM_ALIGN_SIZE = 0 ∧
      a + MEM_STRUCT_SIZE ≤ (s.hdr a).next ∧ Seg s a (s.hdr a).next L b

/-- The sum of `next - o` over the blocks of `L` that are in use. -/
def usedSum (s : State) (L : List Nat) : Nat :=
  (L.map (fun o => if (s.hdr o).used = 0 then 0 else (s.hdr o).next - o)).sum

/-- The block at offset `o` is free. -/
def State.isFree (s : State) (o : Nat) : Prop := (s.hdr o).used = 0

instance State.decIsFree (s : State) (o : Nat) : Decidable (s.isFree o) :=
  inferInstanceAs (Decidable ((s.hdr o).used = 0))

/-- The chain of a heap, with `L` the offsets of its blocks in address order (the
sentinel apart): sizes in range, the blocks of `L` linked from offset `0` to the
sentinel, an intact sentinel, and statistics that count the blocks in use. -/
structure WFB (s : State) (L : List Nat) : Prop where
  size_al : s.zmMemSize % ZM_ALIGN_SIZE = 0
  size_lt : s.zmMemSize + 2 * MEM_STRUCT_SIZE + ZM_ALIGN_SIZE ≤ 4294967296
  end_eq : s.zmMemEnd = s.zmMemHeap + s.sentinel
  chain : Seg s 0 0 L s.sentinel
  sent_magic : (s.hdr s.sentinel).magic = ZM_HEAP_MAGIC
  sent_used : (s.hdr s.sentinel).used = 1
  sent_next : (s.hdr s.sentinel).next = s.sentinel
  stats : s.usedSize = usedSum s L
  peak : s.usedSize ≤ s.maxSize

/-- The chain of a well-formed heap: moreover no two neighbours are both free. -/
structure WFC (s : State) (L : List Nat) extends WFB s L : Prop where
  noadj : L.Chain' (fun a b => ¬ (s.isFree a ∧ s.isFree b))

/-- The pointer `lfree` is at the free block of lowest offset, or at the sentinel when no
block is free. -/
def LfreeOK (s : State) (L : List Nat) : Prop :=
  ∃ lf, s.lfree = s.zmMemHeap + lf ∧ (lf = s.sentinel ∨ (lf ∈ L ∧ s.isFree lf)) ∧
    ∀ o ∈ L, s.isFree o → lf ≤ o

/-- The heap is well formed, with `L` the offsets of its blocks in address order. -/
structure WFL (s : State) (L : List Nat) extends WFC s L : Prop where
  lfree_ok : LfreeOK s L

/-- The list of blocks after the block at `o` was taken for `size` bytes. -/
def takeList (s : State) (L1 L2 : List Nat) (o size : Nat) : List Nat :=
  if size + 24 ≤ s.cap o then L1 ++ o :: (o + 12 + size) :: L2 else L1 ++ o :: L2

/-- One merge of `zm_putTogether`: the block at address `b` is absorbed by the block at
address `a` before it (`lfree` leaves `b`, `a->next = b->next`, and the block behind
gets `a` as its `prev`). -/
def mergeStep (s : State) (a b : Nat) : State :=
  let s1 := if s.lfree = b then { s with lfree := a } else s
  let s2 := s1.setNext a (s1.mem b).next
  s2.setPrev (s2.zmMemHeap + (s2.mem b).next) (ptrdiff a s2.zmMemHeap)

/-- The first half of `zm_putTogether`: the merge with the block behind. -/
def fwdMerge (s : State) (pMem : Nat) : State :=
  let nextMem := s.zmMemHeap + (s.mem pMem).next
  if (s.mem nextMem).magic = ZM_HEAP_MAGIC ∧ nextMem ≠ pMem ∧
      (s.mem nextMem).used = 0 ∧ nextMem ≠ s.zmMemEnd then mergeStep s pMem nextMem
  else s

/-- The second half of `zm_putTogether`: the merge with the block before, `nextMem` being
the pointer computed in the first half. -/
def bwdMerge (s1 : State) (pMem nextMem : Nat) : State :=
  let prevMem := s1.zmMemHeap + (s1.mem pMem).prev
  if (s1.mem prevMem).magic = ZM_HEAP_MAGIC ∧ nextMem ≠ pMem ∧ (s1.mem prevMem).used = 0 then
    mergeStep s1 prevMem pMem
  else s1

/-- The relation "not both free, unless one of them is `o`". -/
def NoAdjX (s : State) (o : Nat) (a b : Nat) : Prop :=
  ¬ (s.isFree a ∧ s.isFree b) ∨ a = o ∨ b = o

/-- The part of `zm_mem_free` before the call of `zm_putTogether`: the block is marked
free, `lfree` is lowered, the statistics are updated. -/
def freeMark (s : State) (pMem : Nat) : State :=
  let s1 := s.setUsed pMem 0
  let s2 := if pMem < s1.lfree then { s1 with lfree := pMem } else s1
  let d := u32sub (s2.mem pMem).next (ptrdiff pMem s2.zmMemHeap)
  { s2 with usedSize := u32sub s2.usedSize d }

/-- The pointers still allocated are the payload addresses of the blocks in use, each
once, and a block in use holds at least the minimum size. -/
def Owned (s : State) (L O : List Nat) : Prop :=
  O.Nodup ∧ (∀ p, p ∈ O ↔ ∃ o ∈ L, ¬ s.isFree o ∧ p = s.zmMemHeap + o + 12) ∧
    ∀ o ∈ L, ¬ s.isFree o → o + 24 ≤ (s.hdr o).next

/-- The heap is well formed. -/
def WF (s : State) : Prop := ∃ L, WFL s L

/-- The states reached from a successful `zm_mem_init` by calls of `zm_mem_malloc` and
`zm_mem_free` that return, each free given a pointer that an earlier allocation returned
and that has not been freed since; the list holds the pointers still allocated. -/
inductive Reach : State → List Nat → Prop where
  | init (m : State) (b e : Nat)
      (h : ZM_ALIGN_DOWN (e % 4294967296) ZM_MEM_ALIGN_SIZE > 2 * MEM_STRUCT_SIZE ∧
        u32sub (ZM_ALIGN_DOWN (e % 4294967296) ZM_MEM_ALIGN_SIZE) (2 * MEM_STRUCT_SIZE) ≥
          ZM_ALIGN (b % 4294967296) ZM_MEM_ALIGN_SIZE) :
      Reach (zm_mem_init m b e) []
  | malloc_null (s s1 : State) (O : List Nat) (fuel n : Nat) (h : Reach s O)
      (hn : n < 4294967296) (hr : zm_mem_malloc fuel s n = Outcome.ret 0 s1) : Reach s1 O
  | malloc (s s1 : State) (O : List Nat) (fuel n p : Nat) (h : Reach s O)
      (hn : n < 4294967296) (hp : p ≠ 0)
      (hr : zm_mem_malloc fuel s n = Outcome.ret p s1) : Reach s1 (p :: O)
  | free (s s1 : State) (O : List Nat) (p : Nat) (h : Reach s O) (hp : p ∈ O)
      (hr : zm_mem_free s p = Outcome.ret () s1) : Reach s1 (O.erase p)

/-! ## The scenarios of the specification: a region of 256 bytes -/

/-- The state a call ends in, whether it returns or spins. -/
def Outcome.get {α : Type} : Outcome α → State
  | Outcome.ret _ s => s
  | Outcome.halt s => s
  | Outcome.more => zeroState

/-- The heap after `zm_mem_init` on the 256 bytes from address 4096, the memory being
zero before. -/
def heap256 : State := zm_mem_init zeroState 4096 4352

/-- The heap after `p1 = zm_mem_malloc(20)`. -/
def heapA1 : State := (zm_mem_malloc 8 heap256 20).get

/-- The heap after `p1 = zm_mem_malloc(20); p2 = zm_mem_malloc(20)`. -/
def heapA2 : State := (zm_mem_malloc 8 heapA1 20).get

/-- The heap after `p1 = zm_mem_malloc(20); p2 = zm_mem_malloc(20); zm_mem_free(p1)`. -/
def heapA3 : State := (zm_mem_free heapA2 4108).get

/-- The heap after `p1 = zm_mem_malloc(20); p2 = zm_mem_malloc(20); zm_mem_free(p2)`. -/
def heapB3 : State := (zm_mem_free heapA2 4140).get

/-- The heap after `p1 = zm_mem_malloc(20); p2 = zm_mem_malloc(20); zm_mem_free(p2);
zm_mem_free(p1)`. -/
def heapB4 : State := (zm_mem_free heapB3 4108).get

/-- The heap after `p1 = zm_mem_malloc(100)`. -/
def heapC1 : State := (zm_mem_malloc 8 heap256 100).get

/-- The heap after `p1 = zm_mem_malloc(200)`. -/
def heapD1 : State := (zm_mem_malloc 8 heap256 200).get

/-! ## Sequences of calls with `zm_mem_realloc` -/

/-- The payload size `pMem->next - idx - MEM_STRUCT_SIZE` that `zm_mem_realloc` computes for
the block of the pointer `ptr`. -/
def blockSize (s : State) (ptr : Nat) : Nat :=
  u32sub (u32sub (s.mem (ptr - MEM_STRUCT_SIZE)).next
    (ptrdiff (ptr - MEM_STRUCT_SIZE) s.zmMemHeap)) MEM_STRUCT_SIZE

/-- The call `zm_mem_realloc(ptr, newsize)` reaches the branch that shrinks the block in
place: the tests before that branch fail and its test `newsize + MEM_STRUCT_SIZE +
MIN_SIZE_ALIGNED < size` holds. -/
def takesShrink (s : State) (ptr newsize : Nat) : Prop :=
  ¬ ZM_ALIGN_GET newsize > s.zmMemSize ∧ ZM_ALIGN_GET newsize ≠ 0 ∧ ptr ≠ 0 ∧
    ¬ (ptr < s.zmMemHeap ∨ ptr ≥ s.zmMemEnd) ∧ blockSize s ptr ≠ mallocSize newsize ∧
    u32add (u32add (mallocSize newsize) MEM_STRUCT_SIZE) MIN_SIZE_ALIGNED < blockSize s ptr

instance takesShrink.dec (s : State) (ptr newsize : Nat) : Decidable (takesShrink s ptr newsize) :=
  inferInstanceAs (Decidable (_ ∧ _))

/-- Multiplication of two `zm_size_t` values. -/
def u32mul (a b : Nat) : Nat := (a * b) % 4294967296

/-- The call `memset(dst, val, len)` on the payload plane. -/
def State.memset (s : State) (dst val len : Nat) : State :=
  { s with bytes := fun x => if dst ≤ x ∧ x < dst + len then val else s.bytes x }

/-- The function `zm_mem_calloc(count, size)`. -/
def zm_mem_calloc (fuel : Nat) (s : State) (count size : Nat) : Outcome Nat :=
  match zm_mem_malloc fuel s (u32mul count size) with
  | Outcome.ret ptr s1 =>
    if ptr ≠ 0 then Outcome.ret ptr (s1.memset ptr 0 (u32mul count size))
    else Outcome.ret ptr s1
  | Outcome.halt s1 => Outcome.halt s1
  | Outcome.more => Outcome.more

/-- The pointers the caller owns after `zm_mem_realloc(p, n)` returned `q`, `O` being the
pointers owned before: a pointer that is not `NULL` replaces `p`; after `NULL` the block
of `p` is gone when the rounded size was zero, and is kept otherwise. -/
def reallocOwned (O : List Nat) (p n q : Nat) : List Nat :=
  if q ≠ 0 then q :: O.erase p
  else if ZM_ALIGN_GET n = 0 then O.erase p else O

/-- The states reached from a successful `zm_mem_init` by calls of `zm_mem_malloc`,
`zm_mem_calloc`, `zm_mem_free` and `zm_mem_realloc` that return, each free and each resize
given `NULL` or a pointer the caller owns; the list holds the pointers owned.  The byte
count of a `zm_mem_calloc` is at most `2^32 - ZM_ALIGN_SIZE`, so that its `memset` stays
inside the payload it was given.  With `shrink = false` no resize reaches the branch that
shrinks the block in place. -/
inductive ReachR (shrink : Bool) : State → List Nat → Prop where
  | init (m : State) (b e : Nat)
      (h : ZM_ALIGN_DOWN (e % 4294967296) ZM_MEM_ALIGN_SIZE > 2 * MEM_STRUCT_SIZE ∧
        u32sub (ZM_ALIGN_DOWN (e % 4294967296) ZM_MEM_ALIGN_SIZE) (2 * MEM_STRUCT_SIZE) ≥
          ZM_ALIGN (b % 4294967296) ZM_MEM_ALIGN_SIZE) :
      ReachR shrink (zm_mem_init m b e) []
  | malloc (s s1 : State) (O : List Nat) (fuel n p : Nat) (h : ReachR shrink s O)
      (hn : n < 4294967296) (hr : zm_mem_malloc fuel s n = Outcome.ret p s1) :
      ReachR shrink s1 (if p = 0 then O else p :: O)
  | calloc (s s1 : State) (O : List Nat) (fuel c n p : Nat) (h : ReachR shrink s O)
      (hc : c < 4294967296) (hn : n < 4294967296)
      (hb : u32mul c n + ZM_ALIGN_SIZE ≤ 4294967296)
      (hr : zm_mem_calloc fuel s c n = Outcome.ret p s1) :
      ReachR shrink s1 (if p = 0 then O else p :: O)
  | free (s s1 : State) (O : List Nat) (p : Nat) (h : ReachR shrink s O)
      (hp : p = 0 ∨ p ∈ O) (hr : zm_mem_free s p = Outcome.ret () s1) :
      ReachR shrink s1 (O.erase p)
  | realloc (s s1 : State) (O : List Nat) (fuel p n q : Nat) (h : ReachR shrink s O)
      (hp : p = 0 ∨ p ∈ O) (hn : n < 4294967296)
      (hs : shrink = false → ¬ takesShrink s p n)
      (hr : zm_mem_realloc fuel s p n = Outcome.ret q s1) :
      ReachR shrink s1 (reallocOwned O p n q)

/-- The first part of the shrink branch of `zm_mem_realloc`: the header written at
`mem = &zmMemHeap[idx2]`, with `idx2 = idx + MEM_STRUCT_SIZE + size`, and
`pMem->next = idx2`. -/
def shrinkHeader (s : State) (ptr idx size : Nat) : State :=
  let pMem := ptr - MEM_STRUCT_SIZE
  let idx2 := u32add (u32add idx MEM_STRUCT_SIZE) size
  let mem := s.zmMemHeap + idx2
  let a := s.setMagic mem ZM_HEAP_MAGIC
  let b := a.setUsed mem 0
  let c := b.setNext mem (b.mem pMem).next
  let d := c.setPrev mem idx
  d.setNext pMem idx2

/-- The second part of the shrink branch: the block behind `mem` gets `idx2` as its
`prev`, unless `mem->next` is the offset of the sentinel. -/
def shrinkPatch (e : State) (mem idx2 : Nat) : State :=
  if (e.mem mem).next ≠ u32add e.zmMemSize MEM_STRUCT_SIZE then
    e.setPrev (e.zmMemHeap + (e.mem mem).next) idx2
  else e

/-- The third part of the shrink branch: the statistics and `lfree`. -/
def shrinkStats (f : State) (mem size newsize : Nat) : State :=
  let g := { f with usedSize := u32sub f.usedSize (u32sub size newsize) }
  if mem < g.lfree then { g with lfree := mem } else g

/-- The alignment invariant: `W` lists the addresses of the headers written so far; they
are aligned, within reach of a `zm_size_t` offset from the heap base, and the `next` and
`prev` of each lead to one of them again. -/
structure AlInv (s : State) (W : List Nat) : Prop where
  base : s.zmMemHeap % ZM_ALIGN_SIZE = 0
  lf : s.lfree ∈ W
  al : ∀ a ∈ W, a % ZM_ALIGN_SIZE = 0 ∧ s.zmMemHeap ≤ a ∧ a < s.zmMemHeap + 4294967296
  nx : ∀ a ∈ W, s.zmMemHeap + (s.mem a).next ∈ W
  pv : ∀ a ∈ W, s.zmMemHeap + (s.mem a).prev ∈ W

/-! ## More scenarios on the region of 256 bytes -/

/-- The heap after `p1 = zm_mem_malloc(100); zm_mem_realloc(p1, 50)`. -/
def heapC2 : State := (zm_mem_realloc 8 heapC1 4108 50).get

/-- The heap after `p1 = zm_mem_malloc(100); p2 = zm_mem_malloc(100)`. -/
def heapE2 : State := (zm_mem_malloc 8 heapC1 100).get

/-- The heap after `p1 = zm_mem_malloc(100); p2 = zm_mem_malloc(100); zm_mem_free(p2)`. -/
def heapE3 : State := (zm_mem_free heapE2 4220).get

/-- The heap after `p1 = zm_mem_malloc(100); zm_mem_realloc(p1, 12)`. -/
def heapG2 : State := (zm_mem_realloc 8 heapC1 4108 12).get

/-- The heap after `p1 = zm_mem_malloc(100); zm_mem_realloc(p1, 12); zm_mem_realloc(p1, 12)`. -/
def heapG3 : State := (zm_mem_realloc 8 heapG2 4108 12).get

/-- The heap after `p1 = zm_mem_malloc(100); zm_mem_realloc(p1, 116)`. -/
def heapH2 : State := (zm_mem_realloc 8 heapC1 4108 116).get

/-- The heap after `p1 = zm_mem_malloc(100)`, the caller having written the byte
`a % 256` at every address `a` of the payload. -/
def heapC1w : State := { heapC1 with bytes := fun a => a % 256 }

/-- The heap after `zm_mem_realloc(p1, 116)` on `heapC1w`. -/
def heapH2w : State := (zm_mem_realloc 8 heapC1w 4108 116).get

/-! ## The invariant in the words of the specification -/

/-- Following `next` from offset `a` visits the offsets of `L`, in this order, and ends at
offset `b`: every header visited has its magic, its offset is a multiple of the alignment,
and its `next` lies behind its own header (a block is a header followed by its payload
`[o + H, next)`), so the offsets visited increase strictly.  Nothing is said of `prev`. -/
def SegSpec (s : State) : Nat → List Nat → Nat → Prop
  | a, [], b => a = b
  | a, o :: L, b =>
    o = a ∧ (s.hdr a).magic = ZM_HEAP_MAGIC ∧ a % ZM_ALIGN_SIZE = 0 ∧
      a + MEM_STRUCT_SIZE ≤ (s.hdr a).next ∧ SegSpec s (s.hdr a).next L b

/-- The invariant `WF` as the specification words it, with `L` the offsets visited from
offset `0`.  The sentinel is the header at `S = zmMemSize + MEM_STRUCT_SIZE`, the one
`zmMemEnd` points at, in use, with its magic and `next = S`, and the region lies inside
the 32-bit address space.  Following `next` from `0` ends at the sentinel; every block
whose successor is not the sentinel is the `prev` of its successor; no two consecutive
blocks are both free; `lfree` is the lowest free block or the sentinel; `usedSize` is the
sum of `next - o` over the blocks in use and is at most `maxSize`. -/
structure WFspec (s : State) (L : List Nat) : Prop where
  size_al : s.zmMemSize % ZM_ALIGN_SIZE = 0
  size_lt : s.zmMemSize + 2 * MEM_STRUCT_SIZE + ZM_ALIGN_SIZE ≤ 4294967296
  end_eq : s.zmMemEnd = s.zmMemHeap + s.sentinel
  sent_magic : (s.hdr s.sentinel).magic = ZM_HEAP_MAGIC
  sent_used : (s.hdr s.sentinel).used = 1
  sent_next : (s.hdr s.sentinel).next = s.sentinel
  chain : SegSpec s 0 L s.sentinel
  back : ∀ o ∈ L, (s.hdr o).next ≠ s.sentinel → (s.hdr (s.hdr o).next).prev = o
  noadj : L.Chain' (fun a b => ¬ (s.isFree a ∧ s.isFree b))
  lfree_ok : LfreeOK s L
  stats : s.usedSize = usedSum s L
  peak : s.usedSize ≤ s.maxSize

/-- Every free block of `L` holds at least the minimum size: `next - o - H ≥ M`. -/
def MinFree (s : State) (L : List Nat) : Prop :=
  ∀ o ∈ L, s.isFree o → o + MEM_STRUCT_SIZE + MIN_SIZE_ALIGNED ≤ (s.hdr o).next

/-! ## Scenarios on lfree, on the sentinel and on a small region -/

/-- The heap after `p1 = zm_mem_malloc(100); zm_mem_realloc(p1, 50); p3 = zm_mem_malloc(12)`. -/
def heapK3 : State := (zm_mem_malloc 8 heapC2 12).get

/-- The heap after `p1 = zm_mem_malloc(100); zm_mem_realloc(p1, 50); p3 = zm_mem_malloc(12);
p4 = zm_mem_malloc(12)`. -/
def heapK4 : State := (zm_mem_malloc 8 heapK3 12).get

/-- The heap after `p1 = zm_mem_malloc(100); zm_mem_realloc(p1, 50); p3 = zm_mem_malloc(12);
p4 = zm_mem_malloc(12); zm_mem_free(p3)`. -/
def heapK5 : State := (zm_mem_free heapK4 4220).get

/-- The heap after `p1 = zm_mem_malloc(10)`. -/
def heapJ1 : State := (zm_mem_malloc 8 heap256 10).get

/-- The heap after `p1 = zm_mem_malloc(10); zm_mem_free(p1)`. -/
def heapJ2 : State := (zm_mem_free heapJ1 4108).get

/-- The heap after `p1 = zm_mem_malloc(220)`, which takes the whole free block. -/
def heapJ3 : State := (zm_mem_malloc 8 heap256 220).get

/-- The heap after `p1 = zm_mem_malloc(220); zm_mem_realloc(p1, 50)`. -/
def heapJ4 : State := (zm_mem_realloc 8 heapJ3 4108 50).get

/-- The heap after `zm_mem_init` on the 32 bytes from address 4096, the memory being zero
before: 8 usable bytes. -/
def heapTiny : State := zm_mem_init zeroState 4096 4128

/-- The heap after `p1 = zm_mem_malloc(20); p2 = zm_mem_malloc(20)` with the `prev` of the
first header set to `64`, the offset of the free block. -/
def heapW1 : State := heapA2.setPrev heapA2.zmMemHeap 64

/-- The heap after `zm_mem_free(p1)` on `heapW1`. -/
def heapW2 : State := (zm_mem_free heapW1 4108).get

/-! ## The rounding of the specification -/

/-- The rounding `align_up(n, a)` of the specification, on the natural numbers: the least
multiple of `a` that is at least `n`. -/
def align_up (n a : Nat) : Nat := (n + a - 1) / a * a

/-- The heap after `p1 = zm_mem_malloc(4294967295)` on the 256-byte heap. -/
def heapHuge : State := (zm_mem_malloc 8 heap256 4294967295).get

/-! ## The memory as bytes

The record-level memory of `State` keeps the headers at different addresses apart, which
is what the C memory does as long as the headers are `sizeof(zmMem_t)` bytes apart, as
they are on a well-formed heap.  Where headers can overlap, the functions are embedded a
second time, over a memory of bytes: `zmMem_t` is laid out as on the 32-bit targets of
the library, `magic` in the bytes 0 and 1, `used` in the bytes 2 and 3, `prev` in the
bytes 4 to 7 and `next` in the bytes 8 to 11, little-endian, and an access to a header at
any address reads and writes those bytes. -/

namespace Raw

/-- The globals of `ZM_Memory.c` (`memStats` flattened) and the memory, byte by byte. -/
structure State where
  byte : Nat → Nat
  zmMemHeap : Nat
  zmMemEnd : Nat
  lfree : Nat
  zmMemSize : Nat
  usedSize : Nat
  maxSize : Nat

/-- How a call ends: it returns, it spins in `ZM_MEM_ASSERT`, or it has not left its loops
within the iterations allowed. -/
inductive Outcome (α : Type) where
  | ret (v : α) (s : State)
  | halt (s : State)
  | more

/-- The returned value, when the call returns. -/
def Outcome.val {α : Type} : Outcome α → Option α
  | Outcome.ret v _ => some v
  | _ => none

/-- A read of a `zm_uint16_t` at address `a`. -/
def State.rd16 (s : State) (a : Nat) : Nat :=
  s.byte a % 256 + 256 * (s.byte (a + 1) % 256)

/-- A read of a `zm_size_t` at address `a`. -/
def State.rd32 (s : State) (a : Nat) : Nat :=
  s.byte a % 256 + 256 * (s.byte (a + 1) % 256) + 65536 * (s.byte (a + 2) % 256) +
    16777216 * (s.byte (a + 3) % 256)

/-- A write of the `zm_uint16_t` value `v` at address `a`. -/
def State.wr16 (s : State) (a v : Nat) : State :=
  { s with byte := fun x =>
      if x = a then v % 256 else if x = a + 1 then v / 256 % 256 else s.byte x }

/-- A write of the `zm_size_t` value `v` at address `a`. -/
def State.wr32 (s : State) (a v : Nat) : State :=
  { s with byte := fun x =>
      if x = a then v % 256 else if x = a + 1 then v / 256 % 256
      else if x = a + 2 then v / 65536 % 256 else if x = a + 3 then v / 16777216 % 256
      else s.byte x }

/-- The field `p->magic`. -/
def State.magic (s : State) (p : Nat) : Nat := s.rd16 p

/-- The field `p->used`. -/
def State.used (s : State) (p : Nat) : Nat := s.rd16 (p + 2)

/-- The field `p->prev`. -/
def State.prev (s : State) (p : Nat) : Nat := s.rd32 (p + 4)

/-- The field `p->next`. -/
def State.next (s : State) (p : Nat) : Nat := s.rd32 (p + 8)

/-- The assignment `p->magic = v`. -/
def State.setMagic (s : State) (p v : Nat) : State := s.wr16 p v

/-- The assignment `p->used = v`. -/
def State.setUsed (s : State) (p v : Nat) : State := s.wr16 (p + 2) v

/-- The assignment `p->prev = v`. -/
def State.setPrev (s : State) (p v : Nat) : State := s.wr32 (p + 4) v

/-- The assignment `p->next = v`. -/
def State.setNext (s : State) (p v : Nat) : State := s.wr32 (p + 8) v

/-- The call `memcpy(dst, src, len)`. -/
def State.memcpy (s : State) (dst src len : Nat) : State :=
  { s with byte := fun x =>
      if dst ≤ x ∧ x < dst + len then s.byte (src + (x - dst)) else s.byte x }

/-- The function `zm_putTogether(pMem)`. -/
def zm_putTogether (s : State) (pMem : Nat) : State :=
  let nextMem := s.zmMemHeap + s.next pMem
  let s1 :=
    if s.magic nextMem = ZM_HEAP_MAGIC ∧ nextMem ≠ pMem ∧
        s.used nextMem = 0 ∧ nextMem ≠ s.zmMemEnd then
      let a := if s.lfree = nextMem then { s with lfree := pMem } else s
      let b := a.setNext pMem (a.next nextMem)
      b.setPrev (b.zmMemHeap + b.next nextMem) (ptrdiff pMem b.zmMemHeap)
    else s
  let prevMem := s1.zmMemHeap + s1.prev pMem
  if s1.magic prevMem = ZM_HEAP_MAGIC ∧ nextMem ≠ pMem ∧ s1.used prevMem = 0 then
    let a := if s1.lfree = pMem then { s1 with lfree := prevMem } else s1
    let b := a.setNext prevMem (a.next pMem)
    b.setPrev (b.zmMemHeap + b.next pMem) (ptrdiff prevMem b.zmMemHeap)
  else s1

/-- The function `zm_mem_init(beginAddr, endAddr)`. -/
def zm_mem_init (s : State) (beginAddr endAddr : Nat) : State :=
  let beginAlign := ZM_ALIGN (beginAddr % 4294967296) ZM_MEM_ALIGN_SIZE
  let endAlign := ZM_ALIGN_DOWN (endAddr % 4294967296) ZM_MEM_ALIGN_SIZE
  if endAlign > 2 * MEM_STRUCT_SIZE ∧ u32sub endAlign (2 * MEM_STRUCT_SIZE) ≥ beginAlign then
    let s1 := { s with zmMemSize := u32sub (u32sub endAlign beginAlign) (2 * MEM_STRUCT_SIZE) }
    let s2 := { s1 with zmMemHeap := beginAlign }
    let pMem := s2.zmMemHeap
    let s3 := s2.setMagic pMem ZM_HEAP_MAGIC
    let s4 := s3.setUsed pMem 0
    let s5 := s4.setNext pMem (u32add s4.zmMemSize MEM_STRUCT_SIZE)
    let s6 := s5.setPrev pMem 0
    let s7 := { s6 with zmMemEnd := s6.zmMemHeap + s6.next pMem }
    let s8 := s7.setMagic s7.zmMemEnd ZM_HEAP_MAGIC
    let s9 := s8.setUsed s8.zmMemEnd 1
    let s10 := s9.setNext s9.zmMemEnd (u32add s9.zmMemSize MEM_STRUCT_SIZE)
    let s11 := s10.setPrev s10.zmMemEnd (u32add s10.zmMemSize MEM_STRUCT_SIZE)
    let s12 := { s11 with lfree := pMem }
    let s13 := { s12 with maxSize := 0 }
    { s13 with usedSize := 0 }
  else s

/-- The loop `while(lfree->used && lfree != zmMemEnd) lfree = &zmMemHeap[lfree->next];`
of `zm_mem_malloc`; `none` when it has not ended within `fuel` iterations. -/
def lfreeAdvance : Nat → State → Option State
  | 0, _ => none
  | fuel + 1, s =>
    if s.used s.lfree ≠ 0 ∧ s.lfree ≠ s.zmMemEnd then
      lfreeAdvance fuel { s with lfree := s.zmMemHeap + s.next s.lfree }
    else some s

/-- The statistics update of `zm_mem_malloc`: `usedSize += d`, then the peak. -/
def statsAdd (s : State) (d : Nat) : State :=
  let s1 := { s with usedSize := u32add s.usedSize d }
  if s1.maxSize < s1.usedSize then { s1 with maxSize := s1.usedSize } else s1

/-- The block body of the search loop of `zm_mem_malloc` once the block at `idx` has
passed the fit test, up to `pMem->magic = ZM_HEAP_MAGIC`: split or consume, statistics. -/
def mallocBody (s : State) (size idx : Nat) : State :=
  let pMem := s.zmMemHeap + idx
  let s1 :=
    if u32sub (u32sub (s.next pMem) idx) MEM_STRUCT_SIZE ≥
        u32add (u32add size MEM_STRUCT_SIZE) MIN_SIZE_ALIGNED then
      let ptr := u32add (u32add idx MEM_STRUCT_SIZE) size
      let mem := s.zmMemHeap + ptr
      let a := s.setMagic mem ZM_HEAP_MAGIC
      let b := a.setUsed mem 0
      let c := b.setNext mem (b.next pMem)
      let d := c.setPrev mem idx
      let e := d.setNext pMem ptr
      let f := e.setUsed pMem 1
      let g :=
        if f.next mem ≠ u32add f.zmMemSize MEM_STRUCT_SIZE then
          f.setPrev (f.zmMemHeap + f.next mem) ptr
        else f
      statsAdd g (u32add size MEM_STRUCT_SIZE)
    else
      let a := s.setUsed pMem 1
      statsAdd a (u32sub (a.next pMem) idx)
  s1.setMagic pMem ZM_HEAP_MAGIC

/-- The end of the block body: the update of `lfree` when the block taken, at address
`pMem`, was the lowest free one, the assertion, and the return of the payload address. -/
def lfreeUpdate (fuel : Nat) (s2 : State) (pMem : Nat) : Outcome Nat :=
  if pMem = s2.lfree then
    match lfreeAdvance fuel s2 with
    | none => Outcome.more
    | some s3 =>
      if s3.lfree = s3.zmMemEnd ∨ s3.used s3.lfree = 0 then
        Outcome.ret (pMem + MEM_STRUCT_SIZE) s3
      else Outcome.halt s3
  else Outcome.ret (pMem + MEM_STRUCT_SIZE) s2

/-- The search loop of `zm_mem_malloc`, entered at offset `idx` with the rounded and
clamped `size`. -/
def mallocLoop : Nat → State → Nat → Nat → Outcome Nat
  | 0, _, _, _ => Outcome.more
  | fuel + 1, s, size, idx =>
    if idx < u32sub s.zmMemSize size then
      let pMem := s.zmMemHeap + idx
      if s.used pMem = 0 ∧ u32sub (u32sub (s.next pMem) idx) MEM_STRUCT_SIZE ≥ size then
        lfreeUpdate fuel (mallocBody s size idx) pMem
      else mallocLoop fuel s size (s.next pMem)
    else Outcome.ret 0 s

/-- The function `zm_mem_malloc(size)`; `fuel` bounds the loop iterations. -/
def zm_mem_malloc (fuel : Nat) (s : State) (size : Nat) : Outcome Nat :=
  if size = 0 then Outcome.ret 0 s
  else if ZM_ALIGN_GET size > s.zmMemSize then Outcome.ret 0 s
  else mallocLoop fuel s (mallocSize size) (ptrdiff s.lfree s.zmMemHeap)

/-- The function `zm_mem_free(ptr)`. -/
def zm_mem_free (s : State) (ptr : Nat) : Outcome Unit :=
  if ptr = 0 then Outcome.ret () s
  else if ptr < s.zmMemHeap ∨ ptr ≥ s.zmMemEnd then Outcome.ret () s
  else
    let pMem := ptr - MEM_STRUCT_SIZE
    if s.magic pMem ≠ ZM_HEAP_MAGIC ∨ s.used pMem = 0 then Outcome.halt s
    else
      let s1 := s.setUsed pMem 0
      let s2 := if pMem < s1.lfree then { s1 with lfree := pMem } else s1
      let d := u32sub (s2.next pMem) (ptrdiff pMem s2.zmMemHeap)
      let s3 := { s2 with usedSize := u32sub s2.usedSize d }
      Outcome.ret () (zm_putTogether s3 pMem)

/-- The shrink branch of `zm_mem_realloc`. -/
def reallocShrink (s : State) (ptr newsize idx size : Nat) : Outcome Nat :=
  let pMem := ptr - MEM_STRUCT_SIZE
  let idx2 := u32add (u32add idx MEM_STRUCT_SIZE) size
  let mem := s.zmMemHeap + idx2
  let a := s.setMagic mem ZM_HEAP_MAGIC
  let b := a.setUsed mem 0
  let c := b.setNext mem (b.next pMem)
  let d := c.setPrev mem idx
  let e := d.setNext pMem idx2
  let f :=
    if e.next mem ≠ u32add e.zmMemSize MEM_STRUCT_SIZE then
      e.setPrev (e.zmMemHeap + e.next mem) idx2
    else e
  let g := { f with usedSize := u32sub f.usedSize (u32sub size newsize) }
  let h := if mem < g.lfree then { g with lfree := mem } else g
  Outcome.ret ptr (zm_putTogether h mem)

/-- The function `zm_mem_realloc(ptr, newsize)`. -/
def zm_mem_realloc (fuel : Nat) (s : State) (ptr newsize : Nat) : Outcome Nat :=
  let newsize := ZM_ALIGN_GET newsize
  if newsize > s.zmMemSize then Outcome.ret 0 s
  else if newsize = 0 then
    match zm_mem_free s ptr with
    | Outcome.ret _ s1 => Outcome.ret 0 s1
    | Outcome.halt s1 => Outcome.halt s1
    | Outcome.more => Outcome.more
  else
    let newsize := if newsize < MIN_SIZE_ALIGNED then MIN_SIZE_ALIGNED else newsize
    if ptr = 0 then zm_mem_malloc fuel s newsize
    else if ptr < s.zmMemHeap ∨ ptr ≥ s.zmMemEnd then Outcome.ret ptr s
    else
      let pMem := ptr - MEM_STRUCT_SIZE
      let idx := ptrdiff pMem s.zmMemHeap
      let size := u32sub (u32sub (s.next pMem) idx) MEM_STRUCT_SIZE
      if size = newsize then Outcome.ret ptr s
      else if u32add (u32add newsize MEM_STRUCT_SIZE) MIN_SIZE_ALIGNED < size then
        reallocShrink s ptr newsize idx size
      else
        match zm_mem_malloc fuel s newsize with
        | Outcome.ret newMem s1 =>
          if newMem ≠ 0 then
            let s2 := s1.memcpy newMem ptr (if size < newsize then size else newsize)
            match zm_mem_free s2 ptr with
            | Outcome.ret _ s3 => Outcome.ret newMem s3
            | Outcome.halt s3 => Outcome.halt s3
            | Outcome.more => Outcome.more
          else Outcome.ret newMem s1
        | Outcome.halt s1 => Outcome.halt s1
        | Outcome.more => Outcome.more

/-- The memory and the globals before `zm_mem_init`: everything zero. -/
def zeroState : State :=
  { byte := fun _ => 0, zmMemHeap := 0, zmMemEnd := 0, lfree := 0, zmMemSize := 0,
    usedSize := 0, maxSize := 0 }

/-- The state a call ends in, whether it returns or spins. -/
def Outcome.get {α : Type} : Outcome α → State
  | Outcome.ret _ s => s
  | Outcome.halt s => s
  | Outcome.more => zeroState

/-! ## A region that is not zero before `zm_mem_init` -/

/-- The memory before `zm_mem_init` in the alignment scenario: zero, but for five bytes of
the region of 8192 bytes at address 4096.  At offset `7840` of the region the bytes `A0 1E`
(the value `ZM_HEAP_MAGIC` where a header at that offset has its `magic`) and, at offset
`7848`, the byte `C9` (the value `201` where it has its `next`); at offsets `209` and
`210` the bytes `F4 1F` (the value `8180` where a header at offset `201` has its
`next`). -/
def stale : State :=
  { zeroState with byte := fun a =>
      if a = 4096 + 7840 then 160 else if a = 4096 + 7841 then 30
      else if a = 4096 + 7848 then 201
      else if a = 4096 + 209 then 244 else if a = 4096 + 210 then 31 else 0 }

/-- The heap after `zm_mem_init` on the 8192 bytes from address 4096. -/
def heapM0 : State := zm_mem_init stale 4096 12288

/-- The heap after `p1 = zm_mem_malloc(100)`. -/
def heapM1 : State := (zm_mem_malloc 8 heapM0 100).get

/-- The heap after `p2 = zm_mem_malloc(12)`. -/
def heapM2 : State := (zm_mem_malloc 8 heapM1 12).get

/-- The heap after `p3 = zm_mem_malloc(12)`. -/
def heapM3 : State := (zm_mem_malloc 8 heapM2 12).get

/-- The heap after `zm_mem_realloc(p1, 50)`. -/
def heapM4 : State := (zm_mem_realloc 8 heapM3 4108 50).get

/-- The heap after `p4 = zm_mem_malloc(20)`. -/
def heapM5 : State := (zm_mem_malloc 8 heapM4 20).get

/-- The heap after `zm_mem_free(p3)`. -/
def heapM6 : State := (zm_mem_free heapM5 4244).get

end Raw

end ZM

/-! # Theorems -/

namespace ZM

/-! ## Constants and field access -/

theorem MEM_STRUCT_SIZE_eq : MEM_STRUCT_SIZE = 12 := by decide

theorem MIN_SIZE_ALIGNED_eq : MIN_SIZE_ALIGNED = 12 := by decide

theorem ZM_HEAP_MAGIC_eq : ZM_HEAP_MAGIC = 7840 := by decide

theorem ZM_ALIGN_SIZE_eq : ZM_ALIGN_SIZE = 4 := rfl

theorem ZM_MEM_ALIGN_SIZE_eq : ZM_MEM_ALIGN_SIZE = 4 := rfl

theorem ZM_ALIGN_GET_eq (n : Nat) :
    ZM_ALIGN_GET n = (n + 3) % 4294967296 - ((n + 3) % 4294967296) % 4 := rfl

theorem mallocSize_eq (n : Nat) :
    mallocSize n = if ZM_ALIGN_GET n < 12 then 12 else ZM_ALIGN_GET n := by
  simp [mallocSize, MIN_SIZE_ALIGNED_eq]

theorem mallocSize_mod (n : Nat) : mallocSize n % 4 = 0 := by
  rw [mallocSize_eq, ZM_ALIGN_GET_eq]; split <;> omega

theorem mallocSize_ge (n : Nat) : 12 ≤ mallocSize n := by
  rw [mallocSize_eq]; split <;> omega

theorem mallocSize_le (n z : Nat) (h : ZM_ALIGN_GET n ≤ z) (hz : 12 ≤ z) : mallocSize n ≤ z := by
  rw [mallocSize_eq]; split <;> omega

theorem ptrdiff_add (b o : Nat) (h : o < 4294967296) : ptrdiff (b + o) b = o := by
  unfold ptrdiff; rw [if_pos (Nat.le_add_right b o)]; omega

@[simp] theorem store_mem (s : State) (a : Nat) (h : zmMem_t) (x : Nat) :
    (s.store a h).mem x = if x = a then h else s.mem x := rfl

@[simp] theorem store_bytes (s : State) (a : Nat) (h : zmMem_t) : (s.store a h).bytes = s.bytes := rfl
@[simp] theorem store_zmMemHeap (s : State) (a : Nat) (h : zmMem_t) : (s.store a h).zmMemHeap = s.zmMemHeap := rfl
@[simp] theorem store_zmMemEnd (s : State) (a : Nat) (h : zmMem_t) : (s.store a h).zmMemEnd = s.zmMemEnd := rfl
@[simp] theorem store_lfree (s : State) (a : Nat) (h : zmMem_t) : (s.store a h).lfree = s.lfree := rfl
@[simp] theorem store_zmMemSize (s : State) (a : Nat) (h : zmMem_t) : (s.store a h).zmMemSize = s.zmMemSize := rfl
@[simp] theorem store_usedSize (s : State) (a : Nat) (h : zmMem_t) : (s.store a h).usedSize = s.usedSize := rfl
@[simp] theorem store_maxSize (s : State) (a : Nat) (h : zmMem_t) : (s.store a h).maxSize = s.maxSize := rfl

theorem hdr_def (s : State) (o : Nat) : s.hdr o = s.mem (s.zmMemHeap + o) := rfl

/-! ## Runs of blocks -/

theorem seg_nil (s : State) (p a b : Nat) : Seg s p a [] b ↔ a = b := Iff.rfl

theorem seg_cons (s : State) (p a o b : Nat) (L : List Nat) :
    Seg s p a (o :: L) b ↔
      o = a ∧ (s.hdr a).magic = ZM_HEAP_MAGIC ∧ (s.hdr a).prev = p ∧ a % 4 = 0 ∧
        a + 12 ≤ (s.hdr a).next ∧ Seg s a (s.hdr a).next L b := Iff.rfl

theorem seg_bounds (s : State) : ∀ (L : List Nat) (p a b : Nat), Seg s p a L b →
    a ≤ b ∧ ∀ x ∈ L, a ≤ x ∧ x + 12 ≤ b ∧ x % 4 = 0 := by
  intro L
  induction L with
  | nil => intro p a b h; rw [seg_nil] at h; simp [h]
  | cons o L ih =>
    intro p a b h
    rw [seg_cons] at h
    obtain ⟨ho, _, _, hal, hn, ht⟩ := h
    obtain ⟨h1, h2⟩ := ih _ _ _ ht
    refine ⟨by omega, ?_⟩
    intro x hx
    rcases List.mem_cons.1 hx with hx | hx
    · subst hx; subst ho; exact ⟨le_refl _, by omega, hal⟩
    · obtain ⟨h3, h4, h5⟩ := h2 x hx
      exact ⟨by omega, h4, h5⟩

theorem seg_append (s : State) : ∀ (L1 L2 : List Nat) (p a c : Nat),
    Seg s p a (L1 ++ L2) c ↔ ∃ b, Seg s p a L1 b ∧ Seg s (L1.getLastD p) b L2 c := by
  intro L1
  induction L1 with
  | nil => intro L2 p a c; simp [seg_nil]
  | cons o L ih =>
    intro L2 p a c
    have hl : (o :: L).getLastD p = L.getLastD o := by
      cases L <;> simp [List.getLastD]
    rw [List.cons_append, seg_cons, hl]
    constructor
    · rintro ⟨ho, hm, hp, hal, hn, ht⟩
      obtain ⟨b, h1, h2⟩ := (ih L2 _ _ _).1 ht
      subst ho
      exact ⟨b, (seg_cons _ _ _ _ _ _).2 ⟨rfl, hm, hp, hal, hn, h1⟩, h2⟩
    · rintro ⟨b, h1, h2⟩
      rw [seg_cons] at h1
      obtain ⟨ho, hm, hp, hal, hn, ht⟩ := h1
      subst ho
      exact ⟨rfl, hm, hp, hal, hn, (ih L2 _ _ _).2 ⟨b, ht, h2⟩⟩

/-- A run survives a change of the memory that keeps magic and `next` of its blocks and
the `prev` of all but the first, whose `prev` becomes `q`. -/
theorem seg_transfer (s t : State) : ∀ (L : List Nat) (p q a b : Nat), Seg s p a L b →
    (∀ x ∈ L, (t.hdr x).magic = (s.hdr x).magic ∧ (t.hdr x).next = (s.hdr x).next) →
    (∀ x ∈ L, x ≠ a → (t.hdr x).prev = (s.hdr x).prev) →
    (a ∈ L → (t.hdr a).prev = q) → Seg t q a L b := by
  intro L
  induction L with
  | nil => intro p q a b h _ _ _; exact h
  | cons o L ih =>
    intro p q a b h hm hp ha
    have hb := seg_bounds s _ _ _ _ h
    rw [seg_cons] at h
    obtain ⟨ho, hmg, hpv, hal, hn, ht⟩ := h
    subst ho
    have hbt := seg_bounds s _ _ _ _ ht
    obtain ⟨h1, h2⟩ := hm o (List.mem_cons_self _ _)
    rw [seg_cons]
    refine ⟨rfl, by rw [h1]; exact hmg, ha (List.mem_cons_self _ _), hal, by rw [h2]; exact hn, ?_⟩
    rw [h2]
    refine ih _ _ _ _ ht (fun x hx => hm x (List.mem_cons_of_mem _ hx)) ?_ ?_
    · intro x hx hne
      have := (hbt.2 x hx).1
      exact hp x (List.mem_cons_of_mem _ hx) (by omega)
    · intro hx
      have hxa : (s.hdr o).next ≠ o := by omega
      rw [hp _ (List.mem_cons_of_mem _ hx) hxa]
      cases L with
      | nil => simp at hx
      | cons y L' =>
        rw [seg_cons] at ht
        exact ht.2.2.1

theorem seg_congr (s t : State) (L : List Nat) (p a b : Nat) (h : Seg s p a L b)
    (hm : ∀ x ∈ L, (t.hdr x).magic = (s.hdr x).magic ∧ (t.hdr x).next = (s.hdr x).next ∧
      (t.hdr x).prev = (s.hdr x).prev) : Seg t p a L b := by
  refine seg_transfer s t L p p a b h (fun x hx => ⟨(hm x hx).1, (hm x hx).2.1⟩)
    (fun x hx _ => (hm x hx).2.2) ?_
  intro ha
  rw [(hm a ha).2.2]
  cases L with
  | nil => simp at ha
  | cons y L' =>
    rw [seg_cons] at h
    exact h.2.2.1

/-- The first element of a run is its start. -/
theorem seg_head (s : State) (p a o b : Nat) (L : List Nat) (h : Seg s p a (o :: L) b) :
    o = a := h.1

theorem usedSum_nil (s : State) : usedSum s [] = 0 := rfl

theorem usedSum_cons (s : State) (o : Nat) (L : List Nat) :
    usedSum s (o :: L) =
      (if (s.hdr o).used = 0 then 0 else (s.hdr o).next - o) + usedSum s L := by
  simp [usedSum]

theorem usedSum_append (s : State) (L1 L2 : List Nat) :
    usedSum s (L1 ++ L2) = usedSum s L1 + usedSum s L2 := by
  simp [usedSum]

theorem usedSum_congr (s t : State) (L : List Nat)
    (h : ∀ x ∈ L, (t.hdr x).used = (s.hdr x).used ∧ (t.hdr x).next = (s.hdr x).next) :
    usedSum t L = usedSum s L := by
  induction L with
  | nil => rfl
  | cons o L ih =>
    rw [usedSum_cons, usedSum_cons, ih (fun x hx => h x (List.mem_cons_of_mem _ hx)),
      (h o (List.mem_cons_self _ _)).1, (h o (List.mem_cons_self _ _)).2]

/-- The sum of the used extents of a run fits between its ends. -/
theorem usedSum_le (s : State) : ∀ (L : List Nat) (p a b : Nat), Seg s p a L b →
    usedSum s L + a ≤ b := by
  intro L
  induction L with
  | nil => intro p a b h; rw [seg_nil] at h; simp [usedSum_nil, h]
  | cons o L ih =>
    intro p a b h
    rw [seg_cons] at h
    obtain ⟨ho, _, _, _, hn, ht⟩ := h
    subst ho
    have := ih _ _ _ ht
    rw [usedSum_cons]
    split <;> omega

/-! ## The search loop of `zm_mem_malloc` -/

theorem cap_eq_sub (s : State) (o : Nat) (h1 : o + 12 ≤ (s.hdr o).next)
    (h2 : (s.hdr o).next < 4294967296) : s.cap o = (s.hdr o).next - o - 12 := by
  unfold State.cap u32sub
  rw [MEM_STRUCT_SIZE_eq]
  omega

/-- What the search loop does on a chain: it gives up, or it stops at the first free
block from its entry point that is large enough and lies under the loop bound. -/
theorem mallocLoop_scan (s : State) (size : Nat)
    (hu : (s.hdr s.sentinel).used = 1) (hn : (s.hdr s.sentinel).next = s.sentinel) :
    ∀ (fuel : Nat) (L2 L1 : List Nat) (q idx : Nat), Seg s q idx L2 s.sentinel →
      (∀ x ∈ L1, s.isFree x → s.cap x < size) →
      mallocLoop fuel s size idx = Outcome.more ∨
      mallocLoop fuel s size idx = Outcome.ret 0 s ∨
      ∃ k M1 o M2, L1 ++ L2 = M1 ++ o :: M2 ∧ s.isFree o ∧ size ≤ s.cap o ∧
        o < u32sub s.zmMemSize size ∧ (∀ x ∈ M1, s.isFree x → s.cap x < size) ∧
        mallocLoop fuel s size idx = mallocTake k s size o := by
  intro fuel
  induction fuel with
  | zero => intro L2 L1 q idx _ _; left; rfl
  | succ fuel ih =>
    intro L2 L1 q idx hseg hL1
    unfold mallocLoop
    by_cases hb : idx < u32sub s.zmMemSize size
    · rw [if_pos hb]
      by_cases hfit : (s.mem (s.zmMemHeap + idx)).used = 0 ∧
          u32sub (u32sub (s.mem (s.zmMemHeap + idx)).next idx) MEM_STRUCT_SIZE ≥ size
      · simp only [hfit, and_self, if_true]
        cases L2 with
        | nil =>
          rw [seg_nil] at hseg
          subst hseg
          have := hfit.1
          rw [← hdr_def, hu] at this
          omega
        | cons o M2 =>
          have ho : o = idx := hseg.1
          subst ho
          right; right
          exact ⟨fuel, L1, o, M2, rfl, hfit.1, hfit.2, hb, hL1, rfl⟩
      · rw [if_neg hfit]
        cases L2 with
        | nil =>
          rw [seg_nil] at hseg
          subst hseg
          rw [← hdr_def, hn]
          have := ih [] L1 q s.sentinel rfl hL1
          simpa using this
        | cons o M2 =>
          have hseg' := hseg
          rw [seg_cons] at hseg'
          obtain ⟨ho, _, _, _, _, ht⟩ := hseg'
          subst ho
          have hL1' : ∀ x ∈ L1 ++ [o], s.isFree x → s.cap x < size := by
            intro x hx hux
            rcases List.mem_append.1 hx with hx | hx
            · exact hL1 x hx hux
            · simp at hx
              subst hx
              by_contra hc
              exact hfit ⟨hux, by unfold State.cap at hc; rw [hdr_def] at hc; omega⟩
          have := ih M2 (L1 ++ [o]) o _ ht hL1'
          rw [← hdr_def]
          simpa using this
    · rw [if_neg hb]
      right; left; rfl

/-! ## The block body of `zm_mem_malloc` -/

@[simp] theorem statsAdd_mem (s : State) (d : Nat) : (statsAdd s d).mem = s.mem := by
  unfold statsAdd; dsimp only; split <;> rfl
@[simp] theorem statsAdd_bytes (s : State) (d : Nat) : (statsAdd s d).bytes = s.bytes := by
  unfold statsAdd; dsimp only; split <;> rfl
@[simp] theorem statsAdd_zmMemHeap (s : State) (d : Nat) : (statsAdd s d).zmMemHeap = s.zmMemHeap := by
  unfold statsAdd; dsimp only; split <;> rfl
@[simp] theorem statsAdd_zmMemEnd (s : State) (d : Nat) : (statsAdd s d).zmMemEnd = s.zmMemEnd := by
  unfold statsAdd; dsimp only; split <;> rfl
@[simp] theorem statsAdd_lfree (s : State) (d : Nat) : (statsAdd s d).lfree = s.lfree := by
  unfold statsAdd; dsimp only; split <;> rfl
@[simp] theorem statsAdd_zmMemSize (s : State) (d : Nat) : (statsAdd s d).zmMemSize = s.zmMemSize := by
  unfold statsAdd; dsimp only; split <;> rfl
@[simp] theorem statsAdd_usedSize (s : State) (d : Nat) :
    (statsAdd s d).usedSize = u32add s.usedSize d := by
  unfold statsAdd; dsimp only; split <;> rfl

theorem statsAdd_maxSize (s : State) (d : Nat) :
    (statsAdd s d).maxSize = max s.maxSize (u32add s.usedSize d) := by
  unfold statsAdd
  dsimp only
  split
  · dsimp only; omega
  · dsimp only; omega

/-- The globals that the block body leaves alone. -/
theorem mallocBody_globals (s : State) (size o : Nat) :
    (mallocBody s size o).zmMemHeap = s.zmMemHeap ∧
    (mallocBody s size o).zmMemEnd = s.zmMemEnd ∧
    (mallocBody s size o).lfree = s.lfree ∧
    (mallocBody s size o).zmMemSize = s.zmMemSize ∧
    (mallocBody s size o).bytes = s.bytes := by
  unfold mallocBody
  dsimp only
  split <;> (try split) <;> simp [State.setMagic, State.setUsed, State.setNext, State.setPrev]

/-- The headers after the block body when the block is split. -/
theorem mallocBody_split (s : State) (size o : Nat)
    (h1 : o + 12 ≤ (s.hdr o).next) (h2 : (s.hdr o).next ≤ s.sentinel)
    (h3 : s.zmMemSize + 28 ≤ 4294967296) (hc : size + 24 ≤ (s.hdr o).next - o - 12) :
    (mallocBody s size o).hdr o = ⟨ZM_HEAP_MAGIC, 1, (s.hdr o).prev, o + 12 + size⟩ ∧
    (mallocBody s size o).hdr (o + 12 + size) = ⟨ZM_HEAP_MAGIC, 0, o, (s.hdr o).next⟩ ∧
    (∀ x, x ≠ o → x ≠ o + 12 + size → (x ≠ (s.hdr o).next ∨ (s.hdr o).next = s.sentinel) →
      (mallocBody s size o).hdr x = s.hdr x) ∧
    ((s.hdr o).next ≠ s.sentinel →
      (mallocBody s size o).hdr (s.hdr o).next =
        { s.hdr (s.hdr o).next with prev := o + 12 + size }) ∧
    (mallocBody s size o).usedSize = u32add s.usedSize (size + 12) ∧
    (mallocBody s size o).maxSize = max s.maxSize (u32add s.usedSize (size + 12)) := by
  have hS : s.sentinel = s.zmMemSize + 12 := by simp [State.sentinel, MEM_STRUCT_SIZE_eq]
  rw [hS] at h2
  have hcond : u32sub (u32sub (s.mem (s.zmMemHeap + o)).next o) MEM_STRUCT_SIZE ≥
      u32add (u32add size MEM_STRUCT_SIZE) MIN_SIZE_ALIGNED := by
    rw [← hdr_def, MEM_STRUCT_SIZE_eq, MIN_SIZE_ALIGNED_eq]
    unfold u32sub u32add
    omega
  have hptr : u32add (u32add o MEM_STRUCT_SIZE) size = o + 12 + size := by
    rw [MEM_STRUCT_SIZE_eq]; unfold u32add; omega
  have hadd : u32add size MEM_STRUCT_SIZE = size + 12 := by
    rw [MEM_STRUCT_SIZE_eq]; unfold u32add; omega
  have hsen : u32add s.zmMemSize MEM_STRUCT_SIZE = s.zmMemSize + 12 := by
    rw [MEM_STRUCT_SIZE_eq]; unfold u32add; omega
  rw [hdr_def] at h1 h2 hc
  have e1 : o ≠ o + 12 + size := by omega
  have e2 : o + 12 + size ≠ o := by omega
  have e3 : (s.mem (s.zmMemHeap + o)).next ≠ o := by omega
  have e4 : (s.mem (s.zmMemHeap + o)).next ≠ o + 12 + size := by omega
  have e5 : o ≠ (s.mem (s.zmMemHeap + o)).next := by omega
  have e6 : o + 12 + size ≠ (s.mem (s.zmMemHeap + o)).next := by omega
  unfold mallocBody
  dsimp only
  rw [if_pos hcond]
  refine ⟨?_, ?_, ?_, ?_, ?_, ?_⟩
  · by_cases hnx : (s.mem (s.zmMemHeap + o)).next = s.zmMemSize + 12 <;>
    simp [hptr, hadd, hS, hdr_def, State.setMagic, State.setUsed, State.setNext,
      State.setPrev, statsAdd_maxSize, hsen, e1, e2, e3, e4, e5, e6, hnx]
  · by_cases hnx : (s.mem (s.zmMemHeap + o)).next = s.zmMemSize + 12 <;>
    simp [hptr, hadd, hS, hdr_def, State.setMagic, State.setUsed, State.setNext,
      State.setPrev, statsAdd_maxSize, hsen, e1, e2, e3, e4, e5, e6, hnx]
  · intro x hx1 hx2 hx3
    by_cases hnx : (s.mem (s.zmMemHeap + o)).next = s.zmMemSize + 12
    · simp [hptr, hadd, hS, hdr_def, State.setMagic, State.setUsed, State.setNext,
        State.setPrev, statsAdd_maxSize, hsen, e1, e2, e3, e4, e5, e6, hnx, hx1, hx2]
    · have hx4 : x ≠ (s.mem (s.zmMemHeap + o)).next := by
        rcases hx3 with h | h
        · exact h
        · rw [hS] at h; exact absurd h hnx
      simp [hptr, hadd, hS, hdr_def, State.setMagic, State.setUsed, State.setNext,
        State.setPrev, statsAdd_maxSize, hsen, e1, e2, e3, e4, e5, e6, hnx, hx1, hx2, hx4]
  · intro hnx
    rw [hS, hdr_def] at hnx
    simp [hptr, hadd, hS, hdr_def, State.setMagic, State.setUsed, State.setNext,
      State.setPrev, statsAdd_maxSize, hsen, e1, e2, e3, e4, e5, e6, hnx]
  · by_cases hnx : (s.mem (s.zmMemHeap + o)).next = s.zmMemSize + 12 <;>
    simp [hptr, hadd, hS, hdr_def, State.setMagic, State.setUsed, State.setNext,
      State.setPrev, statsAdd_maxSize, hsen, e1, e2, e3, e4, e5, e6, hnx]
  · by_cases hnx : (s.mem (s.zmMemHeap + o)).next = s.zmMemSize + 12 <;>
    simp [hptr, hadd, hS, hdr_def, State.setMagic, State.setUsed, State.setNext,
      State.setPrev, statsAdd_maxSize, hsen, e1, e2, e3, e4, e5, e6, hnx]

/-- The headers after the block body when the whole block is consumed. -/
theorem mallocBody_whole (s : State) (size o : Nat)
    (h1 : o + 12 ≤ (s.hdr o).next) (h2 : (s.hdr o).next ≤ s.sentinel)
    (h3 : s.zmMemSize + 28 ≤ 4294967296) (hf : size ≤ (s.hdr o).next - o - 12)
    (hc : (s.hdr o).next - o - 12 < size + 24) :
    (mallocBody s size o).hdr o = ⟨ZM_HEAP_MAGIC, 1, (s.hdr o).prev, (s.hdr o).next⟩ ∧
    (∀ x, x ≠ o → (mallocBody s size o).hdr x = s.hdr x) ∧
    (mallocBody s size o).usedSize = u32add s.usedSize ((s.hdr o).next - o) ∧
    (mallocBody s size o).maxSize = max s.maxSize (u32add s.usedSize ((s.hdr o).next - o)) := by
  have hS : s.sentinel = s.zmMemSize + 12 := by simp [State.sentinel, MEM_STRUCT_SIZE_eq]
  rw [hS] at h2
  have hcond : ¬ u32sub (u32sub (s.mem (s.zmMemHeap + o)).next o) MEM_STRUCT_SIZE ≥
      u32add (u32add size MEM_STRUCT_SIZE) MIN_SIZE_ALIGNED := by
    rw [← hdr_def, MEM_STRUCT_SIZE_eq, MIN_SIZE_ALIGNED_eq]
    unfold u32sub u32add
    omega
  have hsub : u32sub (s.mem (s.zmMemHeap + o)).next o = (s.mem (s.zmMemHeap + o)).next - o := by
    rw [← hdr_def]; unfold u32sub; omega
  unfold mallocBody
  dsimp only
  rw [if_neg hcond]
  refine ⟨?_, ?_, ?_, ?_⟩
  · simp [hdr_def, State.setMagic, State.setUsed]
  · intro x hx
    simp [hdr_def, State.setMagic, State.setUsed, hx]
  · simp [hdr_def, State.setMagic, State.setUsed, hsub]
  · simp [hdr_def, State.setMagic, State.setUsed, hsub, statsAdd_maxSize]

/-- A chain cut at one of its blocks. -/
theorem chain_cut (s : State) (L1 L2 : List Nat) (o : Nat)
    (h : Seg s 0 0 (L1 ++ o :: L2) s.sentinel) :
    Seg s 0 0 L1 o ∧ (s.hdr o).magic = ZM_HEAP_MAGIC ∧ (s.hdr o).prev = L1.getLastD 0 ∧
      o % 4 = 0 ∧ o + 12 ≤ (s.hdr o).next ∧ Seg s o (s.hdr o).next L2 s.sentinel ∧
      (s.hdr o).next ≤ s.sentinel ∧ (∀ x ∈ L1, x + 12 ≤ o) ∧
      (∀ x ∈ L2, (s.hdr o).next ≤ x ∧ x + 12 ≤ s.sentinel) := by
  obtain ⟨b, hb1, hb2⟩ := (seg_append s L1 (o :: L2) 0 0 s.sentinel).1 h
  have hb2' := hb2
  rw [seg_cons] at hb2'
  obtain ⟨ho, hm, hp, hal, hn, ht⟩ := hb2'
  subst ho
  have b1 := seg_bounds s _ _ _ _ hb1
  have b2 := seg_bounds s _ _ _ _ ht
  exact ⟨hb1, hm, hp, hal, hn, ht, b2.1, fun x hx => (b1.2 x hx).2.1,
    fun x hx => ⟨(b2.2 x hx).1, (b2.2 x hx).2.1⟩⟩

theorem chain'_of_mem {α : Type} (R R' : α → α → Prop) (l : List α) (h : l.Chain' R)
    (hi : ∀ a b, a ∈ l → b ∈ l → R a b → R' a b) : l.Chain' R' := by
  rw [List.Chain'.iff_mem] at h
  exact h.imp (fun a b hab => hi a b hab.1 hab.2.1 hab.2.2)

theorem sentinel_eq (s : State) : s.sentinel = s.zmMemSize + 12 := by
  simp [State.sentinel, MEM_STRUCT_SIZE_eq]

theorem wfb_size28 {s : State} {L : List Nat} (hw : WFB s L) : s.zmMemSize + 28 ≤ 4294967296 := by
  have := hw.size_lt
  rw [MEM_STRUCT_SIZE_eq, ZM_ALIGN_SIZE_eq] at this
  omega

/-- The capacity of a block of the chain, without wrap-around. -/
theorem wfc_cap_eq {s : State} {L1 L2 : List Nat} {o : Nat} (hw : WFC s (L1 ++ o :: L2)) :
    s.cap o = (s.hdr o).next - o - 12 ∧ o + 12 ≤ (s.hdr o).next ∧
      (s.hdr o).next ≤ s.zmMemSize + 12 := by
  obtain ⟨_, _, _, _, hn, _, hle, _, _⟩ := chain_cut s L1 L2 o hw.chain
  have h28 := (wfb_size28 hw.toWFB)
  rw [sentinel_eq] at hle
  exact ⟨cap_eq_sub s o hn (by omega), hn, hle⟩

/-- The chain after the block body of `zm_mem_malloc` split the free block at `o`. -/
theorem mallocBody_wfc_split (s : State) (L1 L2 : List Nat) (o size : Nat)
    (hw : WFC s (L1 ++ o :: L2)) (hfree : s.isFree o) (hc : size + 24 ≤ s.cap o)
    (hal : size % 4 = 0) :
    WFC (mallocBody s size o) (L1 ++ o :: (o + 12 + size) :: L2) ∧
      (∀ x ∈ L1 ++ L2, (mallocBody s size o).hdr x = s.hdr x ∨
        (mallocBody s size o).hdr x = { s.hdr x with prev := o + 12 + size }) := by
  obtain ⟨hcap, hn12, hnS⟩ := (wfc_cap_eq hw)
  obtain ⟨c1, cm, cp, cal, _, c2, cle, cb1, cb2⟩ := chain_cut s L1 L2 o hw.chain
  have h28 := (wfb_size28 hw.toWFB)
  have hS := sentinel_eq s
  rw [hcap] at hc
  obtain ⟨bo, bp, bx, bn, bu, bm⟩ := mallocBody_split s size o hn12 cle h28 hc
  obtain ⟨g1, g2, g3, g4, g5⟩ := mallocBody_globals s size o
  -- the headers of the other blocks
  have hL1 : ∀ x ∈ L1, (mallocBody s size o).hdr x = s.hdr x := by
    intro x hx
    have := cb1 x hx
    exact bx x (by omega) (by omega) (Or.inl (by omega))
  have hL2 : ∀ x ∈ L2, (mallocBody s size o).hdr x = s.hdr x ∨
      (mallocBody s size o).hdr x = { s.hdr x with prev := o + 12 + size } := by
    intro x hx
    have := cb2 x hx
    by_cases hxn : x = (s.hdr o).next
    · right
      subst hxn
      exact bn (by omega)
    · left
      exact bx x (by omega) (by omega) (Or.inl hxn)
  have hsen : (mallocBody s size o).hdr s.sentinel = s.hdr s.sentinel := by
    by_cases hxn : s.sentinel = (s.hdr o).next
    · exact bx _ (by omega) (by omega) (Or.inr hxn.symm)
    · exact bx _ (by omega) (by omega) (Or.inl hxn)
  have hsent' : (mallocBody s size o).sentinel = s.sentinel := by
    simp [State.sentinel, g4]
  have hch : Seg (mallocBody s size o) 0 0 (L1 ++ o :: (o + 12 + size) :: L2) s.sentinel := by
    refine (seg_append _ L1 _ 0 0 _).2 ⟨o, ?_, ?_⟩
    · exact seg_congr s _ L1 0 0 o c1 (fun x hx => by rw [hL1 x hx]; exact ⟨rfl, rfl, rfl⟩)
    · rw [seg_cons, bo]
      dsimp only
      refine ⟨rfl, rfl, cp, cal, by omega, ?_⟩
      rw [seg_cons, bp]
      dsimp only
      refine ⟨rfl, rfl, rfl, by omega, by omega, ?_⟩
      refine seg_transfer s _ L2 o (o + 12 + size) _ _ c2 ?_ ?_ ?_
      · intro x hx
        rcases hL2 x hx with h | h <;> rw [h] <;> exact ⟨rfl, rfl⟩
      · intro x hx hne
        have := cb2 x hx
        rw [bx x (by omega) (by omega) (Or.inl hne)]
      · intro hx
        have := cb2 _ hx
        rw [bn (by omega)]
  refine ⟨?_, ?_⟩
  · refine
      { size_al := by rw [g4]; exact hw.size_al
        size_lt := by rw [g4]; exact hw.size_lt
        end_eq := by rw [g2, g1, hsent']; exact hw.end_eq
        chain := ?ch
        sent_magic := by rw [hsent', hsen]; exact hw.sent_magic
        sent_used := by rw [hsent', hsen]; exact hw.sent_used
        sent_next := by rw [hsent', hsen]; exact hw.sent_next
        noadj := ?na
        stats := ?st
        peak := ?pk }
    case ch => rw [hsent']; exact hch
    case na =>
      have hn := hw.noadj
      rw [List.chain'_split] at hn ⊢
      refine ⟨?_, ?_⟩
      · refine chain'_of_mem _ _ _ hn.1 ?_
        intro a b ha hb hab
        rintro ⟨hfa, hfb⟩
        rcases List.mem_append.1 ha with ha | ha
        · rcases List.mem_append.1 hb with hb | hb
          · apply hab
            unfold State.isFree at hfa hfb ⊢
            rw [hL1 a ha] at hfa; rw [hL1 b hb] at hfb
            exact ⟨hfa, hfb⟩
          · simp at hb; subst hb
            unfold State.isFree at hfb
            rw [bo] at hfb
            simp at hfb
        · simp at ha; subst ha
          unfold State.isFree at hfa
          rw [bo] at hfa
          simp at hfa
      · rw [List.chain'_cons]
        refine ⟨?_, ?_⟩
        · rintro ⟨hfa, _⟩
          unfold State.isFree at hfa
          rw [bo] at hfa
          simp at hfa
        · have h2 := hn.2
          cases L2 with
          | nil => exact List.chain'_singleton _
          | cons y L3 =>
            rw [List.chain'_cons] at h2 ⊢
            have hy : (mallocBody s size o).isFree y ↔ s.isFree y := by
              unfold State.isFree
              rcases hL2 y (List.mem_cons_self _ _) with h | h <;> rw [h]
            refine ⟨?_, ?_⟩
            · rintro ⟨_, hfy⟩
              exact h2.1 ⟨hfree, hy.1 hfy⟩
            · refine chain'_of_mem _ _ _ h2.2 ?_
              intro a b ha hb hab
              rintro ⟨hfa, hfb⟩
              apply hab
              unfold State.isFree at hfa hfb ⊢
              rcases hL2 a ha with h | h <;> rw [h] at hfa <;>
              rcases hL2 b hb with h' | h' <;> rw [h'] at hfb <;> exact ⟨hfa, hfb⟩
    case st =>
      have hs := hw.stats
      have hsum : usedSum (mallocBody s size o) (L1 ++ o :: (o + 12 + size) :: L2) =
          usedSum s (L1 ++ o :: L2) + (size + 12) := by
        rw [usedSum_append, usedSum_cons, usedSum_cons, usedSum_append, usedSum_cons, bo, bp]
        rw [usedSum_congr s _ L1 (fun x hx => by rw [hL1 x hx]; exact ⟨rfl, rfl⟩)]
        rw [usedSum_congr s _ L2 (fun x hx => by
          rcases hL2 x hx with h | h <;> rw [h] <;> exact ⟨rfl, rfl⟩)]
        have : (s.hdr o).used = 0 := hfree
        simp [this]
        omega
      have hle := usedSum_le s _ _ _ _ hw.chain
      rw [bu, hsum, hs]
      unfold u32add
      have hle' := usedSum_le _ _ _ _ _
        (show Seg (mallocBody s size o) 0 0 (L1 ++ o :: (o + 12 + size) :: L2) s.sentinel from hch)
      rw [hsum] at hle'
      omega
    case pk =>
      rw [bu, bm]
      exact le_max_right _ _
  · intro x hx
    rcases List.mem_append.1 hx with hx | hx
    · exact Or.inl (hL1 x hx)
    · exact hL2 x hx

/-- The chain after the block body of `zm_mem_malloc` consumed the whole free block
at `o`. -/
theorem mallocBody_wfc_whole (s : State) (L1 L2 : List Nat) (o size : Nat)
    (hw : WFC s (L1 ++ o :: L2)) (hfree : s.isFree o) (hf : size ≤ s.cap o)
    (hc : s.cap o < size + 24) :
    WFC (mallocBody s size o) (L1 ++ o :: L2) ∧
      (∀ x ∈ L1 ++ L2, (mallocBody s size o).hdr x = s.hdr x) := by
  obtain ⟨hcap, hn12, hnS⟩ := (wfc_cap_eq hw)
  obtain ⟨c1, cm, cp, cal, _, c2, cle, cb1, cb2⟩ := chain_cut s L1 L2 o hw.chain
  have h28 := (wfb_size28 hw.toWFB)
  have hS := sentinel_eq s
  rw [hcap] at hc hf
  obtain ⟨bo, bx, bu, bm⟩ := mallocBody_whole s size o hn12 cle h28 hf hc
  obtain ⟨g1, g2, g3, g4, g5⟩ := mallocBody_globals s size o
  have hL1 : ∀ x ∈ L1, (mallocBody s size o).hdr x = s.hdr x := by
    intro x hx
    have := cb1 x hx
    exact bx x (by omega)
  have hL2 : ∀ x ∈ L2, (mallocBody s size o).hdr x = s.hdr x := by
    intro x hx
    have := cb2 x hx
    exact bx x (by omega)
  have hsen : (mallocBody s size o).hdr s.sentinel = s.hdr s.sentinel := bx _ (by omega)
  have hsent' : (mallocBody s size o).sentinel = s.sentinel := by
    simp [State.sentinel, g4]
  have hch : Seg (mallocBody s size o) 0 0 (L1 ++ o :: L2) s.sentinel := by
    refine seg_congr s _ _ 0 0 _ hw.chain ?_
    intro x hx
    rcases List.mem_append.1 hx with hx | hx
    · rw [hL1 x hx]; exact ⟨rfl, rfl, rfl⟩
    · rcases List.mem_cons.1 hx with hx | hx
      · subst hx; rw [bo]; exact ⟨cm.symm, rfl, rfl⟩
      · rw [hL2 x hx]; exact ⟨rfl, rfl, rfl⟩
  have hfl : ∀ x ∈ L1 ++ o :: L2, (mallocBody s size o).isFree x → s.isFree x := by
    intro x hx hfx
    unfold State.isFree at hfx ⊢
    rcases List.mem_append.1 hx with hx | hx
    · rw [hL1 x hx] at hfx; exact hfx
    · rcases List.mem_cons.1 hx with hx | hx
      · subst hx; rw [bo] at hfx; simp at hfx
      · rw [hL2 x hx] at hfx; exact hfx
  refine ⟨?_, ?_⟩
  · refine
      { size_al := by rw [g4]; exact hw.size_al
        size_lt := by rw [g4]; exact hw.size_lt
        end_eq := by rw [g2, g1, hsent']; exact hw.end_eq
        chain := by rw [hsent']; exact hch
        sent_magic := by rw [hsent', hsen]; exact hw.sent_magic
        sent_used := by rw [hsent', hsen]; exact hw.sent_used
        sent_next := by rw [hsent', hsen]; exact hw.sent_next
        noadj := ?na
        stats := ?st
        peak := ?pk }
    case na =>
      refine chain'_of_mem _ _ _ hw.noadj ?_
      intro a b ha hb hab
      rintro ⟨hfa, hfb⟩
      exact hab ⟨hfl a ha hfa, hfl b hb hfb⟩
    case st =>
      have hs := hw.stats
      have hsum : usedSum (mallocBody s size o) (L1 ++ o :: L2) =
          usedSum s (L1 ++ o :: L2) + ((s.hdr o).next - o) := by
        rw [usedSum_append, usedSum_cons, usedSum_append, usedSum_cons, bo]
        rw [usedSum_congr s _ L1 (fun x hx => by rw [hL1 x hx]; exact ⟨rfl, rfl⟩)]
        rw [usedSum_congr s _ L2 (fun x hx => by rw [hL2 x hx]; exact ⟨rfl, rfl⟩)]
        have : (s.hdr o).used = 0 := hfree
        simp [this]
        omega
      have hle' := usedSum_le _ _ _ _ _ hch
      rw [hsum] at hle'
      rw [bu, hsum, hs]
      unfold u32add
      omega
    case pk =>
      rw [bu, bm]
      exact le_max_right _ _
  · intro x hx
    rcases List.mem_append.1 hx with hx | hx
    · exact hL1 x hx
    · exact hL2 x hx

/-! ## The update of `lfree` -/

theorem with_lfree_self (t : State) (a : Nat) (h : t.lfree = a) : { t with lfree := a } = t := by
  cases t; simp at h; simp [h]

/-- What the `lfree` loop does on a chain whose blocks before the entry point are all in
use: it runs out of iterations, or it stops at the first free block, or at the
sentinel. -/
theorem lfreeAdvance_scan (t : State) (hend : t.zmMemEnd = t.zmMemHeap + t.sentinel) :
    ∀ (fuel : Nat) (R P : List Nat) (q a : Nat), Seg t q a R t.sentinel →
      (∀ x ∈ P, ¬ t.isFree x) →
      (lfreeAdvance fuel { t with lfree := t.zmMemHeap + a } = none ∧ fuel ≤ R.length) ∨
      ∃ lf, lfreeAdvance fuel { t with lfree := t.zmMemHeap + a } =
          some { t with lfree := t.zmMemHeap + lf } ∧
        (lf = t.sentinel ∨ (lf ∈ R ∧ t.isFree lf)) ∧ ∀ x ∈ P ++ R, t.isFree x → lf ≤ x := by
  intro fuel
  induction fuel with
  | zero => intro R P q a _ _; left; exact ⟨rfl, Nat.zero_le _⟩
  | succ fuel ih =>
    intro R P q a hseg hP
    unfold lfreeAdvance
    dsimp only
    cases R with
    | nil =>
      rw [seg_nil] at hseg
      subst hseg
      right
      refine ⟨t.sentinel, ?_, Or.inl rfl, ?_⟩
      · rw [if_neg (by rw [hend]; simp)]
      · intro x hx hf
        simp at hx
        exact absurd hf (hP x hx)
    | cons o R' =>
      have hb := seg_bounds t _ _ _ _ hseg
      have hseg' := hseg
      rw [seg_cons] at hseg'
      obtain ⟨ho, _, _, _, hn, ht⟩ := hseg'
      subst ho
      have hne : t.zmMemHeap + o ≠ t.zmMemEnd := by
        rw [hend]
        have := (hb.2 o (List.mem_cons_self _ _)).2.1
        omega
      by_cases hu : (t.mem (t.zmMemHeap + o)).used = 0
      · right
        refine ⟨o, ?_, Or.inr ⟨List.mem_cons_self _ _, hu⟩, ?_⟩
        · rw [if_neg (by simp [hu])]
        · intro x hx hf
          rcases List.mem_append.1 hx with hx | hx
          · exact absurd hf (hP x hx)
          · exact (hb.2 x hx).1
      · rw [if_pos ⟨hu, hne⟩]
        have hP' : ∀ x ∈ P ++ [o], ¬ t.isFree x := by
          intro x hx
          rcases List.mem_append.1 hx with hx | hx
          · exact hP x hx
          · simp at hx; subst hx; exact hu
        rcases ih R' (P ++ [o]) o _ ht hP' with h | ⟨lf, h1, h2, h3⟩
        · left
          exact ⟨h.1, by simp; exact h.2⟩
        · right
          refine ⟨lf, h1, ?_, ?_⟩
          · rcases h2 with h2 | h2
            · exact Or.inl h2
            · exact Or.inr ⟨List.mem_cons_of_mem _ h2.1, h2.2⟩
          · intro x hx hf
            exact h3 x (by simpa using hx) hf

/-- The end of the block body of `zm_mem_malloc` on a chain in which the block at `o`
has just been taken: unless the `lfree` loop runs out of iterations, the call returns
the payload address and `lfree` is again at the lowest free block. -/
theorem lfreeUpdate_ok (tb : State) (L1 R : List Nat) (o lf k : Nat)
    (hw : WFC tb (L1 ++ o :: R)) (hlf : tb.lfree = tb.zmMemHeap + lf)
    (hused : ¬ tb.isFree o) (h1 : lf = o ∨ (lf ∈ L1 ∧ tb.isFree lf))
    (hmin : ∀ x ∈ L1, tb.isFree x → lf ≤ x) :
    (lfreeUpdate k tb (tb.zmMemHeap + o) = Outcome.more ∧ k ≤ R.length + 1) ∨
    ∃ lf', lfreeUpdate k tb (tb.zmMemHeap + o) =
        Outcome.ret (tb.zmMemHeap + o + 12) { tb with lfree := tb.zmMemHeap + lf' } ∧
      LfreeOK { tb with lfree := tb.zmMemHeap + lf' } (L1 ++ o :: R) := by
  obtain ⟨c1, cm, cp, cal, cn, c2, cle, cb1, cb2⟩ := chain_cut tb L1 R o hw.chain
  unfold lfreeUpdate
  rw [MEM_STRUCT_SIZE_eq]
  by_cases hlo : lf = o
  · subst hlo
    rw [if_pos hlf.symm]
    have hP : ∀ x ∈ L1, ¬ tb.isFree x := by
      intro x hx hf
      have := hmin x hx hf
      have := cb1 x hx
      omega
    have hseg : Seg tb (L1.getLastD 0) lf (lf :: R) tb.sentinel :=
      (seg_cons _ _ _ _ _ _).2 ⟨rfl, cm, cp, cal, cn, c2⟩
    have hself : { tb with lfree := tb.zmMemHeap + lf } = tb := with_lfree_self tb _ hlf
    rcases lfreeAdvance_scan tb hw.end_eq k (lf :: R) L1 _ lf hseg hP with h | ⟨lf', e1, e2, e3⟩
    · left
      rw [hself] at h
      rw [h.1]
      exact ⟨rfl, h.2⟩
    · right
      rw [hself] at e1
      refine ⟨lf', ?_, ?_⟩
      · rw [e1]
        dsimp only
        rw [if_pos]
        rcases e2 with e2 | e2
        · left; rw [e2, hw.end_eq]
        · right; exact e2.2
      · refine ⟨lf', rfl, ?_, ?_⟩
        · rcases e2 with e2 | e2
          · exact Or.inl e2
          · exact Or.inr ⟨List.mem_append_right _ e2.1, e2.2⟩
        · exact e3
  · have hl1 : lf ∈ L1 ∧ tb.isFree lf := by
      rcases h1 with h | h
      · exact absurd h hlo
      · exact h
    have hlt := cb1 lf hl1.1
    right
    refine ⟨lf, ?_, ?_⟩
    · rw [if_neg (by rw [hlf]; omega)]
      rw [with_lfree_self tb _ hlf]
    · rw [with_lfree_self tb _ hlf]
      refine ⟨lf, hlf, Or.inr ⟨List.mem_append_left _ hl1.1, hl1.2⟩, ?_⟩
      intro x hx hf
      rcases List.mem_append.1 hx with hx | hx
      · exact hmin x hx hf
      · rcases List.mem_cons.1 hx with hx | hx
        · subst hx; exact absurd hf hused
        · have := (cb2 x hx).1
          omega

/-! ## `zm_mem_malloc` on a well-formed heap -/

theorem wfc_congr {s t : State} {L : List Nat} (hw : WFC s L) (hm : ∀ x, t.hdr x = s.hdr x)
    (g1 : t.zmMemHeap = s.zmMemHeap) (g2 : t.zmMemEnd = s.zmMemEnd)
    (g4 : t.zmMemSize = s.zmMemSize) (g5 : t.usedSize = s.usedSize)
    (g6 : t.maxSize = s.maxSize) : WFC t L := by
  have hsent : t.sentinel = s.sentinel := by simp [State.sentinel, g4]
  refine
    { size_al := by rw [g4]; exact hw.size_al
      size_lt := by rw [g4]; exact hw.size_lt
      end_eq := by rw [g2, g1, hsent]; exact hw.end_eq
      chain := by
        rw [hsent]
        exact seg_congr s t L 0 0 _ hw.chain (fun x _ => by rw [hm x]; exact ⟨rfl, rfl, rfl⟩)
      sent_magic := by rw [hsent, hm]; exact hw.sent_magic
      sent_used := by rw [hsent, hm]; exact hw.sent_used
      sent_next := by rw [hsent, hm]; exact hw.sent_next
      noadj := by
        refine chain'_of_mem _ _ _ hw.noadj ?_
        intro a b _ _ hab
        unfold State.isFree at hab ⊢
        rw [hm a, hm b]
        exact hab
      stats := by
        rw [g5, usedSum_congr s t L (fun x _ => by rw [hm x]; exact ⟨rfl, rfl⟩)]
        exact hw.stats
      peak := by rw [g5, g6]; exact hw.peak }

theorem wfc_with_lfree {s : State} {L : List Nat} (hw : WFC s L) (a : Nat) :
    WFC { s with lfree := a } L :=
  wfc_congr hw (fun _ => rfl) rfl rfl rfl rfl rfl

/-- The chain after the block body of `zm_mem_malloc`, in both cases. -/
theorem mallocBody_wfc (s : State) (L1 L2 : List Nat) (o size : Nat)
    (hw : WFC s (L1 ++ o :: L2)) (hfree : s.isFree o) (hf : size ≤ s.cap o)
    (hal : size % 4 = 0) :
    WFC (mallocBody s size o) (takeList s L1 L2 o size) ∧
      (∃ R, takeList s L1 L2 o size = L1 ++ o :: R ∧ ∀ x ∈ R, x ∈ L2 ∨ x = o + 12 + size) ∧
      (∀ x ∈ L1 ++ L2, (mallocBody s size o).isFree x ↔ s.isFree x) ∧
      ¬ (mallocBody s size o).isFree o := by
  unfold takeList
  by_cases hc : size + 24 ≤ s.cap o
  · rw [if_pos hc]
    obtain ⟨h1, h2⟩ := mallocBody_wfc_split s L1 L2 o size hw hfree hc hal
    obtain ⟨hcap, hn12, hnS⟩ := (wfc_cap_eq hw)
    obtain ⟨_, _, _, _, _, _, cle, _, _⟩ := chain_cut s L1 L2 o hw.chain
    rw [hcap] at hc
    obtain ⟨bo, _⟩ := mallocBody_split s size o hn12 cle (wfb_size28 hw.toWFB) hc
    refine ⟨h1, ⟨_, rfl, ?_⟩, ?_, ?_⟩
    · intro x hx
      rcases List.mem_cons.1 hx with hx | hx
      · exact Or.inr hx
      · exact Or.inl hx
    · intro x hx
      unfold State.isFree
      rcases h2 x hx with h | h <;> rw [h]
    · unfold State.isFree; rw [bo]; simp
  · rw [if_neg hc]
    obtain ⟨h1, h2⟩ := mallocBody_wfc_whole s L1 L2 o size hw hfree hf (by omega)
    obtain ⟨hcap, hn12, hnS⟩ := (wfc_cap_eq hw)
    obtain ⟨_, _, _, _, _, _, cle, _, _⟩ := chain_cut s L1 L2 o hw.chain
    rw [hcap] at hc hf
    obtain ⟨bo, _⟩ := mallocBody_whole s size o hn12 cle (wfb_size28 hw.toWFB) hf (by omega)
    refine ⟨h1, ⟨_, rfl, fun x hx => Or.inl hx⟩, ?_, ?_⟩
    · intro x hx
      unfold State.isFree
      rw [h2 x hx]
    · unfold State.isFree; rw [bo]; simp

/-- Taking the free block at `o` of a well-formed heap: unless the `lfree` loop runs out
of iterations, the call returns the payload address of `o` and the heap is well formed,
with the new list of blocks. -/
theorem mallocTake_wf (s : State) (L1 L2 : List Nat) (o size k : Nat)
    (hw : WFL s (L1 ++ o :: L2)) (hfree : s.isFree o) (hf : size ≤ s.cap o)
    (hal : size % 4 = 0) :
    (mallocTake k s size o = Outcome.more ∧ k ≤ L2.length + 2) ∨
    ∃ lf', mallocTake k s size o = Outcome.ret (s.zmMemHeap + o + 12)
        { mallocBody s size o with lfree := s.zmMemHeap + lf' } ∧
      WFL { mallocBody s size o with lfree := s.zmMemHeap + lf' } (takeList s L1 L2 o size) := by
  obtain ⟨hb, ⟨R, hR, hRm⟩, hfl, hnf⟩ := mallocBody_wfc s L1 L2 o size hw.toWFC hfree hf hal
  obtain ⟨g1, g2, g3, g4, g5⟩ := mallocBody_globals s size o
  obtain ⟨lf, l1, l2, l3⟩ := hw.lfree_ok
  obtain ⟨_, _, _, _, cn, _, cle, cb1, cb2⟩ := chain_cut s L1 L2 o hw.chain
  have hlo : lf ≤ o := l3 o (by simp) hfree
  have hlf : lf = o ∨ (lf ∈ L1 ∧ (mallocBody s size o).isFree lf) := by
    rcases l2 with h | ⟨h, hf'⟩
    · omega
    · rcases List.mem_append.1 h with h | h
      · exact Or.inr ⟨h, (hfl lf (List.mem_append_left _ h)).2 hf'⟩
      · rcases List.mem_cons.1 h with h | h
        · exact Or.inl h
        · have := (cb2 lf h).1
          omega
  have hmin : ∀ x ∈ L1, (mallocBody s size o).isFree x → lf ≤ x := by
    intro x hx hfx
    exact l3 x (List.mem_append_left _ hx) ((hfl x (List.mem_append_left _ hx)).1 hfx)
  rw [hR] at hb ⊢
  have hRl : R.length ≤ L2.length + 1 := by
    unfold takeList at hR
    split at hR
    · have := List.append_cancel_left hR
      have := (List.cons.inj this).2
      rw [← this]; simp
    · have := List.append_cancel_left hR
      have := (List.cons.inj this).2
      rw [← this]; simp
  have key := lfreeUpdate_ok (mallocBody s size o) L1 R o lf k hb (by rw [g3, g1]; exact l1)
    hnf hlf hmin
  unfold mallocTake
  rw [← g1]
  rcases key with h | ⟨lf', e1, e2⟩
  · left; exact ⟨h.1, by omega⟩
  · right
    exact ⟨lf', e1, { toWFC := wfc_with_lfree hb _, lfree_ok := e2 }⟩

/-- The three ways `zm_mem_malloc` ends on a well-formed heap: it is still looping, or it
returns `NULL` and leaves the state alone, or it has taken the first free block from the
lowest one that holds the rounded size and lies under the loop bound, and the heap is
well formed again. -/
theorem malloc_wf (s : State) (L : List Nat) (fuel n : Nat) (hw : WFL s L) :
    zm_mem_malloc fuel s n = Outcome.more ∨
    zm_mem_malloc fuel s n = Outcome.ret 0 s ∨
    ∃ L1 o L2 lf', L = L1 ++ o :: L2 ∧ s.isFree o ∧ mallocSize n ≤ s.cap o ∧
      o + mallocSize n < s.zmMemSize ∧
      (∀ x ∈ L1, s.isFree x → s.cap x < mallocSize n) ∧
      zm_mem_malloc fuel s n = Outcome.ret (s.zmMemHeap + o + 12)
        { mallocBody s (mallocSize n) o with lfree := s.zmMemHeap + lf' } ∧
      WFL { mallocBody s (mallocSize n) o with lfree := s.zmMemHeap + lf' }
        (takeList s L1 L2 o (mallocSize n)) := by
  unfold zm_mem_malloc
  by_cases h0 : n = 0
  · rw [if_pos h0]; right; left; rfl
  rw [if_neg h0]
  by_cases h1 : ZM_ALIGN_GET n > s.zmMemSize
  · rw [if_pos h1]; right; left; rfl
  rw [if_neg h1]
  obtain ⟨lf, l1, l2, l3⟩ := hw.lfree_ok
  have h28 := (wfb_size28 hw.toWFB)
  have hS := sentinel_eq s
  have hscan : ∃ P R q, L = P ++ R ∧ Seg s q lf R s.sentinel ∧
      ∀ x ∈ P, s.isFree x → s.cap x < mallocSize n := by
    rcases l2 with h | ⟨h, _⟩
    · refine ⟨L, [], 0, by simp, by rw [seg_nil]; exact h, ?_⟩
      intro x hx hf
      have := l3 x hx hf
      have := ((seg_bounds s _ _ _ _ hw.chain).2 x hx).2.1
      omega
    · obtain ⟨P, R, rfl⟩ := List.append_of_mem h
      obtain ⟨_, cm, cp, cal, cn, c2, _, cb1, _⟩ := chain_cut s P R lf hw.chain
      refine ⟨P, lf :: R, _, rfl, (seg_cons _ _ _ _ _ _).2 ⟨rfl, cm, cp, cal, cn, c2⟩, ?_⟩
      intro x hx hf
      have := l3 x (List.mem_append_left _ hx) hf
      have := cb1 x hx
      omega
  obtain ⟨P, R, q, hL, hseg, hP⟩ := hscan
  have hlfS : lf ≤ s.sentinel := (seg_bounds s _ _ _ _ hseg).1
  have hpd : ptrdiff s.lfree s.zmMemHeap = lf := by
    rw [l1]; exact ptrdiff_add _ _ (by omega)
  rw [hpd]
  rcases mallocLoop_scan s (mallocSize n) hw.sent_used hw.sent_next fuel R P q lf hseg hP with
    h | h | ⟨k, M1, o, M2, e1, e2, e3, e4, e5, e6⟩
  · left; exact h
  · right; left; exact h
  · rw [← hL] at e1
    subst e1
    obtain ⟨hcap, hn12, hnS⟩ := (wfc_cap_eq hw.toWFC)
    have hlt : o + mallocSize n < s.zmMemSize := by
      unfold u32sub at e4
      rw [hcap] at e3
      omega
    rcases mallocTake_wf s M1 M2 o (mallocSize n) k hw e2 e3 (mallocSize_mod n) with
      h | ⟨lf', h1, h2⟩
    · left; rw [e6]; exact h.1
    · right; right
      exact ⟨M1, o, M2, lf', rfl, e2, e3, hlt, e5, by rw [e6]; exact h1, h2⟩

/-! ## `zm_putTogether` and `zm_mem_free` -/

theorem zm_putTogether_eq (s : State) (pMem : Nat) :
    zm_putTogether s pMem =
      (let nextMem := s.zmMemHeap + (s.mem pMem).next
       let s1 :=
         if (s.mem nextMem).magic = ZM_HEAP_MAGIC ∧ nextMem ≠ pMem ∧
             (s.mem nextMem).used = 0 ∧ nextMem ≠ s.zmMemEnd then mergeStep s pMem nextMem
         else s
       let prevMem := s1.zmMemHeap + (s1.mem pMem).prev
       if (s1.mem prevMem).magic = ZM_HEAP_MAGIC ∧ nextMem ≠ pMem ∧ (s1.mem prevMem).used = 0 then
         mergeStep s1 prevMem pMem
       else s1) := rfl

theorem zm_mem_free_eq (s : State) (ptr : Nat) :
    zm_mem_free s ptr =
      if ptr = 0 then Outcome.ret () s
      else if ptr < s.zmMemHeap ∨ ptr ≥ s.zmMemEnd then Outcome.ret () s
      else if (s.mem (ptr - 12)).magic ≠ ZM_HEAP_MAGIC ∨ (s.mem (ptr - 12)).used = 0 then
        Outcome.halt s
      else Outcome.ret () (zm_putTogether (freeMark s (ptr - 12)) (ptr - 12)) := rfl

theorem mergeStep_globals (s : State) (a b : Nat) :
    (mergeStep s a b).zmMemHeap = s.zmMemHeap ∧ (mergeStep s a b).zmMemEnd = s.zmMemEnd ∧
    (mergeStep s a b).zmMemSize = s.zmMemSize ∧ (mergeStep s a b).usedSize = s.usedSize ∧
    (mergeStep s a b).maxSize = s.maxSize ∧ (mergeStep s a b).bytes = s.bytes ∧
    (mergeStep s a b).lfree = if s.lfree = b then a else s.lfree := by
  unfold mergeStep
  dsimp only
  split <;> simp [State.setNext, State.setPrev]

/-- The headers after one merge, by offset. -/
theorem mergeStep_hdr (s : State) (ao bo : Nat) (ha : ao < 4294967296) (x : Nat) :
    (mergeStep s (s.zmMemHeap + ao) (s.zmMemHeap + bo)).hdr x =
      if x = (s.hdr bo).next then
        { (if x = ao then { s.hdr ao with next := (s.hdr bo).next } else s.hdr x) with prev := ao }
      else if x = ao then { s.hdr ao with next := (s.hdr bo).next } else s.hdr x := by
  have hp : ptrdiff (s.zmMemHeap + ao) s.zmMemHeap = ao := ptrdiff_add _ _ ha
  unfold mergeStep
  dsimp only
  have key : ∀ u : State, u.mem = s.mem → u.zmMemHeap = s.zmMemHeap →
      ((u.setNext (s.zmMemHeap + ao) (u.mem (s.zmMemHeap + bo)).next).setPrev
        ((u.setNext (s.zmMemHeap + ao) (u.mem (s.zmMemHeap + bo)).next).zmMemHeap +
          ((u.setNext (s.zmMemHeap + ao) (u.mem (s.zmMemHeap + bo)).next).mem
            (s.zmMemHeap + bo)).next)
        (ptrdiff (s.zmMemHeap + ao)
          (u.setNext (s.zmMemHeap + ao) (u.mem (s.zmMemHeap + bo)).next).zmMemHeap)).hdr x =
      if x = (s.hdr bo).next then
        { (if x = ao then { s.hdr ao with next := (s.hdr bo).next } else s.hdr x) with prev := ao }
      else if x = ao then { s.hdr ao with next := (s.hdr bo).next } else s.hdr x := by
    intro u hm hh
    simp only [hdr_def, State.setNext, State.setPrev, store_mem, store_zmMemHeap, hm, hh, hp,
      Nat.add_left_cancel_iff]
    split_ifs <;> (try dsimp only at *) <;> first | rfl | omega | (subst_vars; rfl)
  by_cases hl : s.lfree = s.zmMemHeap + bo
  · rw [if_pos hl]; exact key _ rfl rfl
  · rw [if_neg hl]; exact key _ rfl rfl

theorem freeMark_globals (s : State) (a : Nat) :
    (freeMark s a).zmMemHeap = s.zmMemHeap ∧ (freeMark s a).zmMemEnd = s.zmMemEnd ∧
    (freeMark s a).zmMemSize = s.zmMemSize ∧ (freeMark s a).maxSize = s.maxSize ∧
    (freeMark s a).bytes = s.bytes ∧
    (freeMark s a).lfree = (if a < s.lfree then a else s.lfree) ∧
    (freeMark s a).usedSize = u32sub s.usedSize (u32sub (s.mem a).next (ptrdiff a s.zmMemHeap)) := by
  unfold freeMark
  by_cases h : a < s.lfree <;> simp [State.setUsed, h]

theorem freeMark_hdr (s : State) (o x : Nat) :
    (freeMark s (s.zmMemHeap + o)).hdr x =
      if x = o then { s.hdr o with used := 0 } else s.hdr x := by
  unfold freeMark
  dsimp only
  split <;> simp [hdr_def, State.setUsed]

/-- A chain with the same headers on its blocks and the same sentinel is as good. -/
theorem wfb_congr {s t : State} {L : List Nat} (hw : WFB s L)
    (hm : ∀ x ∈ L, t.hdr x = s.hdr x)
    (hs : (t.hdr s.sentinel).magic = (s.hdr s.sentinel).magic ∧
      (t.hdr s.sentinel).used = (s.hdr s.sentinel).used ∧
      (t.hdr s.sentinel).next = (s.hdr s.sentinel).next)
    (g1 : t.zmMemHeap = s.zmMemHeap) (g2 : t.zmMemEnd = s.zmMemEnd)
    (g4 : t.zmMemSize = s.zmMemSize) (g5 : t.usedSize = s.usedSize)
    (g6 : t.maxSize = s.maxSize) : WFB t L := by
  have hsent : t.sentinel = s.sentinel := by simp [State.sentinel, g4]
  refine
    { size_al := by rw [g4]; exact hw.size_al
      size_lt := by rw [g4]; exact hw.size_lt
      end_eq := by rw [g2, g1, hsent]; exact hw.end_eq
      chain := by
        rw [hsent]
        exact seg_congr s t L 0 0 _ hw.chain (fun x hx => by rw [hm x hx]; exact ⟨rfl, rfl, rfl⟩)
      sent_magic := by rw [hsent, hs.1]; exact hw.sent_magic
      sent_used := by rw [hsent, hs.2.1]; exact hw.sent_used
      sent_next := by rw [hsent, hs.2.2]; exact hw.sent_next
      stats := by
        rw [g5, usedSum_congr s t L (fun x hx => by rw [hm x hx]; exact ⟨rfl, rfl⟩)]
        exact hw.stats
      peak := by rw [g5, g6]; exact hw.peak }

/-- The heap after `zm_mem_free` marked the block at `o` free. -/
theorem freeMark_wfb (s : State) (L1 L2 : List Nat) (o : Nat)
    (hw : WFB s (L1 ++ o :: L2)) (hl : LfreeOK s (L1 ++ o :: L2)) (hu : ¬ s.isFree o) :
    WFB (freeMark s (s.zmMemHeap + o)) (L1 ++ o :: L2) ∧
      LfreeOK (freeMark s (s.zmMemHeap + o)) (L1 ++ o :: L2) := by
  obtain ⟨c1, cm, cp, cal, cn, c2, cle, cb1, cb2⟩ := chain_cut s L1 L2 o hw.chain
  obtain ⟨g1, g2, g4, g6, _, gl, gu⟩ := freeMark_globals s (s.zmMemHeap + o)
  have h28 := (wfb_size28 hw)
  have hS := sentinel_eq s
  have hsent : (freeMark s (s.zmMemHeap + o)).sentinel = s.sentinel := by
    simp [State.sentinel, g4]
  have hx : ∀ x, x ≠ o → (freeMark s (s.zmMemHeap + o)).hdr x = s.hdr x := by
    intro x hx; rw [freeMark_hdr, if_neg hx]
  have ho : (freeMark s (s.zmMemHeap + o)).hdr o = { s.hdr o with used := 0 } := by
    rw [freeMark_hdr, if_pos rfl]
  have hch : Seg (freeMark s (s.zmMemHeap + o)) 0 0 (L1 ++ o :: L2) s.sentinel := by
    refine seg_congr s _ _ 0 0 _ hw.chain ?_
    intro x _
    rw [freeMark_hdr]
    split
    · subst_vars; exact ⟨rfl, rfl, rfl⟩
    · exact ⟨rfl, rfl, rfl⟩
  have hsum : usedSum s (L1 ++ o :: L2) =
      usedSum (freeMark s (s.zmMemHeap + o)) (L1 ++ o :: L2) + ((s.hdr o).next - o) := by
    rw [usedSum_append, usedSum_cons, usedSum_append, usedSum_cons, ho]
    rw [usedSum_congr s (freeMark s (s.zmMemHeap + o)) L1 (fun x hx' => by
      have := cb1 x hx'; rw [hx x (by omega)]; exact ⟨rfl, rfl⟩)]
    rw [usedSum_congr s (freeMark s (s.zmMemHeap + o)) L2 (fun x hx' => by
      have := cb2 x hx'; rw [hx x (by omega)]; exact ⟨rfl, rfl⟩)]
    have : (s.hdr o).used ≠ 0 := hu
    simp [this]
    omega
  refine ⟨?_, ?_⟩
  · refine
      { size_al := by rw [g4]; exact hw.size_al
        size_lt := by rw [g4]; exact hw.size_lt
        end_eq := by rw [g2, g1, hsent]; exact hw.end_eq
        chain := by rw [hsent]; exact hch
        sent_magic := by rw [hsent, hx _ (by omega)]; exact hw.sent_magic
        sent_used := by rw [hsent, hx _ (by omega)]; exact hw.sent_used
        sent_next := by rw [hsent, hx _ (by omega)]; exact hw.sent_next
        stats := ?st
        peak := ?pk }
    case st =>
      have hle := usedSum_le s _ _ _ _ hw.chain
      have hs := hw.stats
      rw [gu, ptrdiff_add _ _ (by omega), ← hdr_def, hs]
      unfold u32sub
      omega
    case pk =>
      have hle := usedSum_le s _ _ _ _ hw.chain
      have hs := hw.stats
      have hp := hw.peak
      rw [gu, g6, ptrdiff_add _ _ (by omega), ← hdr_def]
      unfold u32sub
      omega
  · obtain ⟨lf, l1, l2, l3⟩ := hl
    have hfo : (freeMark s (s.zmMemHeap + o)).isFree o := by
      unfold State.isFree; rw [ho]
    have hfx : ∀ x, x ≠ o → ((freeMark s (s.zmMemHeap + o)).isFree x ↔ s.isFree x) := by
      intro x hx'; unfold State.isFree; rw [hx x hx']
    by_cases hlt : o < lf
    · refine ⟨o, ?_, Or.inr ⟨by simp, hfo⟩, ?_⟩
      · rw [gl, g1, l1, if_pos (by omega)]
      · intro x hx' hf
        by_cases hxo : x = o
        · omega
        · have := l3 x hx' ((hfx x hxo).1 hf)
          omega
    · refine ⟨lf, ?_, ?_, ?_⟩
      · rw [gl, g1, l1, if_neg (by omega)]
      · rcases l2 with h | ⟨h, hf⟩
        · omega
        · right
          refine ⟨h, ?_⟩
          by_cases hxo : lf = o
          · rw [hxo]; exact hfo
          · exact (hfx lf hxo).2 hf
      · intro x hx' hf
        by_cases hxo : x = o
        · omega
        · exact l3 x hx' ((hfx x hxo).1 hf)

/-- One merge of two free neighbours `a`, `b` of a chain: the block `b` leaves the chain,
`a` reaches to where `b` reached, the flags of all blocks stay, and `lfree` stays at the
lowest free block. -/
theorem mergeStep_wfb (s : State) (A B : List Nat) (a b : Nat)
    (hw : WFB s (A ++ a :: b :: B)) (hl : LfreeOK s (A ++ a :: b :: B))
    (hfa : s.isFree a) (hfb : s.isFree b) :
    WFB (mergeStep s (s.zmMemHeap + a) (s.zmMemHeap + b)) (A ++ a :: B) ∧
    LfreeOK (mergeStep s (s.zmMemHeap + a) (s.zmMemHeap + b)) (A ++ a :: B) ∧
    (∀ x, ((mergeStep s (s.zmMemHeap + a) (s.zmMemHeap + b)).hdr x).used = (s.hdr x).used) ∧
    (∀ x, ((mergeStep s (s.zmMemHeap + a) (s.zmMemHeap + b)).hdr x).magic = (s.hdr x).magic) ∧
    (∀ x, x ≠ a →
      ((mergeStep s (s.zmMemHeap + a) (s.zmMemHeap + b)).hdr x).next = (s.hdr x).next) ∧
    (∀ x, x ≠ (s.hdr b).next →
      ((mergeStep s (s.zmMemHeap + a) (s.zmMemHeap + b)).hdr x).prev = (s.hdr x).prev) ∧
    ((mergeStep s (s.zmMemHeap + a) (s.zmMemHeap + b)).hdr a).next = (s.hdr b).next := by
  obtain ⟨c1, cm, cp, cal, cn, c2, cle, cb1, cb2⟩ := chain_cut s A (b :: B) a hw.chain
  have hab : (s.hdr a).next = b := (seg_head s _ _ _ _ _ c2).symm
  rw [hab] at c2 cn
  have c2' := c2
  rw [seg_cons] at c2'
  obtain ⟨_, bm, bp, bal, bn, b2⟩ := c2'
  have bb := seg_bounds s _ _ _ _ b2
  have h28 := (wfb_size28 hw)
  have hS := sentinel_eq s
  have ha32 : a < 4294967296 := by omega
  obtain ⟨g1, g2, g4, g5, g6, _, gl⟩ := mergeStep_globals s (s.zmMemHeap + a) (s.zmMemHeap + b)
  have hh := mergeStep_hdr s a b ha32
  generalize mergeStep s (s.zmMemHeap + a) (s.zmMemHeap + b) = t at *
  have hsent : t.sentinel = s.sentinel := by simp [State.sentinel, g4]
  have ta : t.hdr a = { s.hdr a with next := (s.hdr b).next } := by
    rw [hh, if_neg (by omega), if_pos rfl]
  have tn : t.hdr (s.hdr b).next = { s.hdr (s.hdr b).next with prev := a } := by
    rw [hh, if_pos rfl, if_neg (by omega)]
  have tx : ∀ x, x ≠ a → x ≠ (s.hdr b).next → t.hdr x = s.hdr x := by
    intro x h1 h2
    rw [hh, if_neg h2, if_neg h1]
  have hused : ∀ x, (t.hdr x).used = (s.hdr x).used := by
    intro x
    by_cases h1 : x = a
    · rw [h1, ta]
    · by_cases h2 : x = (s.hdr b).next
      · rw [h2, tn]
      · rw [tx x h1 h2]
  have hmagic : ∀ x, (t.hdr x).magic = (s.hdr x).magic := by
    intro x
    by_cases h1 : x = a
    · rw [h1, ta]
    · by_cases h2 : x = (s.hdr b).next
      · rw [h2, tn]
      · rw [tx x h1 h2]
  have hnext : ∀ x, x ≠ a → (t.hdr x).next = (s.hdr x).next := by
    intro x h1
    by_cases h2 : x = (s.hdr b).next
    · rw [h2, tn]
    · rw [tx x h1 h2]
  have hprev : ∀ x, x ≠ (s.hdr b).next → (t.hdr x).prev = (s.hdr x).prev := by
    intro x h2
    by_cases h1 : x = a
    · rw [h1, ta]
    · rw [tx x h1 h2]
  have hch : Seg t 0 0 (A ++ a :: B) s.sentinel := by
    refine (seg_append _ A _ 0 0 _).2 ⟨a, ?_, ?_⟩
    · refine seg_congr s _ A 0 0 a c1 (fun x hx => ?_)
      have := cb1 x hx
      rw [tx x (by omega) (by omega)]
      exact ⟨rfl, rfl, rfl⟩
    · rw [seg_cons, ta]
      dsimp only
      refine ⟨rfl, cm, cp, cal, by omega, ?_⟩
      refine seg_transfer s _ B b a _ _ b2 ?_ ?_ ?_
      · intro x hx
        have := (bb.2 x hx).1
        exact ⟨hmagic x, hnext x (by omega)⟩
      · intro x _ hne
        exact hprev x hne
      · intro _
        rw [tn]
  refine ⟨?_, ?_, hused, hmagic, hnext, hprev, by rw [ta]⟩
  · refine
      { size_al := by rw [g4]; exact hw.size_al
        size_lt := by rw [g4]; exact hw.size_lt
        end_eq := by rw [g2, g1, hsent]; exact hw.end_eq
        chain := by rw [hsent]; exact hch
        sent_magic := by rw [hsent, hmagic]; exact hw.sent_magic
        sent_used := by rw [hsent, hused]; exact hw.sent_used
        sent_next := by rw [hsent, hnext _ (by omega)]; exact hw.sent_next
        stats := ?st
        peak := ?pk }
    case st =>
      have e1 : usedSum t (A ++ a :: B) = usedSum s (A ++ a :: b :: B) := by
        rw [usedSum_append, usedSum_cons, usedSum_append, usedSum_cons, usedSum_cons]
        rw [usedSum_congr s t A (fun x hx => by
          have := cb1 x hx; exact ⟨hused x, hnext x (by omega)⟩)]
        rw [usedSum_congr s t B (fun x hx => by
          have := (bb.2 x hx).1; exact ⟨hused x, hnext x (by omega)⟩)]
        have e2 : (s.hdr a).used = 0 := hfa
        have e3 : (s.hdr b).used = 0 := hfb
        rw [hused a]
        simp [e2, e3]
      rw [g5, e1]; exact hw.stats
    case pk => rw [g5, g6]; exact hw.peak
  · obtain ⟨lf, l1, l2, l3⟩ := hl
    have hla : lf ≤ a := l3 a (by simp) hfa
    have hfl : ∀ x, t.isFree x ↔ s.isFree x := by
      intro x; unfold State.isFree; rw [hused x]
    refine ⟨lf, ?_, ?_, ?_⟩
    · rw [gl, g1, l1, if_neg (by omega)]
    · rcases l2 with h | ⟨h, hf⟩
      · omega
      · right
        refine ⟨?_, (hfl lf).2 hf⟩
        rcases List.mem_append.1 h with h | h
        · exact List.mem_append_left _ h
        · rcases List.mem_cons.1 h with h | h
          · rw [h]; simp
          · rcases List.mem_cons.1 h with h | h
            · omega
            · exact List.mem_append_right _ (List.mem_cons_of_mem _ h)
    · intro x hx hf
      refine l3 x ?_ ((hfl x).1 hf)
      rcases List.mem_append.1 hx with h | h
      · exact List.mem_append_left _ h
      · rcases List.mem_cons.1 h with h | h
        · rw [h]; simp
        · exact List.mem_append_right _ (List.mem_cons_of_mem _ (List.mem_cons_of_mem _ h))

theorem zm_putTogether_split (s : State) (pMem : Nat) :
    zm_putTogether s pMem =
      bwdMerge (fwdMerge s pMem) pMem (s.zmMemHeap + (s.mem pMem).next) := rfl

theorem zmMem_ext (h1 h2 : zmMem_t) (a : h1.magic = h2.magic) (b : h1.used = h2.used)
    (c : h1.prev = h2.prev) (d : h1.next = h2.next) : h1 = h2 := by
  cases h1; cases h2; simp at a b c d; simp [a, b, c, d]

theorem noAdjX_congr (s t : State) (o : Nat) (L : List Nat)
    (h : ∀ x, (t.hdr x).used = (s.hdr x).used) (hc : L.Chain' (NoAdjX s o)) :
    L.Chain' (NoAdjX t o) := by
  refine hc.imp ?_
  intro a b hab
  unfold NoAdjX State.isFree at hab ⊢
  rw [h a, h b]
  exact hab

/-- The first half of `zm_putTogether` on the block at `o` that has just been freed. -/
theorem fwdMerge_ok (s : State) (L1 L2 : List Nat) (o : Nat)
    (hw : WFB s (L1 ++ o :: L2)) (hl : LfreeOK s (L1 ++ o :: L2)) (hfo : s.isFree o)
    (hx : (L1 ++ o :: L2).Chain' (NoAdjX s o)) :
    ∃ Rr, WFB (fwdMerge s (s.zmMemHeap + o)) (L1 ++ o :: Rr) ∧
      LfreeOK (fwdMerge s (s.zmMemHeap + o)) (L1 ++ o :: Rr) ∧
      (L1 ++ o :: Rr).Chain' (NoAdjX (fwdMerge s (s.zmMemHeap + o)) o) ∧
      (∀ y Q, Rr = y :: Q → ¬ s.isFree y) ∧
      (∀ x, ((fwdMerge s (s.zmMemHeap + o)).hdr x).used = (s.hdr x).used) ∧
      (∀ x, ((fwdMerge s (s.zmMemHeap + o)).hdr x).magic = (s.hdr x).magic) ∧
      (∀ x, x ≠ o → ((fwdMerge s (s.zmMemHeap + o)).hdr x).next = (s.hdr x).next) ∧
      ((fwdMerge s (s.zmMemHeap + o)).hdr o).prev = (s.hdr o).prev ∧
      (fwdMerge s (s.zmMemHeap + o)).zmMemHeap = s.zmMemHeap ∧
      (fwdMerge s (s.zmMemHeap + o)).zmMemSize = s.zmMemSize ∧
      (∀ x ∈ Rr, x ∈ L2) ∧ (∀ x ∈ L2, x ∉ Rr → s.isFree x) ∧
      ((Rr = L2 ∧ fwdMerge s (s.zmMemHeap + o) = s ∧ ∀ y Q, L2 = y :: Q → ¬ s.isFree y) ∨
        ∃ y, L2 = y :: Rr ∧ s.isFree y ∧ y = (s.hdr o).next ∧
          ((fwdMerge s (s.zmMemHeap + o)).hdr o).next = (s.hdr y).next ∧
          ((fwdMerge s (s.zmMemHeap + o)).hdr (s.hdr y).next).prev = o) := by
  obtain ⟨c1, cm, cp, cal, cn, c2, cle, cb1, cb2⟩ := chain_cut s L1 L2 o hw.chain
  have hS := sentinel_eq s
  have h28 := wfb_size28 hw
  unfold fwdMerge
  dsimp only
  rw [← hdr_def, ← hdr_def]
  cases L2 with
  | nil =>
    rw [seg_nil] at c2
    rw [if_neg (by rw [c2, hw.end_eq]; simp)]
    exact ⟨[], hw, hl, hx, by simp, fun _ => rfl, fun _ => rfl, fun _ _ => rfl, rfl, rfl, rfl,
      by simp, by simp, Or.inl ⟨rfl, rfl, by simp⟩⟩
  | cons nx L3 =>
    have hnx : (s.hdr o).next = nx := (seg_head s _ _ _ _ _ c2).symm
    rw [hnx] at c2 cn ⊢
    have c2' := c2
    rw [seg_cons] at c2'
    obtain ⟨_, nm, np, nal, nn, n2⟩ := c2'
    have hnS := (cb2 nx (List.mem_cons_self _ _)).2
    by_cases hfn : s.isFree nx
    · rw [if_pos ⟨nm, by omega, hfn, by rw [hw.end_eq]; omega⟩]
      obtain ⟨m1, m2, m3, m4, m5, m6, m7⟩ := mergeStep_wfb s L1 L3 o nx hw hl hfo hfn
      obtain ⟨g1, _, g4, _⟩ := mergeStep_globals s (s.zmMemHeap + o) (s.zmMemHeap + nx)
      have nb := seg_bounds s _ _ _ _ n2
      refine ⟨L3, m1, m2, ?_, ?_, m3, m4, m5, ?_, g1, g4, ?_, ?_,
        Or.inr ⟨nx, rfl, hfn, rfl, m7, by
          rw [mergeStep_hdr s o nx (by omega), if_pos rfl]⟩⟩
      · refine noAdjX_congr s _ o _ m3 ?_
        rw [List.chain'_split] at hx ⊢
        refine ⟨hx.1, ?_⟩
        have h2 := hx.2
        rw [List.chain'_cons] at h2
        cases L3 with
        | nil => exact List.chain'_singleton _
        | cons y Q =>
          rw [List.chain'_cons]
          have h3 := h2.2
          rw [List.chain'_cons] at h3
          exact ⟨Or.inr (Or.inl rfl), h3.2⟩
      · intro y Q hQ hfy
        subst hQ
        have h2 := (List.chain'_split.1 hx).2
        rw [List.chain'_cons, List.chain'_cons] at h2
        have hy := (nb.2 y (List.mem_cons_self _ _)).1
        rcases h2.2.1 with h | h | h
        · exact h ⟨hfn, hfy⟩
        · omega
        · omega
      · exact m6 o (by omega)
      · intro x hx'; exact List.mem_cons_of_mem _ hx'
      · intro x hx' hn
        rcases List.mem_cons.1 hx' with h | h
        · rw [h]; exact hfn
        · exact absurd h hn
    · rw [if_neg (by intro h; exact hfn h.2.2.1)]
      have hny : ∀ y Q, nx :: L3 = y :: Q → ¬ s.isFree y := by
        intro y Q hQ
        rw [← (List.cons.inj hQ).1]
        exact hfn
      exact ⟨nx :: L3, hw, hl, hx, hny, fun _ => rfl, fun _ => rfl, fun _ _ => rfl, rfl, rfl,
        rfl, fun x hx' => hx', fun x hx' hn => absurd hx' hn, Or.inl ⟨rfl, rfl, hny⟩⟩

theorem noadj_of_noAdjX (t : State) (o : Nat) (l : List Nat) (h : l.Chain' (NoAdjX t o))
    (ho : o ∉ l) : l.Chain' (fun a b => ¬ (t.isFree a ∧ t.isFree b)) := by
  refine chain'_of_mem _ _ l h ?_
  intro a b ha hb hab
  rcases hab with h | h | h
  · exact h
  · exact absurd (h ▸ ha) ho
  · exact absurd (h ▸ hb) ho

theorem lfreeOK_congr (s t : State) (L : List Nat) (h : ∀ x, (t.hdr x).used = (s.hdr x).used)
    (g1 : t.zmMemHeap = s.zmMemHeap) (g4 : t.zmMemSize = s.zmMemSize) (gl : t.lfree = s.lfree)
    (hl : LfreeOK s L) : LfreeOK t L := by
  obtain ⟨lf, l1, l2, l3⟩ := hl
  have hsent : t.sentinel = s.sentinel := by simp [State.sentinel, g4]
  have hf : ∀ x, t.isFree x ↔ s.isFree x := by
    intro x; unfold State.isFree; rw [h x]
  refine ⟨lf, by rw [gl, g1]; exact l1, ?_, fun x hx hfx => l3 x hx ((hf x).1 hfx)⟩
  rcases l2 with h' | ⟨h', hf'⟩
  · left; rw [hsent]; exact h'
  · right; exact ⟨h', (hf lf).2 hf'⟩

/-- The merge of the first block with itself, which the second half of `zm_putTogether`
does at offset `0`, changes no header of the chain. -/
theorem mergeSelf_wfb (s : State) (B : List Nat) (o : Nat)
    (hw : WFB s (o :: B)) (hl : LfreeOK s (o :: B)) :
    WFB (mergeStep s (s.zmMemHeap + o) (s.zmMemHeap + o)) (o :: B) ∧
    LfreeOK (mergeStep s (s.zmMemHeap + o) (s.zmMemHeap + o)) (o :: B) ∧
    (∀ x, ((mergeStep s (s.zmMemHeap + o) (s.zmMemHeap + o)).hdr x).used = (s.hdr x).used) ∧
    (∀ x, ((mergeStep s (s.zmMemHeap + o) (s.zmMemHeap + o)).hdr x).next = (s.hdr x).next) := by
  have ho : o = 0 := seg_head s _ _ _ _ _ hw.chain
  subst ho
  have hc := hw.chain
  have hb := seg_bounds s _ _ _ _ hc
  rw [seg_cons] at hc
  obtain ⟨_, om, op, oal, onx, o2⟩ := hc
  have h28 := (wfb_size28 hw)
  have hS := sentinel_eq s
  have hoS := (hb.2 0 (List.mem_cons_self _ _)).2.1
  have hh := mergeStep_hdr s 0 0 (by omega)
  obtain ⟨g1, g2, g4, g5, g6, _, gl⟩ := mergeStep_globals s (s.zmMemHeap + 0) (s.zmMemHeap + 0)
  generalize mergeStep s (s.zmMemHeap + 0) (s.zmMemHeap + 0) = t at *
  have t0 : t.hdr 0 = s.hdr 0 := by
    rw [hh, if_neg (by omega), if_pos rfl]
  have tn : t.hdr (s.hdr 0).next = { s.hdr (s.hdr 0).next with prev := 0 } := by
    rw [hh, if_pos rfl, if_neg (by omega)]
  have tx : ∀ x, x ≠ (s.hdr 0).next → t.hdr x = s.hdr x := by
    intro x h2
    by_cases h1 : x = 0
    · rw [h1]; exact t0
    · rw [hh, if_neg h2, if_neg h1]
  have hused : ∀ x, (t.hdr x).used = (s.hdr x).used := by
    intro x
    by_cases h2 : x = (s.hdr 0).next
    · rw [h2, tn]
    · rw [tx x h2]
  have hnext : ∀ x, (t.hdr x).next = (s.hdr x).next := by
    intro x
    by_cases h2 : x = (s.hdr 0).next
    · rw [h2, tn]
    · rw [tx x h2]
  have hmagic : ∀ x, (t.hdr x).magic = (s.hdr x).magic := by
    intro x
    by_cases h2 : x = (s.hdr 0).next
    · rw [h2, tn]
    · rw [tx x h2]
  have hL : ∀ x ∈ 0 :: B, t.hdr x = s.hdr x := by
    intro x hx
    by_cases h2 : x = (s.hdr 0).next
    · refine zmMem_ext _ _ (hmagic x) (hused x) ?_ (hnext x)
      rw [h2, tn]
      rcases List.mem_cons.1 hx with h | h
      · omega
      · rw [h2] at h
        cases B with
        | nil => simp at h
        | cons y Q =>
          rw [seg_cons] at o2
          exact o2.2.2.1.symm
    · exact tx x h2
  have glf : t.lfree = s.lfree := by
    rw [gl]; split
    · next h => exact h.symm
    · rfl
  exact ⟨wfb_congr hw hL ⟨hmagic _, hused _, hnext _⟩ g1 g2 g4 g5 g6,
    lfreeOK_congr s t _ hused g1 g4 glf hl, hused, hnext⟩

/-- The second half of `zm_putTogether` on the block at `o` that has just been freed and
whose successor is not free: the chain is well formed again. -/
theorem bwdMerge_ok (s : State) (L1 Rr : List Nat) (o nextMem : Nat)
    (hw : WFB s (L1 ++ o :: Rr)) (hl : LfreeOK s (L1 ++ o :: Rr)) (hfo : s.isFree o)
    (hx : (L1 ++ o :: Rr).Chain' (NoAdjX s o))
    (hy : ∀ y Q, Rr = y :: Q → ¬ s.isFree y) (hne : nextMem ≠ s.zmMemHeap + o) :
    ∃ LC, WFC (bwdMerge s (s.zmMemHeap + o) nextMem) LC ∧
      LfreeOK (bwdMerge s (s.zmMemHeap + o) nextMem) LC ∧
      (∀ x, ((bwdMerge s (s.zmMemHeap + o) nextMem).hdr x).used = (s.hdr x).used) ∧
      (∀ x, ¬ s.isFree x →
        ((bwdMerge s (s.zmMemHeap + o) nextMem).hdr x).next = (s.hdr x).next) ∧
      (bwdMerge s (s.zmMemHeap + o) nextMem).zmMemHeap = s.zmMemHeap ∧
      (bwdMerge s (s.zmMemHeap + o) nextMem).zmMemSize = s.zmMemSize ∧
      (∀ x ∈ LC, x ∈ L1 ++ o :: Rr) ∧ (∀ x ∈ L1 ++ o :: Rr, x ∉ LC → s.isFree x) ∧
      ((L1 = [] ∧ LC = o :: Rr ∧
          (∀ x, ((bwdMerge s (s.zmMemHeap + o) nextMem).hdr x).next = (s.hdr x).next) ∧
          ((bwdMerge s (s.zmMemHeap + o) nextMem).hdr (s.hdr o).next).prev = o) ∨
        (∃ L0 pv, L1 = L0 ++ [pv] ∧ s.isFree pv ∧ pv = (s.hdr o).prev ∧ LC = L0 ++ pv :: Rr ∧
          ((bwdMerge s (s.zmMemHeap + o) nextMem).hdr pv).next = (s.hdr o).next ∧
          ((bwdMerge s (s.zmMemHeap + o) nextMem).hdr (s.hdr o).next).prev = pv ∧
          ∀ x, x ≠ pv → ((bwdMerge s (s.zmMemHeap + o) nextMem).hdr x).next = (s.hdr x).next) ∨
        (∃ L0 pv, L1 = L0 ++ [pv] ∧ ¬ s.isFree pv ∧ pv = (s.hdr o).prev ∧
          LC = L1 ++ o :: Rr ∧ bwdMerge s (s.zmMemHeap + o) nextMem = s)) := by
  have h28 := wfb_size28 hw
  have hS := sentinel_eq s
  obtain ⟨c1, cm, cp, cal, cn, c2, cle, cb1, cb2⟩ := chain_cut s L1 Rr o hw.chain
  have hright : (o :: Rr).Chain' (fun a b => ¬ (s.isFree a ∧ s.isFree b)) := by
    have h2 := (List.chain'_split.1 hx).2
    cases Rr with
    | nil => exact List.chain'_singleton _
    | cons y Q =>
      rw [List.chain'_cons] at h2 ⊢
      refine ⟨fun h => hy y Q rfl h.2, noadj_of_noAdjX s o _ h2.2 ?_⟩
      intro hmem
      have := (cb2 o hmem).1
      omega
  have hrightT : ∀ m, s.isFree m → (m :: Rr).Chain' (fun a b => ¬ (s.isFree a ∧ s.isFree b)) := by
    intro m _
    cases Rr with
    | nil => exact List.chain'_singleton _
    | cons y Q =>
      rw [List.chain'_cons] at hright ⊢
      exact ⟨fun h => hy y Q rfl h.2, hright.2⟩
  unfold bwdMerge
  dsimp only
  simp only [← hdr_def]
  rw [cp]
  rcases List.eq_nil_or_concat L1 with h | ⟨L0, pv, h⟩
  · subst h
    rw [seg_nil] at c1
    subst c1
    simp only [List.getLastD_nil, List.nil_append] at *
    rw [if_pos ⟨cm, hne, hfo⟩]
    obtain ⟨m1, m2, m3, m4⟩ := mergeSelf_wfb s Rr 0 hw hl
    obtain ⟨g1, _, g4, _⟩ := mergeStep_globals s (s.zmMemHeap + 0) (s.zmMemHeap + 0)
    refine ⟨0 :: Rr, ⟨m1, ?_⟩, m2, m3, fun x _ => m4 x, g1, g4, fun x hx' => hx',
      fun x hx' hn => absurd hx' hn, Or.inl ⟨trivial, rfl, m4, by
        rw [mergeStep_hdr s 0 0 (by omega), if_pos rfl]⟩⟩
    refine hright.imp ?_
    intro a b hab
    unfold State.isFree at hab ⊢
    rw [m3 a, m3 b]
    exact hab
  · rw [List.concat_eq_append] at h
    subst h
    have hgl : (L0 ++ [pv]).getLastD 0 = pv := by simp
    rw [hgl]
    have hA : (L0 ++ [pv]) ++ o :: Rr = L0 ++ pv :: o :: Rr := by simp
    rw [hA] at hw hl hx
    obtain ⟨p1, pm, pp, pal, pn, p2, _, pb1, pb2⟩ := chain_cut s L0 (o :: Rr) pv hw.chain
    have hpo := (pb2 o (List.mem_cons_self _ _)).1
    have hleft : (L0 ++ [pv]).Chain' (fun a b => ¬ (s.isFree a ∧ s.isFree b)) := by
      refine noadj_of_noAdjX s o _ (List.chain'_split.1 hx).1 ?_
      intro hmem
      rcases List.mem_append.1 hmem with h | h
      · have := pb1 o h; omega
      · simp at h; omega
    by_cases hfp : s.isFree pv
    · rw [if_pos ⟨pm, hne, hfp⟩]
      obtain ⟨m1, m2, m3, m4, m5, m6, m7⟩ := mergeStep_wfb s L0 Rr pv o hw hl hfp hfo
      obtain ⟨g1, _, g4, _⟩ := mergeStep_globals s (s.zmMemHeap + pv) (s.zmMemHeap + o)
      refine ⟨L0 ++ pv :: Rr, ⟨m1, ?_⟩, m2, m3, ?_, g1, g4, ?_, ?_,
        Or.inr (Or.inl ⟨L0, pv, rfl, hfp, rfl, rfl, m7, by
          rw [mergeStep_hdr s pv o (by omega), if_pos rfl], m5⟩)⟩
      · have : (L0 ++ pv :: Rr).Chain' (fun a b => ¬ (s.isFree a ∧ s.isFree b)) :=
          List.chain'_split.2 ⟨hleft, hrightT pv hfp⟩
        refine this.imp ?_
        intro a b hab
        unfold State.isFree at hab ⊢
        rw [m3 a, m3 b]
        exact hab
      · intro x hfx
        refine m5 x ?_
        intro h
        rw [h] at hfx
        exact hfx hfp
      · intro x hx'
        rw [hA]
        rcases List.mem_append.1 hx' with h | h
        · exact List.mem_append_left _ h
        · rcases List.mem_cons.1 h with h | h
          · rw [h]; simp
          · exact List.mem_append_right _ (List.mem_cons_of_mem _ (List.mem_cons_of_mem _ h))
      · intro x hx' hn
        rw [hA] at hx'
        rcases List.mem_append.1 hx' with h | h
        · exact absurd (List.mem_append_left _ h) hn
        · rcases List.mem_cons.1 h with h | h
          · rw [h] at hn; simp at hn
          · rcases List.mem_cons.1 h with h | h
            · rw [h]; exact hfo
            · exact absurd (List.mem_append_right _ (List.mem_cons_of_mem _ h)) hn
    · rw [if_neg (by intro h; exact hfp h.2.2)]
      refine ⟨(L0 ++ [pv]) ++ o :: Rr, ⟨by rw [hA]; exact hw, ?_⟩, by rw [hA]; exact hl,
        fun _ => rfl, fun _ _ => rfl, rfl, rfl, fun x hx' => hx', fun x hx' hn => absurd hx' hn,
        Or.inr (Or.inr ⟨L0, pv, rfl, hfp, rfl, rfl, rfl⟩)⟩
      rw [hA]
      rw [List.chain'_split] at hleft ⊢
      refine ⟨?_, ?_⟩
      · exact (@List.chain'_split _ _ pv L0 []).1 (by simpa using hleft) |>.1
      · rw [List.chain'_cons]
        exact ⟨fun h => hfp h.1, hright⟩

/-- Freeing a block in use of a well-formed heap, in detail: the call returns, the heap is
well formed again, and the freed block is part of the free block from `b` to `e`, where
`b` is the block before when that one was free and the block itself otherwise, and `e` is
the end of the block behind when that one was free and the end of the block itself
otherwise. -/
theorem free_merge (s : State) (L1 L2 : List Nat) (o : Nat) (hw : WFL s (L1 ++ o :: L2))
    (hu : ¬ s.isFree o) (hin : o + 12 < s.sentinel) :
    ∃ t LC b e, zm_mem_free s (s.zmMemHeap + o + 12) = Outcome.ret () t ∧ WFL t LC ∧
      t.zmMemHeap = s.zmMemHeap ∧ t.zmMemSize = s.zmMemSize ∧
      (∀ x, (t.hdr x).used = if x = o then 0 else (s.hdr x).used) ∧
      (∀ x, ¬ s.isFree x → x ≠ o → (t.hdr x).next = (s.hdr x).next) ∧
      (∀ x ∈ LC, x ∈ L1 ++ o :: L2) ∧
      (∀ x ∈ L1 ++ o :: L2, x ∉ LC → s.isFree x ∨ x = o) ∧
      b = (if (s.hdr o).prev ≠ o ∧ s.isFree (s.hdr o).prev then (s.hdr o).prev else o) ∧
      e = (if s.isFree (s.hdr o).next ∧ (s.hdr o).next ≠ s.sentinel then
        (s.hdr (s.hdr o).next).next else (s.hdr o).next) ∧
      b ∈ LC ∧ (t.hdr b).next = e ∧
      (∀ x, x ≠ b → x ≠ o → (t.hdr x).next = (s.hdr x).next) ∧
      (o ≠ b → o ∉ LC) ∧
      ((b ≠ o ∨ o = 0 ∨ e ≠ (s.hdr o).next) → (t.hdr e).prev = b) ∧
      (∀ x ∈ L1 ++ o :: L2, x ∉ LC → x = o ∨ x = (s.hdr o).next) ∧ b ≤ o ∧ o < e := by
  obtain ⟨c1, cm, cp, cal, cn, c2, cle, cb1, cb2⟩ := chain_cut s L1 L2 o hw.chain
  have hS := sentinel_eq s
  have hsub : s.zmMemHeap + o + 12 - 12 = s.zmMemHeap + o := by omega
  rw [zm_mem_free_eq, if_neg (by omega), if_neg (by rw [hw.end_eq]; omega), hsub, ← hdr_def,
    if_neg (by
      intro h
      rcases h with h | h
      · exact h cm
      · exact hu h)]
  obtain ⟨a1, a2⟩ := freeMark_wfb s L1 L2 o hw.toWFB hw.lfree_ok hu
  obtain ⟨g1, _, g4, _⟩ := freeMark_globals s (s.zmMemHeap + o)
  have ah := freeMark_hdr s o
  have hxA : (L1 ++ o :: L2).Chain' (NoAdjX (freeMark s (s.zmMemHeap + o)) o) := by
    refine hw.noadj.imp ?_
    intro a b hab
    by_cases ha : a = o
    · exact Or.inr (Or.inl ha)
    by_cases hb : b = o
    · exact Or.inr (Or.inr hb)
    left
    unfold State.isFree at hab ⊢
    rw [ah a, ah b, if_neg ha, if_neg hb]
    exact hab
  have hfoA : (freeMark s (s.zmMemHeap + o)).isFree o := by
    unfold State.isFree; rw [ah o, if_pos rfl]
  have hnA : ((freeMark s (s.zmMemHeap + o)).hdr o).next = (s.hdr o).next := by
    rw [ah o, if_pos rfl]
  rw [zm_putTogether_split]
  generalize freeMark s (s.zmMemHeap + o) = sA at *
  rw [← g1, ← hdr_def]
  obtain ⟨Rr, b1, b2, b3, b4, b5, b6, b7, b8, b9, b10, b11, b12, b13⟩ :=
    fwdMerge_ok sA L1 L2 o a1 a2 hfoA hxA
  have hne' : sA.zmMemHeap + (sA.hdr o).next ≠ sA.zmMemHeap + o := by
    rw [hnA]; omega
  generalize sA.zmMemHeap + (sA.hdr o).next = nm at *
  have hne : nm ≠ (fwdMerge sA (sA.zmMemHeap + o)).zmMemHeap + o := by
    rw [b9]; exact hne'
  have hfoB : (fwdMerge sA (sA.zmMemHeap + o)).isFree o := by
    unfold State.isFree; rw [b5]; exact hfoA
  have hyB : ∀ y Q, Rr = y :: Q → ¬ (fwdMerge sA (sA.zmMemHeap + o)).isFree y := by
    intro y Q hQ
    unfold State.isFree; rw [b5]; exact b4 y Q hQ
  generalize fwdMerge sA (sA.zmMemHeap + o) = sB at *
  rw [← b9]
  obtain ⟨LC, d1, d2, d3, d4, d5, d6, d7, d8, d9⟩ :=
    bwdMerge_ok sB L1 Rr o _ b1 b2 hfoB b3 hyB hne
  generalize bwdMerge sB (sB.zmMemHeap + o) nm = t at *
  have anx : ∀ x, (sA.hdr x).next = (s.hdr x).next := by
    intro x; rw [ah]; split
    · next h => rw [h]
    · rfl
  have apv : ∀ x, (sA.hdr x).prev = (s.hdr x).prev := by
    intro x; rw [ah]; split
    · next h => rw [h]
    · rfl
  have afr : ∀ x, x ≠ o → (sA.isFree x ↔ s.isFree x) := by
    intro x hx; unfold State.isFree; rw [ah, if_neg hx]
  have bfr : ∀ x, sB.isFree x ↔ sA.isFree x := by
    intro x; unfold State.isFree; rw [b5]
  -- the end of the merged block
  have hE : (sB.hdr o).next =
      (if s.isFree (s.hdr o).next ∧ (s.hdr o).next ≠ s.sentinel then
        (s.hdr (s.hdr o).next).next else (s.hdr o).next) ∧
      ((if s.isFree (s.hdr o).next ∧ (s.hdr o).next ≠ s.sentinel then
        (s.hdr (s.hdr o).next).next else (s.hdr o).next) ≠ (s.hdr o).next →
        (sB.hdr (sB.hdr o).next).prev = o) ∧
      (∀ x ∈ L2, x ∉ Rr → x = (s.hdr o).next) ∧
      o < (if s.isFree (s.hdr o).next ∧ (s.hdr o).next ≠ s.sentinel then
        (s.hdr (s.hdr o).next).next else (s.hdr o).next) := by
    rcases b13 with ⟨r1, r2, r3⟩ | ⟨y, r1, r2, r3, r4, r5⟩
    · have hcond : ¬ (s.isFree (s.hdr o).next ∧ (s.hdr o).next ≠ s.sentinel) := by
        rintro ⟨hf, hns⟩
        cases L2 with
        | nil => rw [seg_nil] at c2; exact hns c2
        | cons y Q =>
          have hy : (s.hdr o).next = y := (seg_head s _ _ _ _ _ c2).symm
          have hyo : y ≠ o := by
            have := (cb2 y (List.mem_cons_self _ _)).1
            omega
          rw [hy] at hf
          exact r3 y Q rfl ((afr y hyo).2 hf)
      rw [if_neg hcond, r2, anx]
      exact ⟨rfl, fun h => absurd rfl h, fun x hx hn => absurd (r1 ▸ hx) hn, by omega⟩
    · rw [anx] at r3
      have hyo : y ≠ o := by
        have := (cb2 y (by rw [r1]; exact List.mem_cons_self _ _)).1
        omega
      have hys : y ≠ s.sentinel := by
        have := (cb2 y (by rw [r1]; exact List.mem_cons_self _ _)).2
        omega
      have hyn : y + 12 ≤ (s.hdr y).next := by
        have hc := c2
        rw [r1, seg_cons] at hc
        rw [hc.1]
        exact hc.2.2.2.2.1
      have hyl := (cb2 y (by rw [r1]; exact List.mem_cons_self _ _)).1
      rw [← r3, if_pos ⟨(afr y hyo).1 r2, hys⟩, r4, anx]
      refine ⟨rfl, fun _ => ?_, ?_, by omega⟩
      · rw [anx] at r5; exact r5
      · intro x hx hn
        rw [r1] at hx
        rcases List.mem_cons.1 hx with h | h
        · exact h
        · exact absurd h hn
  obtain ⟨hE1, hE2, hE3, hE4⟩ := hE
  generalize (if s.isFree (s.hdr o).next ∧ (s.hdr o).next ≠ s.sentinel then
    (s.hdr (s.hdr o).next).next else (s.hdr o).next) = e at hE1 hE2 hE4 ⊢
  have hrem : ∀ x ∈ L1 ++ o :: L2, x ∉ L1 ++ o :: Rr → x = (s.hdr o).next := by
    intro x hx hn
    rcases List.mem_append.1 hx with h | h
    · exact absurd (List.mem_append_left _ h) hn
    · rcases List.mem_cons.1 h with h | h
      · rw [h] at hn; simp at hn
      · exact hE3 x h (fun h' => hn (List.mem_append_right _ (List.mem_cons_of_mem _ h')))
  have hRr : ∀ x ∈ Rr, o < x := by
    intro x hx
    have := (cb2 x (b11 x hx)).1
    omega
  have key : ∃ b, b = (if (s.hdr o).prev ≠ o ∧ s.isFree (s.hdr o).prev then
        (s.hdr o).prev else o) ∧ b ∈ LC ∧ (t.hdr b).next = e ∧
      (∀ x, x ≠ b → x ≠ o → (t.hdr x).next = (s.hdr x).next) ∧ (o ≠ b → o ∉ LC) ∧
      ((b ≠ o ∨ o = 0 ∨ e ≠ (s.hdr o).next) → (t.hdr e).prev = b) ∧
      (∀ x ∈ L1 ++ o :: L2, x ∉ LC → x = o ∨ x = (s.hdr o).next) ∧ b ≤ o := by
    rw [← apv o, ← b8]
    rcases d9 with ⟨r1, r2, r3, r4⟩ | ⟨L0, pv, r1, r2, r3, r4, r5, r6, r7⟩ |
      ⟨L0, pv, r1, r2, r3, r4, r5⟩
    · subst r1
      rw [seg_nil] at c1
      have hp0 : (sB.hdr o).prev = o := by
        rw [b8, apv, cp]; simp [c1]
      rw [if_neg (fun h => h.1 hp0)]
      refine ⟨o, rfl, by rw [r2]; simp, by rw [r3, hE1], ?_, fun h => absurd rfl h, ?_, ?_,
        Nat.le_refl _⟩
      · intro x h1 _
        rw [r3, b7 x h1, anx]
      · intro _
        rw [hE1] at r4
        exact r4
      · intro x hx hn
        rw [r2] at hn
        exact Or.inr (hrem x hx (by simpa using hn))
    · have hpo : pv + 12 ≤ o := cb1 pv (by rw [r1]; simp)
      have hfp : s.isFree pv := (afr pv (by omega)).1 ((bfr pv).1 r2)
      rw [← r3, if_pos ⟨by omega, hfp⟩]
      refine ⟨pv, rfl, by rw [r4]; simp, by rw [r5, hE1], ?_, ?_, ?_, ?_, by omega⟩
      · intro x h1 h2
        rw [r7 x h1, b7 x h2, anx]
      · intro _ hmem
        rw [r4] at hmem
        rcases List.mem_append.1 hmem with h | h
        · have := cb1 o (by rw [r1]; exact List.mem_append_left _ h)
          omega
        · rcases List.mem_cons.1 h with h | h
          · omega
          · have := hRr o h
            omega
      · intro _
        rw [hE1] at r6
        exact r6
      · intro x hx hn
        by_cases hxo : x = o
        · exact Or.inl hxo
        right
        refine hrem x hx ?_
        intro hmem
        apply hn
        rw [r4]
        rw [r1] at hmem
        rcases List.mem_append.1 hmem with h | h
        · rcases List.mem_append.1 h with h | h
          · exact List.mem_append_left _ h
          · simp at h; rw [h]; simp
        · rcases List.mem_cons.1 h with h | h
          · exact absurd h hxo
          · exact List.mem_append_right _ (List.mem_cons_of_mem _ h)
    · have hpo : pv + 12 ≤ o := cb1 pv (by rw [r1]; simp)
      have hfp : ¬ s.isFree pv := fun h => r2 ((bfr pv).2 ((afr pv (by omega)).2 h))
      rw [← r3, if_neg (fun h => hfp h.2)]
      subst r5
      refine ⟨o, rfl, by rw [r4]; simp, hE1, ?_, fun h => absurd rfl h, ?_, ?_, Nat.le_refl _⟩
      · intro x h1 _
        rw [b7 x h1, anx]
      · rintro (h | h | h)
        · exact absurd rfl h
        · omega
        · have := hE2 h
          rw [hE1] at this
          exact this
      · intro x hx hn
        rw [r4] at hn
        exact Or.inr (hrem x hx hn)
  obtain ⟨b, k1, k2, k3, k4, k5, k6, k7, k8⟩ := key
  refine ⟨_, LC, b, e, rfl, { toWFC := d1, lfree_ok := d2 }, by rw [d5, b9, g1],
    by rw [d6, b10, g4], ?_, ?_, ?_, ?_, k1, rfl, k2, k3, k4, k5, k6, k7, k8, hE4⟩
  · intro x
    rw [d3, b5, ah]
    split <;> rfl
  · intro x hfx hxo
    have hA : ¬ sA.isFree x := by
      unfold State.isFree; rw [ah, if_neg hxo]; exact hfx
    have hB : ¬ sB.isFree x := by
      unfold State.isFree; rw [b5]; exact hA
    rw [d4 x hB, b7 x hxo, ah, if_neg hxo]
  · intro x hx
    rcases List.mem_append.1 (d7 x hx) with h | h
    · exact List.mem_append_left _ h
    · rcases List.mem_cons.1 h with h | h
      · rw [h]; simp
      · exact List.mem_append_right _ (List.mem_cons_of_mem _ (b11 x h))
  · intro x hx hn
    by_cases hxo : x = o
    · exact Or.inr hxo
    left
    by_cases hxB : x ∈ L1 ++ o :: Rr
    · have := d8 x hxB hn
      unfold State.isFree at this ⊢
      rw [b5, ah, if_neg hxo] at this
      exact this
    · have hx2 : x ∈ L2 := by
        rcases List.mem_append.1 hx with h | h
        · exact absurd (List.mem_append_left _ h) hxB
        · rcases List.mem_cons.1 h with h | h
          · exact absurd h hxo
          · exact h
      have hxr : x ∉ Rr := fun h => hxB (List.mem_append_right _ (List.mem_cons_of_mem _ h))
      have := b12 x hx2 hxr
      unfold State.isFree at this ⊢
      rw [ah, if_neg hxo] at this
      exact this


/-- Freeing a block in use of a well-formed heap: the call returns, the heap is well
formed again, the block is free, the other blocks keep their flag, the blocks in use
keep their extent, and the new chain is made of blocks of the old one. -/
theorem free_wf (s : State) (L1 L2 : List Nat) (o : Nat) (hw : WFL s (L1 ++ o :: L2))
    (hu : ¬ s.isFree o) (hin : o + 12 < s.sentinel) :
    ∃ t LC, zm_mem_free s (s.zmMemHeap + o + 12) = Outcome.ret () t ∧ WFL t LC ∧
      t.zmMemHeap = s.zmMemHeap ∧ t.zmMemSize = s.zmMemSize ∧
      (∀ x, (t.hdr x).used = if x = o then 0 else (s.hdr x).used) ∧
      (∀ x, ¬ s.isFree x → x ≠ o → (t.hdr x).next = (s.hdr x).next) ∧
      (∀ x ∈ LC, x ∈ L1 ++ o :: L2) ∧
      (∀ x ∈ L1 ++ o :: L2, x ∉ LC → s.isFree x ∨ x = o) := by
  obtain ⟨t, LC, _, _, e1, e2, e3, e4, e5, e6, e7, e8, _⟩ := free_merge s L1 L2 o hw hu hin
  exact ⟨t, LC, e1, e2, e3, e4, e5, e6, e7, e8⟩

/-- What the block body of `zm_mem_malloc` did to the headers: the block at `o` is in
use and holds `size` bytes inside its old extent, the other blocks keep their flag and
their extent, and a block that is new in the list is free. -/
theorem mallocBody_facts (s : State) (L1 L2 : List Nat) (o size : Nat)
    (hw : WFC s (L1 ++ o :: L2)) (hf : size ≤ s.cap o) :
    ((mallocBody s size o).hdr o).used = 1 ∧
    ((mallocBody s size o).hdr o).magic = ZM_HEAP_MAGIC ∧
    o + 12 + size ≤ ((mallocBody s size o).hdr o).next ∧
    ((mallocBody s size o).hdr o).next ≤ (s.hdr o).next ∧
    (∀ x ∈ L1 ++ L2, ((mallocBody s size o).hdr x).used = (s.hdr x).used ∧
      ((mallocBody s size o).hdr x).next = (s.hdr x).next) ∧
    (∀ x ∈ takeList s L1 L2 o size, x ∉ L1 ++ o :: L2 → (mallocBody s size o).isFree x) ∧
    (∀ x ∈ L1 ++ o :: L2, x ∈ takeList s L1 L2 o size) := by
  obtain ⟨hcap, hn12, hnS⟩ := (wfc_cap_eq hw)
  obtain ⟨_, _, _, _, _, _, cle, cb1, cb2⟩ := chain_cut s L1 L2 o hw.chain
  have h28 := (wfb_size28 hw.toWFB)
  unfold takeList
  by_cases hc : size + 24 ≤ s.cap o
  · rw [if_pos hc]
    rw [hcap] at hc
    obtain ⟨bo, bp, bx, bn, _, _⟩ := mallocBody_split s size o hn12 cle h28 hc
    refine ⟨by rw [bo], by rw [bo], by rw [bo], by rw [bo]; dsimp only; omega, ?_, ?_, ?_⟩
    · intro x hx
      have hxo : x ≠ o ∧ x ≠ o + 12 + size := by
        rcases List.mem_append.1 hx with h | h
        · have := cb1 x h; omega
        · have := cb2 x h; omega
      by_cases hxn : x = (s.hdr o).next
      · have hns : (s.hdr o).next ≠ s.sentinel := by
          rcases List.mem_append.1 hx with h | h
          · have := cb1 x h; omega
          · have := cb2 x h; omega
        rw [hxn, bn hns]
        exact ⟨rfl, rfl⟩
      · rw [bx x hxo.1 hxo.2 (Or.inl hxn)]
        exact ⟨rfl, rfl⟩
    · intro x hx hn
      have : x = o + 12 + size := by
        rcases List.mem_append.1 hx with h | h
        · exact absurd (List.mem_append_left _ h) hn
        · rcases List.mem_cons.1 h with h | h
          · rw [h] at hn; simp at hn
          · rcases List.mem_cons.1 h with h | h
            · exact h
            · exact absurd (List.mem_append_right _ (List.mem_cons_of_mem _ h)) hn
      rw [this]
      unfold State.isFree
      rw [bp]
    · intro x hx
      rcases List.mem_append.1 hx with h | h
      · exact List.mem_append_left _ h
      · rcases List.mem_cons.1 h with h | h
        · rw [h]; simp
        · exact List.mem_append_right _ (List.mem_cons_of_mem _ (List.mem_cons_of_mem _ h))
  · rw [if_neg hc]
    rw [hcap] at hc hf
    obtain ⟨bo, bx, _, _⟩ := mallocBody_whole s size o hn12 cle h28 hf (by omega)
    refine ⟨by rw [bo], by rw [bo], by rw [bo]; dsimp only; omega, by rw [bo], ?_,
      fun x hx hn => absurd hx hn, fun x hx => hx⟩
    intro x hx
    have hxo : x ≠ o := by
      rcases List.mem_append.1 hx with h | h
      · have := cb1 x h; omega
      · have := cb2 x h; omega
    rw [bx x hxo]
    exact ⟨rfl, rfl⟩

/-! ## `zm_mem_init` -/

theorem ZM_ALIGN_four (x : Nat) :
    ZM_ALIGN x ZM_MEM_ALIGN_SIZE = (x + 3) % 4294967296 - ((x + 3) % 4294967296) % 4 := rfl

theorem ZM_ALIGN_DOWN_four (x : Nat) : ZM_ALIGN_DOWN x ZM_MEM_ALIGN_SIZE = x - x % 4 := rfl

/-- The state after an accepted `zm_mem_init`, field by field. -/
theorem init_fields (m : State) (b e : Nat)
    (h : ZM_ALIGN_DOWN (e % 4294967296) ZM_MEM_ALIGN_SIZE > 2 * MEM_STRUCT_SIZE ∧
      u32sub (ZM_ALIGN_DOWN (e % 4294967296) ZM_MEM_ALIGN_SIZE) (2 * MEM_STRUCT_SIZE) ≥
        ZM_ALIGN (b % 4294967296) ZM_MEM_ALIGN_SIZE) :
    (zm_mem_init m b e).zmMemHeap = ZM_ALIGN (b % 4294967296) ZM_MEM_ALIGN_SIZE ∧
    (zm_mem_init m b e).zmMemSize =
      ZM_ALIGN_DOWN (e % 4294967296) ZM_MEM_ALIGN_SIZE -
        ZM_ALIGN (b % 4294967296) ZM_MEM_ALIGN_SIZE - 24 ∧
    (zm_mem_init m b e).zmMemEnd =
      (zm_mem_init m b e).zmMemHeap + ((zm_mem_init m b e).zmMemSize + 12) ∧
    (zm_mem_init m b e).lfree = (zm_mem_init m b e).zmMemHeap ∧
    (zm_mem_init m b e).usedSize = 0 ∧ (zm_mem_init m b e).maxSize = 0 ∧
    (zm_mem_init m b e).hdr 0 = ⟨ZM_HEAP_MAGIC, 0, 0, (zm_mem_init m b e).zmMemSize + 12⟩ ∧
    (zm_mem_init m b e).hdr ((zm_mem_init m b e).zmMemSize + 12) =
      ⟨ZM_HEAP_MAGIC, 1, (zm_mem_init m b e).zmMemSize + 12,
        (zm_mem_init m b e).zmMemSize + 12⟩ ∧
    (zm_mem_init m b e).zmMemSize % 4 = 0 ∧
    (zm_mem_init m b e).zmMemSize + 28 ≤ 4294967296 := by
  have hB : ZM_ALIGN (b % 4294967296) ZM_MEM_ALIGN_SIZE % 4 = 0 ∧
      ZM_ALIGN (b % 4294967296) ZM_MEM_ALIGN_SIZE < 4294967296 := by
    rw [ZM_ALIGN_four]; omega
  have hE : ZM_ALIGN_DOWN (e % 4294967296) ZM_MEM_ALIGN_SIZE % 4 = 0 ∧
      ZM_ALIGN_DOWN (e % 4294967296) ZM_MEM_ALIGN_SIZE < 4294967296 := by
    rw [ZM_ALIGN_DOWN_four]; omega
  unfold zm_mem_init
  dsimp only
  rw [if_pos h]
  rw [MEM_STRUCT_SIZE_eq] at h ⊢
  generalize ZM_ALIGN (b % 4294967296) ZM_MEM_ALIGN_SIZE = B at *
  generalize ZM_ALIGN_DOWN (e % 4294967296) ZM_MEM_ALIGN_SIZE = E at *
  have hsz : u32sub (u32sub E B) (2 * 12) = E - B - 24 := by
    unfold u32sub at h ⊢
    omega
  have hadd : u32add (E - B - 24) 12 = E - B - 24 + 12 := by
    unfold u32sub at h
    unfold u32add
    omega
  have hne : ¬ (B = B + (E - B - 24 + 12)) := by omega
  have hne' : ¬ (B + (E - B - 24 + 12) = B) := by omega
  simp only [hdr_def, State.setMagic, State.setUsed, State.setNext, State.setPrev, store_mem,
    store_zmMemHeap, store_zmMemSize, store_zmMemEnd, store_lfree, store_usedSize,
    store_maxSize, hsz, hadd, if_true, Nat.add_zero, hne, hne', if_false]
  unfold u32sub at h
  exact ⟨trivial, trivial, trivial, trivial, trivial, trivial, trivial, trivial, by omega, by omega⟩

/-- An accepted `zm_mem_init` leaves a well-formed heap made of one free block. -/
theorem init_wf (m : State) (b e : Nat)
    (h : ZM_ALIGN_DOWN (e % 4294967296) ZM_MEM_ALIGN_SIZE > 2 * MEM_STRUCT_SIZE ∧
      u32sub (ZM_ALIGN_DOWN (e % 4294967296) ZM_MEM_ALIGN_SIZE) (2 * MEM_STRUCT_SIZE) ≥
        ZM_ALIGN (b % 4294967296) ZM_MEM_ALIGN_SIZE) :
    WFL (zm_mem_init m b e) [0] ∧ (zm_mem_init m b e).isFree 0 := by
  obtain ⟨_, _, f3, f4, f5, f6, f7, f8, f9, f10⟩ := init_fields m b e h
  generalize zm_mem_init m b e = s at *
  have hS := sentinel_eq s
  refine ⟨?_, by unfold State.isFree; rw [f7]⟩
  refine
    { size_al := f9
      size_lt := by rw [MEM_STRUCT_SIZE_eq, ZM_ALIGN_SIZE_eq]; omega
      end_eq := by rw [hS]; exact f3
      chain := by
        rw [seg_cons, f7, hS]
        exact ⟨rfl, rfl, rfl, rfl, by dsimp only; omega, rfl⟩
      sent_magic := by rw [hS, f8]
      sent_used := by rw [hS, f8]
      sent_next := by rw [hS, f8]
      stats := by rw [f5, usedSum_cons, f7]; rfl
      peak := by rw [f5]; exact Nat.zero_le _
      noadj := List.chain'_singleton _
      lfree_ok := ⟨0, by rw [f4]; rfl, Or.inr ⟨by simp, by unfold State.isFree; rw [f7]⟩,
        fun o _ _ => Nat.zero_le _⟩ }

theorem Outcome.ret_inj {α : Type} {v w : α} {s t : State}
    (h : Outcome.ret v s = Outcome.ret w t) : v = w ∧ s = t := by
  cases h; exact ⟨rfl, rfl⟩

/-- A `NULL` from `zm_mem_malloc` on a well-formed heap comes with the same state. -/
theorem malloc_null_wf (fuel : Nat) (s : State) (n : Nat) (s1 : State) {L : List Nat}
    (hw : WFL s L) (hr : zm_mem_malloc fuel s n = Outcome.ret 0 s1) : s1 = s := by
  rcases malloc_wf s L fuel n hw with h | h | ⟨L1, o, L2, lf', _, _, _, _, _, h, _⟩
  · rw [h] at hr; cases hr
  · rw [h] at hr
    exact (Outcome.ret_inj hr).2.symm
  · rw [h] at hr
    have := (Outcome.ret_inj hr).1
    omega

/-- After `zm_mem_init` the heap is well formed and no pointer is allocated. -/
theorem init_owned (m : State) (b e : Nat)
    (h : ZM_ALIGN_DOWN (e % 4294967296) ZM_MEM_ALIGN_SIZE > 2 * MEM_STRUCT_SIZE ∧
      u32sub (ZM_ALIGN_DOWN (e % 4294967296) ZM_MEM_ALIGN_SIZE) (2 * MEM_STRUCT_SIZE) ≥
        ZM_ALIGN (b % 4294967296) ZM_MEM_ALIGN_SIZE) :
    ∃ L, WFL (zm_mem_init m b e) L ∧ Owned (zm_mem_init m b e) L [] := by
  obtain ⟨hw, hf⟩ := init_wf m b e h
  refine ⟨[0], hw, List.nodup_nil, ?_, ?_⟩
  · intro p
    constructor
    · intro hp; simp at hp
    · rintro ⟨o, ho, hfo, _⟩
      simp at ho; subst ho
      exact absurd hf hfo
  · intro o ho hfo
    simp at ho; subst ho
    exact absurd hf hfo

/-- One allocation on a well-formed heap whose blocks in use are the pointers of `O`:
`NULL` and the same state, or a new pointer, a well-formed heap, and the blocks in use
are the pointers of `O` and the new one. -/
theorem malloc_step (s : State) (L O : List Nat) (fuel n p : Nat) (s1 : State)
    (hw : WFL s L) (hOw : Owned s L O) (hr : zm_mem_malloc fuel s n = Outcome.ret p s1) :
    (p = 0 ∧ s1 = s) ∨ (p ≠ 0 ∧ ∃ L', WFL s1 L' ∧ Owned s1 L' (p :: O)) := by
  by_cases hp : p = 0
  · left
    rw [hp] at hr
    exact ⟨hp, malloc_null_wf fuel s n s1 hw hr⟩
  right
  refine ⟨hp, ?_⟩
  obtain ⟨hnd, hO, hcap⟩ := hOw
  rcases malloc_wf s L fuel n hw with h | h | ⟨L1, o, L2, lf', hL, hfo, hfit, _, _, h, hw'⟩
  · rw [h] at hr; cases hr
  · rw [h] at hr
    exact absurd (Outcome.ret_inj hr).1.symm hp
  · rw [h] at hr
    obtain ⟨hp', hs1⟩ := Outcome.ret_inj hr
    subst hL
    obtain ⟨k1, k2, k3, k4, k5, k6, k7⟩ :=
      mallocBody_facts s L1 L2 o (mallocSize n) hw.toWFC hfit
    obtain ⟨g1, _⟩ := mallocBody_globals s (mallocSize n) o
    have hsz := mallocSize_ge n
    obtain ⟨_, _, _, _, _, _, _, cb1, cb2⟩ := chain_cut s L1 L2 o hw.chain
    rw [← hs1]
    generalize mallocBody s (mallocSize n) o = tb at *
    have hh : ∀ x, ({ tb with lfree := s.zmMemHeap + lf' } : State).hdr x = tb.hdr x :=
      fun _ => rfl
    have hbase : ({ tb with lfree := s.zmMemHeap + lf' } : State).zmMemHeap = s.zmMemHeap := g1
    have hold : ∀ x ∈ L1 ++ o :: L2, x ≠ o → x ∈ L1 ++ L2 := by
      intro x hx hxo
      rcases List.mem_append.1 hx with h | h
      · exact List.mem_append_left _ h
      · rcases List.mem_cons.1 h with h | h
        · exact absurd h hxo
        · exact List.mem_append_right _ h
    have hold' : ∀ x ∈ L1 ++ L2, x ∈ L1 ++ o :: L2 ∧ x ≠ o := by
      intro x hx
      rcases List.mem_append.1 hx with h | h
      · have := cb1 x h
        exact ⟨List.mem_append_left _ h, by omega⟩
      · have := cb2 x h
        have := (wfc_cap_eq hw.toWFC).2.1
        exact ⟨List.mem_append_right _ (List.mem_cons_of_mem _ h), by omega⟩
    have hused : ∀ x, (x ∈ takeList s L1 L2 o (mallocSize n) ∧ ¬ tb.isFree x) ↔
        (x = o ∨ (x ∈ L1 ++ o :: L2 ∧ ¬ s.isFree x)) := by
      intro x
      constructor
      · rintro ⟨hx, hfx⟩
        by_cases hxo : x = o
        · exact Or.inl hxo
        · right
          by_cases hxL : x ∈ L1 ++ o :: L2
          · refine ⟨hxL, ?_⟩
            unfold State.isFree at hfx ⊢
            rw [(k5 x (hold x hxL hxo)).1] at hfx
            exact hfx
          · exact absurd (k6 x hx hxL) hfx
      · rintro (hx | ⟨hx, hfx⟩)
        · rw [hx]
          refine ⟨k7 o (by simp), ?_⟩
          unfold State.isFree; rw [k1]; simp
        · refine ⟨k7 x hx, ?_⟩
          have hxo : x ≠ o := fun h => hfx (h ▸ hfo)
          unfold State.isFree at hfx ⊢
          rw [(k5 x (hold x hx hxo)).1]
          exact hfx
    refine ⟨_, hw', ?_, ?_, ?_⟩
    · refine List.nodup_cons.2 ⟨?_, hnd⟩
      intro hpO
      obtain ⟨o', ho', hfo', hpo'⟩ := (hO p).1 hpO
      have : o' = o := by omega
      rw [this] at hfo'
      exact hfo' hfo
    · intro q
      rw [List.mem_cons, hbase]
      constructor
      · rintro (hq | hq)
        · exact ⟨o, k7 o (by simp), ((hused o).2 (Or.inl rfl)).2, by omega⟩
        · obtain ⟨o', ho', hfo', hqo'⟩ := (hO q).1 hq
          exact ⟨o', k7 o' ho', ((hused o').2 (Or.inr ⟨ho', hfo'⟩)).2, hqo'⟩
      · rintro ⟨o', ho', hfo', hqo'⟩
        rcases (hused o').1 ⟨ho', hfo'⟩ with h1 | ⟨h1, h2⟩
        · left; rw [hqo', h1]; omega
        · right; exact (hO q).2 ⟨o', h1, h2, hqo'⟩
    · intro x hx hfx
      rw [hh]
      rcases (hused x).1 ⟨hx, hfx⟩ with h1 | ⟨h1, h2⟩
      · rw [h1]; omega
      · have hxo : x ≠ o := fun h => h2 (h ▸ hfo)
        rw [(k5 x (hold x h1 hxo)).2]
        exact hcap x h1 h2

/-- One free of a pointer of `O` on a well-formed heap whose blocks in use are the
pointers of `O`: the heap is well formed again and the blocks in use are the other
pointers of `O`. -/
theorem free_step (s : State) (L O : List Nat) (p : Nat) (s1 : State)
    (hw : WFL s L) (hOw : Owned s L O) (hp : p ∈ O)
    (hr : zm_mem_free s p = Outcome.ret () s1) :
    ∃ L', WFL s1 L' ∧ Owned s1 L' (O.erase p) := by
  obtain ⟨hnd, hO, hcap⟩ := hOw
  obtain ⟨o, ho, hfo, hpo⟩ := (hO p).1 hp
  obtain ⟨L1, L2, hL⟩ := List.append_of_mem ho
  subst hL
  have hc := hcap o ho hfo
  obtain ⟨_, hn12, hnS⟩ := (wfc_cap_eq hw.toWFC)
  have hS := sentinel_eq s
  obtain ⟨t, LC, e1, e2, e3, e4, e5, e6, e7, e8⟩ := free_wf s L1 L2 o hw hfo (by omega)
  rw [hpo, e1] at hr
  have := (Outcome.ret_inj hr).2
  subst this
  have hfl : ∀ x, x ≠ o → (t.isFree x ↔ s.isFree x) := by
    intro x hx; unfold State.isFree; rw [e5, if_neg hx]
  have hfo' : t.isFree o := by unfold State.isFree; rw [e5, if_pos rfl]
  refine ⟨LC, e2, hnd.erase p, ?_, ?_⟩
  · intro q
    rw [hnd.mem_erase_iff, e3]
    constructor
    · rintro ⟨hqp, hq⟩
      obtain ⟨o', ho', hfo2, hqo'⟩ := (hO q).1 hq
      have hne : o' ≠ o := by intro h; apply hqp; rw [hqo', hpo, h]
      have hin : o' ∈ LC := by
        by_contra hc'
        rcases e8 o' ho' hc' with h | h
        · exact hfo2 h
        · exact hne h
      exact ⟨o', hin, fun h => hfo2 ((hfl o' hne).1 h), hqo'⟩
    · rintro ⟨o', ho', hfo2, hqo'⟩
      have hne : o' ≠ o := fun h => hfo2 (h ▸ hfo')
      refine ⟨by rw [hqo', hpo]; omega, (hO q).2 ⟨o', e7 o' ho', ?_, hqo'⟩⟩
      exact fun h => hfo2 ((hfl o' hne).2 h)
  · intro x hx hfx
    have hne : x ≠ o := fun h => hfx (h ▸ hfo')
    have hfs : ¬ s.isFree x := fun h => hfx ((hfl x hne).2 h)
    rw [e6 x hfs hne]
    exact hcap x (e7 x hx) hfs

/-- The invariant of the reachable states: the heap is well formed and the pointers still
allocated are the blocks in use. -/
theorem reach_inv (s : State) (O : List Nat) (h : Reach s O) : ∃ L, WFL s L ∧ Owned s L O := by
  induction h with
  | init m b e h => exact init_owned m b e h
  | malloc_null s s1 O fuel n _ hn hr ih =>
    obtain ⟨L, hw, hO⟩ := ih
    rw [malloc_null_wf fuel s n s1 hw hr]
    exact ⟨L, hw, hO⟩
  | malloc s s1 O fuel n p _ hn hp hr ih =>
    obtain ⟨L, hw, hO⟩ := ih
    rcases malloc_step s L O fuel n p s1 hw hO hr with ⟨h, _⟩ | ⟨_, h⟩
    · exact absurd h hp
    · exact h
  | free s s1 O p _ hp hr ih =>
    obtain ⟨L, hw, hO⟩ := ih
    exact free_step s L O p s1 hw hO hp hr

/-! ## Null returns and rejected pointers -/

theorem lfreeUpdate_val (k : Nat) (s2 : State) (pMem v : Nat) (t : State)
    (h : lfreeUpdate k s2 pMem = Outcome.ret v t) : v = pMem + 12 := by
  unfold lfreeUpdate at h
  rw [MEM_STRUCT_SIZE_eq] at h
  split at h
  · split at h
    · cases h
    · split at h
      · exact (Outcome.ret_inj h).1.symm
      · cases h
  · exact (Outcome.ret_inj h).1.symm

theorem mallocLoop_null (s : State) (size : Nat) : ∀ (fuel idx : Nat) (t : State),
    mallocLoop fuel s size idx = Outcome.ret 0 t → t = s := by
  intro fuel
  induction fuel with
  | zero => intro idx t h; cases h
  | succ fuel ih =>
    intro idx t h
    unfold mallocLoop at h
    split at h
    · dsimp only at h
      split at h
      · unfold mallocTake at h
        have := lfreeUpdate_val _ _ _ _ _ h
        omega
      · exact ih _ _ h
    · exact (Outcome.ret_inj h).2.symm

/-- A `NULL` from `zm_mem_malloc` comes with the state it was called in. -/
theorem malloc_null_state (fuel : Nat) (s : State) (n : Nat) (t : State)
    (h : zm_mem_malloc fuel s n = Outcome.ret 0 t) : t = s := by
  unfold zm_mem_malloc at h
  split at h
  · exact (Outcome.ret_inj h).2.symm
  · split at h
    · exact (Outcome.ret_inj h).2.symm
    · exact mallocLoop_null _ _ _ _ _ h

/-- The pointers that `zm_mem_free` ignores. -/
theorem free_ignored (s : State) (p : Nat) (h : p = 0 ∨ p < s.zmMemHeap ∨ p ≥ s.zmMemEnd) :
    zm_mem_free s p = Outcome.ret () s := by
  rw [zm_mem_free_eq]
  by_cases h0 : p = 0
  · rw [if_pos h0]
  · rw [if_neg h0, if_pos (by tauto)]

/-- The headers on which `zm_mem_free` spins, having written nothing. -/
theorem free_halts (s : State) (p : Nat) (h0 : p ≠ 0) (h1 : s.zmMemHeap ≤ p)
    (h2 : p < s.zmMemEnd)
    (h : (s.mem (p - MEM_STRUCT_SIZE)).magic ≠ ZM_HEAP_MAGIC ∨
      (s.mem (p - MEM_STRUCT_SIZE)).used = 0) :
    zm_mem_free s p = Outcome.halt s := by
  rw [MEM_STRUCT_SIZE_eq] at h
  rw [zm_mem_free_eq, if_neg h0, if_neg (by omega), if_pos h]

theorem setNext_used (s : State) (p v x : Nat) :
    ((s.setNext p v).mem x).used = (s.mem x).used := by
  simp only [State.setNext, store_mem]
  split
  · next h => rw [h]
  · rfl

theorem setPrev_used (s : State) (p v x : Nat) :
    ((s.setPrev p v).mem x).used = (s.mem x).used := by
  simp only [State.setPrev, store_mem]
  split
  · next h => rw [h]
  · rfl

theorem mergeStep_used (s : State) (a b x : Nat) :
    ((mergeStep s a b).mem x).used = (s.mem x).used := by
  unfold mergeStep
  dsimp only
  rw [setPrev_used, setNext_used]
  split <;> rfl

/-- The function `zm_putTogether` writes no `used` field and none of the bounds of the
heap. -/
theorem putTogether_used (s : State) (a x : Nat) :
    ((zm_putTogether s a).mem x).used = (s.mem x).used ∧
      (zm_putTogether s a).zmMemHeap = s.zmMemHeap ∧
      (zm_putTogether s a).zmMemEnd = s.zmMemEnd := by
  rw [zm_putTogether_split]
  unfold bwdMerge fwdMerge
  dsimp only
  split <;> split <;>
    simp only [mergeStep_used, (mergeStep_globals _ _ _).1, (mergeStep_globals _ _ _).2.1,
      and_self]

/-- A second `zm_mem_free` of the same pointer spins: the first one left the header of
the block with its `used` field at `0`. -/
theorem free_twice (s t : State) (p : Nat) (h0 : p ≠ 0) (h1 : s.zmMemHeap ≤ p)
    (h2 : p < s.zmMemEnd) (h : zm_mem_free s p = Outcome.ret () t) :
    zm_mem_free t p = Outcome.halt t := by
  rw [zm_mem_free_eq, if_neg h0, if_neg (by omega)] at h
  split at h
  · cases h
  · have ht := (Outcome.ret_inj h).2
    obtain ⟨u1, u2, u3⟩ := putTogether_used (freeMark s (p - 12)) (p - 12) (p - 12)
    obtain ⟨g1, g2, _⟩ := freeMark_globals s (p - 12)
    rw [ht] at u1 u2 u3
    refine free_halts t p h0 (by rw [u2, g1]; exact h1) (by rw [u3, g2]; exact h2) (Or.inr ?_)
    rw [MEM_STRUCT_SIZE_eq, u1]
    unfold freeMark
    dsimp only
    split <;> simp [State.setUsed]

/-- The sizes that `zm_mem_malloc` refuses: zero, and the sizes above `zmMemSize` whose
rounding does not wrap around. -/
theorem malloc_rejects (fuel : Nat) (s : State) (n : Nat)
    (h : n = 0 ∨ (s.zmMemSize < n ∧ n + 3 < 4294967296)) :
    zm_mem_malloc fuel s n = Outcome.ret 0 s := by
  unfold zm_mem_malloc
  rcases h with h | ⟨h1, h2⟩
  · rw [if_pos h]
  · by_cases h0 : n = 0
    · rw [if_pos h0]
    · rw [if_neg h0, if_pos (by rw [ZM_ALIGN_GET_eq]; omega)]

/-- The new sizes above `zmMemSize` whose rounding does not wrap around make
`zm_mem_realloc` return `NULL` in the state it was called in. -/
theorem realloc_rejects (fuel : Nat) (s : State) (ptr n : Nat)
    (h : s.zmMemSize < n ∧ n + 3 < 4294967296) :
    zm_mem_realloc fuel s ptr n = Outcome.ret 0 s := by
  unfold zm_mem_realloc
  dsimp only
  rw [if_pos (by rw [ZM_ALIGN_GET_eq]; omega)]

/-- The shrink branch of `zm_mem_realloc` returns the pointer it was given. -/
theorem reallocShrink_val (s : State) (ptr newsize idx size : Nat) :
    (reallocShrink s ptr newsize idx size).val = some ptr := rfl

/-- A `NULL` from `zm_mem_realloc` comes with the state it was called in, unless the new
size was rounded to zero. -/
theorem realloc_null_state (fuel : Nat) (s : State) (ptr n : Nat) (t : State)
    (hn : ZM_ALIGN_GET n ≠ 0) (h : zm_mem_realloc fuel s ptr n = Outcome.ret 0 t) : t = s := by
  unfold zm_mem_realloc at h
  dsimp only at h
  generalize (if ZM_ALIGN_GET n < MIN_SIZE_ALIGNED then MIN_SIZE_ALIGNED
    else ZM_ALIGN_GET n) = m at h
  by_cases h1 : ZM_ALIGN_GET n > s.zmMemSize
  · rw [if_pos h1] at h
    exact (Outcome.ret_inj h).2.symm
  rw [if_neg h1, if_neg hn] at h
  by_cases hp : ptr = 0
  · rw [if_pos hp] at h
    exact malloc_null_state _ _ _ _ h
  rw [if_neg hp] at h
  by_cases hr : ptr < s.zmMemHeap ∨ ptr ≥ s.zmMemEnd
  · rw [if_pos hr] at h
    exact absurd (Outcome.ret_inj h).1 hp
  rw [if_neg hr] at h
  generalize u32sub (u32sub (s.mem (ptr - MEM_STRUCT_SIZE)).next
    (ptrdiff (ptr - MEM_STRUCT_SIZE) s.zmMemHeap)) MEM_STRUCT_SIZE = sz at h
  by_cases he : sz = m
  · rw [if_pos he] at h
    exact absurd (Outcome.ret_inj h).1 hp
  rw [if_neg he] at h
  by_cases hs : u32add (u32add m MEM_STRUCT_SIZE) MIN_SIZE_ALIGNED < sz
  · rw [if_pos hs] at h
    have hv := reallocShrink_val s ptr m (ptrdiff (ptr - MEM_STRUCT_SIZE) s.zmMemHeap) sz
    rw [h] at hv
    exact absurd (Option.some.inj hv).symm hp
  rw [if_neg hs] at h
  cases hmal : zm_mem_malloc fuel s m with
  | ret newMem s1 =>
    rw [hmal] at h
    dsimp only at h
    by_cases hne : newMem ≠ 0
    · rw [if_pos hne] at h
      generalize zm_mem_free _ ptr = r at h
      cases r with
      | ret v s3 => exact absurd (Outcome.ret_inj h).1 hne
      | halt s3 => cases h
      | more => cases h
    · rw [if_neg hne] at h
      have he0 : newMem = 0 := by
        by_contra hc
        exact hne hc
      rw [he0] at hmal
      rw [← (Outcome.ret_inj h).2]
      exact malloc_null_state _ _ _ _ hmal
  | halt s1 =>
    rw [hmal] at h
    cases h
  | more =>
    rw [hmal] at h
    cases h

/-! ## Enough iterations -/

/-- With as many iterations as blocks ahead, the search loop reaches a fitting free block
that lies under the loop bound. -/
theorem mallocLoop_finds (s : State) (size : Nat) :
    ∀ (fuel : Nat) (L2 : List Nat) (q idx : Nat), Seg s q idx L2 s.sentinel →
      (∃ x ∈ L2, s.isFree x ∧ size ≤ s.cap x ∧ x < u32sub s.zmMemSize size) →
      L2.length ≤ fuel →
      ∃ k M1 o M2, L2 = M1 ++ o :: M2 ∧ s.isFree o ∧ size ≤ s.cap o ∧
        fuel ≤ k + M1.length + 1 ∧ mallocLoop fuel s size idx = mallocTake k s size o := by
  intro fuel
  induction fuel with
  | zero =>
    intro L2 q idx _ hex hlen
    obtain ⟨x, hx, _⟩ := hex
    cases L2 with
    | nil => simp at hx
    | cons y M => simp at hlen
  | succ fuel ih =>
    intro L2 q idx hseg hex hlen
    obtain ⟨x, hx, hfx, hcx, hbx⟩ := hex
    cases L2 with
    | nil => simp at hx
    | cons y M =>
      have hb := seg_bounds s _ _ _ _ hseg
      have hseg' := hseg
      rw [seg_cons] at hseg'
      obtain ⟨hy, _, _, _, _, ht⟩ := hseg'
      subst hy
      have hyx := (hb.2 x hx).1
      unfold mallocLoop
      rw [if_pos (by omega)]
      dsimp only
      by_cases hfit : (s.mem (s.zmMemHeap + y)).used = 0 ∧
          u32sub (u32sub (s.mem (s.zmMemHeap + y)).next y) MEM_STRUCT_SIZE ≥ size
      · rw [if_pos hfit]
        exact ⟨fuel, [], y, M, rfl, hfit.1, hfit.2, by simp, rfl⟩
      · rw [if_neg hfit, ← hdr_def]
        have hxM : x ∈ M := by
          rcases List.mem_cons.1 hx with h | h
          · subst h; exact absurd ⟨hfx, hcx⟩ hfit
          · exact h
        obtain ⟨k, M1, o, M2, e1, e2, e3, e4, e5⟩ :=
          ih M y _ ht ⟨x, hxM, hfx, hcx, hbx⟩ (by simpa using hlen)
        exact ⟨k, y :: M1, o, M2, by rw [e1]; rfl, e2, e3, by simp; omega, e5⟩

/-- On a well-formed heap, a request that passes the two size tests and that a free block
under the loop bound can hold gets a pointer, once the iterations allowed are three more
than the blocks of the chain. -/
theorem malloc_succeeds (s : State) (L : List Nat) (n : Nat) (hw : WFL s L) (hn : n ≠ 0)
    (hsz : ZM_ALIGN_GET n ≤ s.zmMemSize)
    (hex : ∃ o ∈ L, s.isFree o ∧ mallocSize n ≤ s.cap o ∧ o + mallocSize n < s.zmMemSize)
    (fuel : Nat) (hfuel : L.length + 3 ≤ fuel) :
    ∃ p t, p ≠ 0 ∧ zm_mem_malloc fuel s n = Outcome.ret p t := by
  obtain ⟨x, hxL, hfx, hcx, hbx⟩ := hex
  obtain ⟨lf, l1, l2, l3⟩ := hw.lfree_ok
  have h28 := (wfb_size28 hw.toWFB)
  have hS := sentinel_eq s
  have hlx : lf ≤ x := l3 x hxL hfx
  have hxb := ((seg_bounds s _ _ _ _ hw.chain).2 x hxL).2.1
  have hlfL : lf ∈ L := by
    rcases l2 with h | h
    · omega
    · exact h.1
  obtain ⟨P, R, hPR⟩ := List.append_of_mem hlfL
  subst hPR
  obtain ⟨_, cm, cp, cal, cn, c2, _, cb1, _⟩ := chain_cut s P R lf hw.chain
  have hxR : x ∈ lf :: R := by
    rcases List.mem_append.1 hxL with h | h
    · have := cb1 x h; omega
    · exact h
  have hseg : Seg s (P.getLastD 0) lf (lf :: R) s.sentinel :=
    (seg_cons _ _ _ _ _ _).2 ⟨rfl, cm, cp, cal, cn, c2⟩
  have hbound : x < u32sub s.zmMemSize (mallocSize n) := by
    unfold u32sub; omega
  obtain ⟨k, M1, o, M2, e1, e2, e3, e4, e5⟩ :=
    mallocLoop_finds s (mallocSize n) fuel (lf :: R) _ lf hseg ⟨x, hxR, hfx, hcx, hbound⟩
      (by simp at hfuel ⊢; omega)
  have hL : P ++ lf :: R = (P ++ M1) ++ o :: M2 := by rw [e1]; simp
  have hlen : (P ++ lf :: R).length = P.length + M1.length + 1 + M2.length := by
    rw [hL]; simp; omega
  unfold zm_mem_malloc
  rw [if_neg hn, if_neg (by omega), l1, ptrdiff_add _ _ (by omega), e5]
  rw [hL] at hw
  rcases mallocTake_wf s (P ++ M1) M2 o (mallocSize n) k hw e2 e3 (mallocSize_mod n) with
    h | ⟨lf', h1, _⟩
  · omega
  · exact ⟨_, _, by omega, h1⟩

/-! ## Extents of the blocks -/

theorem seg_next_le (s : State) : ∀ (A : List Nat) (p a b : Nat), Seg s p a A b →
    ∀ x ∈ A, (s.hdr x).next ≤ b := by
  intro A
  induction A with
  | nil => intro p a b _ x hx; simp at hx
  | cons y A ih =>
    intro p a b h x hx
    rw [seg_cons] at h
    obtain ⟨hy, _, _, _, _, ht⟩ := h
    subst hy
    rcases List.mem_cons.1 hx with hx | hx
    · rw [hx]; exact (seg_bounds s _ _ _ _ ht).1
    · exact ih _ _ _ ht x hx

/-- Two blocks of a chain do not overlap. -/
theorem chain_disjoint (s : State) (L : List Nat) (h : Seg s 0 0 L s.sentinel) (o x : Nat)
    (ho : o ∈ L) (hx : x ∈ L) (hne : x ≠ o) :
    (s.hdr x).next ≤ o ∨ (s.hdr o).next ≤ x := by
  obtain ⟨A, B, hAB⟩ := List.append_of_mem ho
  subst hAB
  obtain ⟨c1, _, _, _, _, _, _, _, cb2⟩ := chain_cut s A B o h
  rcases List.mem_append.1 hx with hx | hx
  · exact Or.inl (seg_next_le s A 0 0 o c1 x hx)
  · rcases List.mem_cons.1 hx with hx | hx
    · exact absurd hx hne
    · exact Or.inr (cb2 x hx).1

/-- The payload that `zm_mem_malloc` returns on a well-formed heap: the block is in use,
holds the size searched for, ends at or before the sentinel, and overlaps no other block
of the new chain, which is well formed. -/
theorem malloc_payload (s : State) (L : List Nat) (fuel n p : Nat) (t : State)
    (hw : WFL s L) (hr : zm_mem_malloc fuel s n = Outcome.ret p t) (hp : p ≠ 0) :
    ∃ o L', WFL t L' ∧ o ∈ L' ∧ p = t.zmMemHeap + o + MEM_STRUCT_SIZE ∧
      (t.hdr o).used = 1 ∧ (t.hdr o).magic = ZM_HEAP_MAGIC ∧
      o + MEM_STRUCT_SIZE + mallocSize n ≤ (t.hdr o).next ∧
      (t.hdr o).next ≤ t.sentinel ∧ t.zmMemEnd = t.zmMemHeap + t.sentinel ∧
      ∀ x ∈ L', x ≠ o → (t.hdr x).next ≤ o ∨ (t.hdr o).next ≤ x := by
  rcases malloc_wf s L fuel n hw with h | h | ⟨L1, o, L2, lf', hL, hfo, hfit, _, _, h, hw'⟩
  · rw [h] at hr; cases hr
  · rw [h] at hr
    exact absurd (Outcome.ret_inj hr).1.symm hp
  · rw [h] at hr
    obtain ⟨hp', ht⟩ := Outcome.ret_inj hr
    subst hL
    obtain ⟨k1, k2, k3, k4, k5, k6, k7⟩ :=
      mallocBody_facts s L1 L2 o (mallocSize n) hw.toWFC hfit
    obtain ⟨g1, _⟩ := mallocBody_globals s (mallocSize n) o
    have hoL : o ∈ takeList s L1 L2 o (mallocSize n) := k7 o (by simp)
    generalize takeList s L1 L2 o (mallocSize n) = L' at *
    rw [← ht]
    generalize mallocBody s (mallocSize n) o = tb at *
    generalize hu : ({ tb with lfree := s.zmMemHeap + lf' } : State) = u at *
    have hh : ∀ x, u.hdr x = tb.hdr x := by intro x; rw [← hu]; rfl
    have hb : u.zmMemHeap = s.zmMemHeap := by rw [← hu]; exact g1
    obtain ⟨A, B, hAB⟩ := List.append_of_mem hoL
    have hch : Seg u 0 0 L' u.sentinel := hw'.chain
    have hch' := hch
    rw [hAB] at hch'
    obtain ⟨_, _, _, _, _, _, cle, _, _⟩ := chain_cut u A B o hch'
    refine ⟨o, L', hw', hoL, ?_, by rw [hh]; exact k1, by rw [hh]; exact k2, ?_, cle,
      hw'.end_eq, ?_⟩
    · rw [← hp', MEM_STRUCT_SIZE_eq, hb]
    · rw [MEM_STRUCT_SIZE_eq, hh]; exact k3
    · intro x hx hne
      exact chain_disjoint u L' hch o x hoL hx hne

/-- First fit: the block that `zm_mem_malloc` takes on a well-formed heap is the free
block of lowest offset that holds the size searched for. -/
theorem malloc_first_fit (s : State) (L : List Nat) (fuel n p : Nat) (t : State)
    (hw : WFL s L) (hr : zm_mem_malloc fuel s n = Outcome.ret p t) (hp : p ≠ 0) :
    ∃ o ∈ L, p = s.zmMemHeap + o + MEM_STRUCT_SIZE ∧ s.isFree o ∧ mallocSize n ≤ s.cap o ∧
      ∀ x ∈ L, s.isFree x → mallocSize n ≤ s.cap x → o ≤ x := by
  rcases malloc_wf s L fuel n hw with h | h | ⟨L1, o, L2, lf', hL, hfo, hfit, _, hff, h, _⟩
  · rw [h] at hr; cases hr
  · rw [h] at hr
    exact absurd (Outcome.ret_inj hr).1.symm hp
  · rw [h] at hr
    obtain ⟨hp', _⟩ := Outcome.ret_inj hr
    subst hL
    obtain ⟨_, _, _, _, cn, _, _, cb1, cb2⟩ := chain_cut s L1 L2 o hw.chain
    refine ⟨o, by simp, by rw [← hp', MEM_STRUCT_SIZE_eq], hfo, hfit, ?_⟩
    intro x hx hfx hcx
    rcases List.mem_append.1 hx with hx | hx
    · have := hff x hx hfx
      omega
    · rcases List.mem_cons.1 hx with hx | hx
      · omega
      · have := (cb2 x hx).1
        omega

/-! ## The scenarios -/

theorem Outcome.eq_ret {α : Type} (r : Outcome α) (v : α) (h : r.val = some v) :
    r = Outcome.ret v r.get := by
  cases r with
  | ret w s => simp [Outcome.val] at h; rw [h]; rfl
  | halt s => simp [Outcome.val] at h
  | more => simp [Outcome.val] at h

theorem heap256_wf : WFL heap256 [0] := (init_wf zeroState 4096 4352 (by decide)).1

theorem heapA1_eq : zm_mem_malloc 8 heap256 20 = Outcome.ret 4108 heapA1 :=
  Outcome.eq_ret _ _ (by decide)

theorem heapA2_eq : zm_mem_malloc 8 heapA1 20 = Outcome.ret 4140 heapA2 :=
  Outcome.eq_ret _ _ (by decide)

theorem heapA3_eq : zm_mem_free heapA2 4108 = Outcome.ret () heapA3 :=
  Outcome.eq_ret _ _ (by decide)

theorem heapB3_eq : zm_mem_free heapA2 4140 = Outcome.ret () heapB3 :=
  Outcome.eq_ret _ _ (by decide)

theorem heapB4_eq : zm_mem_free heapB3 4108 = Outcome.ret () heapB4 :=
  Outcome.eq_ret _ _ (by decide)

theorem heapC1_eq : zm_mem_malloc 8 heap256 100 = Outcome.ret 4108 heapC1 :=
  Outcome.eq_ret _ _ (by decide)

theorem heapD1_eq : zm_mem_malloc 8 heap256 200 = Outcome.ret 4108 heapD1 :=
  Outcome.eq_ret _ _ (by decide)

theorem reach_heap256 : Reach heap256 [] := Reach.init zeroState 4096 4352 (by decide)

theorem reach_heapA2 : Reach heapA2 [4140, 4108] :=
  Reach.malloc heapA1 heapA2 [4108] 8 20 4140
    (Reach.malloc heap256 heapA1 [] 8 20 4108 reach_heap256 (by decide) (by decide) heapA1_eq)
    (by decide) (by decide) heapA2_eq

theorem reach_heapB4 : Reach heapB4 [] :=
  Reach.free heapB3 heapB4 [4108] 4108
    (Reach.free heapA2 heapB3 [4140, 4108] 4140 reach_heapA2 (by decide) heapB3_eq)
    (by decide) heapB4_eq

theorem heapA1_wf : ∃ L, WFL heapA1 L := by
  obtain ⟨L, h, _⟩ := reach_inv _ _
    (Reach.malloc heap256 heapA1 [] 8 20 4108 reach_heap256 (by decide) (by decide) heapA1_eq)
  exact ⟨L, h⟩

theorem ZM_ALIGN_max_le (n : Nat) : ZM_ALIGN (max n ZM_MIN_SIZE) ZM_ALIGN_SIZE ≤ mallocSize n := by
  rw [mallocSize_eq, ZM_ALIGN_GET_eq]
  show (max n 12 + 4 - 1) % 4294967296 - (max n 12 + 4 - 1) % 4294967296 % 4 ≤ _
  rcases Nat.le_total n 12 with h | h
  · rw [max_eq_right h]; split <;> omega
  · rw [max_eq_left h]; split <;> omega

theorem le_mallocSize (n : Nat) (h : n + ZM_ALIGN_SIZE ≤ 4294967296) : n ≤ mallocSize n := by
  rw [ZM_ALIGN_SIZE_eq] at h
  rw [mallocSize_eq, ZM_ALIGN_GET_eq]
  split <;> omega

/-- Below the wrap-around the macro `ZM_ALIGN(n, 4)` is the rounding of the
specification. -/
theorem ZM_ALIGN_eq_align_up (n : Nat) (h : n + ZM_ALIGN_SIZE ≤ 4294967296) :
    ZM_ALIGN n ZM_ALIGN_SIZE = align_up n ZM_ALIGN_SIZE := by
  rw [ZM_ALIGN_SIZE_eq] at h
  show (n + 4 - 1) % 4294967296 - (n + 4 - 1) % 4294967296 % 4 = (n + 4 - 1) / 4 * 4
  omega

/-! ## The payload of an allocation -/

/-- On a well-formed heap, a pointer returned by `zm_mem_malloc(n)` is the payload address
`o + H` of a block `o` of the new chain, which is well formed; the block is in use, its
payload capacity `next - o - H` is at least `ZM_ALIGN(max(n, M), A)`, and at least
`align_up(max(n, M), A)` and `n` when `n + A` does not pass `2^32`; the payload ends at
or before the sentinel, and every other block `x` of the chain ends at or before `o` or
starts at or after the end of the payload. -/
theorem malloc_payload_bound (s : State) (L : List Nat) (fuel n p : Nat) (t : State)
    (hw : WFL s L) (hr : zm_mem_malloc fuel s n = Outcome.ret p t) (hp : p ≠ 0) :
    ∃ o L', WFL t L' ∧ o ∈ L' ∧ p = t.zmMemHeap + o + MEM_STRUCT_SIZE ∧
      (t.hdr o).used = 1 ∧
      ZM_ALIGN (max n ZM_MIN_SIZE) ZM_ALIGN_SIZE ≤ (t.hdr o).next - o - MEM_STRUCT_SIZE ∧
      (n + ZM_ALIGN_SIZE ≤ 4294967296 →
        align_up (max n ZM_MIN_SIZE) ZM_ALIGN_SIZE ≤ (t.hdr o).next - o - MEM_STRUCT_SIZE ∧
        n ≤ (t.hdr o).next - o - MEM_STRUCT_SIZE) ∧
      (t.hdr o).next ≤ t.sentinel ∧ t.zmMemHeap + (t.hdr o).next ≤ t.zmMemEnd ∧
      ∀ x ∈ L', x ≠ o → (t.hdr x).next ≤ o ∨ (t.hdr o).next ≤ x := by
  obtain ⟨o, L', h1, h2, h3, h4, _, h6, h7, h8, h9⟩ := malloc_payload s L fuel n p t hw hr hp
  have ha := ZM_ALIGN_max_le n
  refine ⟨o, L', h1, h2, h3, h4, by omega, ?_, h7, by rw [h8]; omega, h9⟩
  intro hn
  have h1 := le_mallocSize n hn
  have h2 : max n ZM_MIN_SIZE + ZM_ALIGN_SIZE ≤ 4294967296 := by
    have : ZM_MIN_SIZE = 12 := rfl
    rw [ZM_ALIGN_SIZE_eq] at hn ⊢
    rw [this]
    rcases Nat.le_total n 12 with h | h
    · rw [max_eq_right h]; omega
    · rw [max_eq_left h]; omega
  rw [← ZM_ALIGN_eq_align_up _ h2]
  exact ⟨by omega, by omega⟩

/-- The heap of a reachable state with no pointer allocated is one free block. -/
theorem reach_empty (s : State) (h : Reach s []) :
    WFL s [0] ∧ (s.hdr 0).used = 0 ∧ (s.hdr 0).magic = ZM_HEAP_MAGIC ∧
      (s.hdr 0).next = s.zmMemSize + MEM_STRUCT_SIZE ∧ s.lfree = s.zmMemHeap ∧
      s.usedSize = 0 := by
  obtain ⟨L, hw, _, hO, _⟩ := reach_inv s [] h
  have hS := sentinel_eq s
  have hfree : ∀ o ∈ L, s.isFree o := by
    intro o ho
    by_contra hf
    have := (hO (s.zmMemHeap + o + 12)).2 ⟨o, ho, hf, rfl⟩
    simp at this
  have hL : L = [0] := by
    cases L with
    | nil =>
      have := hw.chain
      rw [seg_nil] at this
      omega
    | cons a L' =>
      have ha : a = 0 := seg_head s _ _ _ _ _ hw.chain
      cases L' with
      | nil => rw [ha]
      | cons b L'' =>
        have := hw.noadj
        rw [List.chain'_cons] at this
        exact absurd ⟨hfree a (by simp), hfree b (by simp)⟩ this.1
  subst hL
  have hc := hw.chain
  rw [seg_cons, seg_nil] at hc
  obtain ⟨lf, l1, _, l3⟩ := hw.lfree_ok
  have hlf : lf = 0 := Nat.le_zero.1 (l3 0 (by simp) (hfree 0 (by simp)))
  have hu : (s.hdr 0).used = 0 := hfree 0 (by simp)
  refine ⟨hw, hu, hc.2.1, by rw [MEM_STRUCT_SIZE_eq, ← hS]; exact hc.2.2.2.2.2,
    by rw [l1, hlf]; rfl, ?_⟩
  rw [hw.stats, usedSum_cons, if_pos hu]
  rfl

/-- Freeing a pointer still allocated in a reachable state returns, and the state it
returns in is reachable. -/
theorem reach_free (s : State) (O : List Nat) (h : Reach s O) (p : Nat) (hp : p ∈ O) :
    ∃ t, zm_mem_free s p = Outcome.ret () t ∧ Reach t (O.erase p) := by
  obtain ⟨L, hw, _, hO, hcap⟩ := reach_inv s O h
  obtain ⟨o, ho, hfo, hpo⟩ := (hO p).1 hp
  obtain ⟨L1, L2, hL⟩ := List.append_of_mem ho
  subst hL
  have hc := hcap o ho hfo
  obtain ⟨_, _, hnS⟩ := (wfc_cap_eq hw.toWFC)
  have hS := sentinel_eq s
  obtain ⟨t, LC, e1, _⟩ := free_wf s L1 L2 o hw hfo (by omega)
  rw [← hpo] at e1
  exact ⟨t, e1, Reach.free s t O p h hp e1⟩

/-- Claim C2. In a state reached from an accepted `zm_mem_init` by allocations and by frees
of pointers still allocated, every such free returns and leads to such a state again; and
once no pointer is allocated any more, the chain is the single free block at offset `0`
with `next = zmMemSize + H`, `lfree` is at offset `0`, and `usedSize` is `0`. -/
theorem C2_free_all_single_block (s : State) (O : List Nat) (h : Reach s O) :
    (∀ p ∈ O, ∃ t, zm_mem_free s p = Outcome.ret () t ∧ Reach t (O.erase p)) ∧
    (O = [] → WFL s [0] ∧ (s.hdr 0).used = 0 ∧ (s.hdr 0).magic = ZM_HEAP_MAGIC ∧
      (s.hdr 0).next = s.zmMemSize + MEM_STRUCT_SIZE ∧ s.lfree = s.zmMemHeap ∧
      s.usedSize = 0) := by
  refine ⟨fun p hp => reach_free s O h p hp, ?_⟩
  intro hO
  subst hO
  exact reach_empty s h

/-- Witness of C2: `p1 = zm_mem_malloc(20); p2 = zm_mem_malloc(20); zm_mem_free(p2);
zm_mem_free(p1)` on the 256-byte heap ends with one free block of 232 bytes. -/
theorem C2_free_all_single_block_witness :
    Reach heapB4 [] ∧ (heapB4.hdr 0).used = 0 ∧ (heapB4.hdr 0).next = 232 + MEM_STRUCT_SIZE ∧
      heapB4.lfree = heapB4.zmMemHeap ∧ heapB4.usedSize = 0 := by
  have h := (C2_free_all_single_block heapB4 [] reach_heapB4).2 rfl
  exact ⟨reach_heapB4, h.2.1, h.2.2.2.1, h.2.2.2.2.1, h.2.2.2.2.2⟩

/-- Claim C3, at the failing input `p1 = zm_mem_malloc(100); zm_mem_realloc(p1, 50)` on the
256-byte heap: the call returns `p1`, but the block at offset `0` keeps `next = 112`
instead of `0 + H + 52 = 64`, no header is written at offset `64`, the header of the
block behind, at offset `112`, is overwritten with `next = prev = 112`, and `usedSize`
drops to `64`. -/
theorem C3_shrink_tail_at_old_next :
    (zm_mem_realloc 8 heapC1 4108 50).val = some 4108 ∧
    ((zm_mem_realloc 8 heapC1 4108 50).get.hdr 0).next = 112 ∧
    ((zm_mem_realloc 8 heapC1 4108 50).get.hdr 64).magic = 0 ∧
    (heapC1.hdr 112).next = 244 ∧ (heapC1.hdr 112).prev = 0 ∧
    ((zm_mem_realloc 8 heapC1 4108 50).get.hdr 112).next = 112 ∧
    ((zm_mem_realloc 8 heapC1 4108 50).get.hdr 112).prev = 112 ∧
    heapC1.usedSize = 112 ∧ (zm_mem_realloc 8 heapC1 4108 50).get.usedSize = 64 := by
  decide

/-- Counterexample to C4: on the fresh 256-byte heap the request of 232 bytes passes both
size tests and the free block at offset `0` holds exactly 232 bytes, but the loop bound
`idx < zmMemSize - size` is `0 < 0` and `zm_mem_malloc` returns `NULL`. -/
theorem C4_exact_fit_at_end_refused :
    WFL heap256 [0] ∧ (232 : Nat) ≠ 0 ∧ ZM_ALIGN_GET 232 ≤ heap256.zmMemSize ∧
    heap256.isFree 0 ∧ max (ZM_ALIGN_GET 232) MIN_SIZE_ALIGNED ≤ heap256.cap 0 ∧
    ∀ fuel, zm_mem_malloc (fuel + 1) heap256 232 = Outcome.ret 0 heap256 := by
  refine ⟨heap256_wf, by decide, by decide, by decide, by decide, ?_⟩
  intro fuel
  rfl

/-- Claim C4, amended. On a well-formed heap, for `n > 0` with `ZM_ALIGN(n, A) <= zmMemSize`,
if the chain has a free block at an offset `o < zmMemSize - n'` whose payload capacity is at
least `n' = max(ZM_ALIGN(n, A), M)`, then `zm_mem_malloc(n)` returns a pointer that is not
`NULL`, as soon as the iterations allowed are three more than the blocks of the chain. -/
theorem C4_malloc_finds_block_under_bound (s : State) (L : List Nat) (n : Nat)
    (hw : WFL s L) (hn : n ≠ 0) (hsz : ZM_ALIGN_GET n ≤ s.zmMemSize)
    (hex : ∃ o ∈ L, s.isFree o ∧ max (ZM_ALIGN_GET n) MIN_SIZE_ALIGNED ≤ s.cap o ∧
      o + max (ZM_ALIGN_GET n) MIN_SIZE_ALIGNED < s.zmMemSize)
    (fuel : Nat) (hfuel : L.length + 3 ≤ fuel) :
    ∃ p t, p ≠ 0 ∧ zm_mem_malloc fuel s n = Outcome.ret p t := by
  have hm : max (ZM_ALIGN_GET n) MIN_SIZE_ALIGNED = mallocSize n := by
    rw [mallocSize_eq, MIN_SIZE_ALIGNED_eq]
    split <;> omega
  rw [hm] at hex
  exact malloc_succeeds s L n hw hn hsz hex fuel hfuel

/-- Witness of C4 amended: 200 bytes on the fresh 256-byte heap. -/
theorem C4_malloc_finds_block_under_bound_witness :
    WFL heap256 [0] ∧ (200 : Nat) ≠ 0 ∧ ZM_ALIGN_GET 200 ≤ heap256.zmMemSize ∧
    (∃ o ∈ [0], heap256.isFree o ∧ max (ZM_ALIGN_GET 200) MIN_SIZE_ALIGNED ≤ heap256.cap o ∧
      o + max (ZM_ALIGN_GET 200) MIN_SIZE_ALIGNED < heap256.zmMemSize) ∧
    [0].length + 3 ≤ 8 ∧ ∃ p t, p ≠ 0 ∧ zm_mem_malloc 8 heap256 200 = Outcome.ret p t :=
  ⟨heap256_wf, by decide, by decide, ⟨0, by decide, by decide, by decide, by decide⟩, by decide,
    C4_malloc_finds_block_under_bound heap256 [0] 200 heap256_wf (by decide) (by decide)
      ⟨0, by decide, by decide, by decide, by decide⟩ 8 (by decide)⟩

/-- Claim C5, at the failing input `zm_mem_malloc(4294967295)` on the fresh 256-byte heap:
the request exceeds `zm_getMemTotal() = 232`, but `ZM_ALIGN` wraps it to `0`, the size is
clamped to 12 and the call returns the payload address 4108 of a block of 12 bytes. -/
theorem C5_huge_request_gets_pointer :
    zm_getMemTotal heap256 = 232 ∧ ZM_ALIGN_GET 4294967295 = 0 ∧
    (zm_mem_malloc 8 heap256 4294967295).val = some 4108 ∧
    ((zm_mem_malloc 8 heap256 4294967295).get.hdr 0).used = 1 ∧
    ((zm_mem_malloc 8 heap256 4294967295).get.hdr 0).next = 24 := by
  decide

/-- Claim C6. A pointer that passes the range test of `zm_mem_free` and whose header has a
wrong magic or `used == 0` makes `zm_mem_free` spin in the state it was called in; and on a
well-formed heap, after `zm_mem_malloc` returned a pointer, a first `zm_mem_free` of it
returns and a second one spins in the state the first one left. -/
theorem C6_free_halts_on_bad_header :
    (∀ (s : State) (p : Nat), p ≠ 0 → s.zmMemHeap ≤ p → p < s.zmMemEnd →
      ((s.mem (p - MEM_STRUCT_SIZE)).magic ≠ ZM_HEAP_MAGIC ∨
        (s.mem (p - MEM_STRUCT_SIZE)).used = 0) →
      zm_mem_free s p = Outcome.halt s) ∧
    (∀ (s : State) (L : List Nat) (fuel n p : Nat) (s1 : State), WFL s L →
      zm_mem_malloc fuel s n = Outcome.ret p s1 → p ≠ 0 →
      ∃ s2, zm_mem_free s1 p = Outcome.ret () s2 ∧ zm_mem_free s2 p = Outcome.halt s2) := by
  refine ⟨fun s p h0 h1 h2 h => free_halts s p h0 h1 h2 h, ?_⟩
  intro s L fuel n p s1 hw hr hp
  obtain ⟨o, L', h1, h2, h3, h4, _, h6, h7, h8, _⟩ := malloc_payload s L fuel n p s1 hw hr hp
  obtain ⟨A, B, hAB⟩ := List.append_of_mem h2
  subst hAB
  have hsz := mallocSize_ge n
  have hS := sentinel_eq s1
  rw [MEM_STRUCT_SIZE_eq] at h3 h6
  have hfo : ¬ s1.isFree o := by unfold State.isFree; rw [h4]; simp
  obtain ⟨t, LC, e1, _⟩ := free_wf s1 A B o h1 hfo (by omega)
  rw [← h3] at e1
  exact ⟨t, e1, free_twice s1 t p hp (by omega) (by rw [h8]; omega) e1⟩

/-- Witness of C6: on the 256-byte heap, a free of `p1` after `p1` was freed, and the two
frees of the pointer that the first allocation returned. -/
theorem C6_free_halts_on_bad_header_witness :
    zm_mem_free heapA3 4108 = Outcome.halt heapA3 ∧
    ∃ s2, zm_mem_free heapA1 4108 = Outcome.ret () s2 ∧ zm_mem_free s2 4108 = Outcome.halt s2 :=
  ⟨C6_free_halts_on_bad_header.1 heapA3 4108 (by decide) (by decide) (by decide) (by decide),
    C6_free_halts_on_bad_header.2 heap256 [0] 8 20 4108 heapA1 heap256_wf heapA1_eq (by decide)⟩

/-- Claim C7, at the failing input `zm_mem_free(4100)` on the fresh 256-byte heap at address
4096: the pointer lies below `heap_base + H = 4108`, but the range test only compares it
with the heap base, so the header is read at address 4088, outside the region, and the
call spins instead of returning. -/
theorem C7_free_below_first_payload_spins :
    heap256.zmMemHeap = 4096 ∧ 4100 < heap256.zmMemHeap + MEM_STRUCT_SIZE ∧
    4100 - MEM_STRUCT_SIZE < heap256.zmMemHeap ∧
    zm_mem_free heap256 4100 = Outcome.halt heap256 :=
  ⟨by decide, by decide, by decide,
    free_halts heap256 4100 (by decide) (by decide) (by decide) (by decide)⟩

/-- Claim C8. When `zm_mem_malloc` returns `NULL`, the state it returns in is the state it
was called in, headers, `lfree`, `usedSize` and `maxSize` included; so `zm_mem_malloc(0)`
after `zm_mem_init` returns `NULL` and leaves `zm_getMemUsed() == 0`. -/
theorem C8_malloc_null_leaves_state (fuel : Nat) (s : State) (n : Nat) (t : State)
    (h : zm_mem_malloc fuel s n = Outcome.ret 0 t) :
    t = s ∧ zm_mem_malloc fuel heap256 0 = Outcome.ret 0 heap256 ∧
      zm_getMemUsed heap256 = 0 :=
  ⟨malloc_null_state fuel s n t h, rfl, by decide⟩

/-- Witness of C8: the refused request of 300 bytes on the 256-byte heap. -/
theorem C8_malloc_null_leaves_state_witness :
    zm_mem_malloc 8 heap256 300 = Outcome.ret 0 (zm_mem_malloc 8 heap256 300).get ∧
    (zm_mem_malloc 8 heap256 300).get = heap256 :=
  ⟨Outcome.eq_ret _ _ (by decide),
    (C8_malloc_null_leaves_state 8 heap256 300 _ (Outcome.eq_ret _ _ (by decide))).1⟩

/-- Claim C9, at the failing input `p1 = zm_mem_malloc(200); zm_mem_realloc(p1, 4294967295)`
on the 256-byte heap: the new size exceeds `zm_getMemTotal() = 232`, `ZM_ALIGN` wraps it
to `0`, and the call frees `p1` before it returns `NULL`: the block at offset `0` was in
use with `usedSize = 212` and is free afterwards with `usedSize = 0`. -/
theorem C9_huge_resize_frees_block :
    (heapD1.hdr 0).used = 1 ∧ heapD1.usedSize = 212 ∧
    (zm_mem_realloc 8 heapD1 4108 4294967295).val = some 0 ∧
    ((zm_mem_realloc 8 heapD1 4108 4294967295).get.hdr 0).used = 0 ∧
    (zm_mem_realloc 8 heapD1 4108 4294967295).get.usedSize = 0 := by
  decide

/-- Claim C10. First fit: on a well-formed heap, a pointer returned by `zm_mem_malloc(n)` is
the payload address `o + H` of a free block `o` of the chain whose payload capacity is at
least `n' = max(ZM_ALIGN(n, A), M)`, and every free block of the chain with that capacity
is at `o` or higher; and after `p1 = zm_mem_malloc(20); p2 = zm_mem_malloc(20);
zm_mem_free(p1)` on the 256-byte heap, `zm_mem_malloc(12)` returns `p1`. -/
theorem C10_malloc_first_fit (s : State) (L : List Nat) (fuel n p : Nat) (t : State)
    (hw : WFL s L) (hr : zm_mem_malloc fuel s n = Outcome.ret p t) (hp : p ≠ 0) :
    (∃ o ∈ L, p = s.zmMemHeap + o + MEM_STRUCT_SIZE ∧ s.isFree o ∧
      max (ZM_ALIGN_GET n) MIN_SIZE_ALIGNED ≤ s.cap o ∧
      ∀ x ∈ L, s.isFree x → max (ZM_ALIGN_GET n) MIN_SIZE_ALIGNED ≤ s.cap x → o ≤ x) ∧
    ((zm_mem_malloc 8 heap256 20).val = some 4108 ∧ (zm_mem_malloc 8 heapA1 20).val = some 4140 ∧
      (zm_mem_free heapA2 4108).val = some () ∧ (zm_mem_malloc 8 heapA3 12).val = some 4108) := by
  have hm : max (ZM_ALIGN_GET n) MIN_SIZE_ALIGNED = mallocSize n := by
    rw [mallocSize_eq, MIN_SIZE_ALIGNED_eq]
    split <;> omega
  rw [hm]
  exact ⟨malloc_first_fit s L fuel n p t hw hr hp, by decide⟩

/-- Witness of C10: the second allocation of 20 bytes on the 256-byte heap. -/
theorem C10_malloc_first_fit_witness :
    zm_mem_malloc 8 heapA1 20 = Outcome.ret 4140 heapA2 ∧ 4140 ≠ 0 ∧
    ∃ (L : List Nat) (o : Nat), o ∈ L ∧ 4140 = heapA1.zmMemHeap + o + MEM_STRUCT_SIZE ∧ heapA1.isFree o ∧
      max (ZM_ALIGN_GET 20) MIN_SIZE_ALIGNED ≤ heapA1.cap o ∧
      ∀ x ∈ L, heapA1.isFree x → max (ZM_ALIGN_GET 20) MIN_SIZE_ALIGNED ≤ heapA1.cap x → o ≤ x := by
  obtain ⟨L, hw⟩ := heapA1_wf
  obtain ⟨o, h1, h2⟩ :=
    (C10_malloc_first_fit heapA1 L 8 20 4140 heapA2 hw heapA2_eq (by decide)).1
  exact ⟨heapA2_eq, by decide, L, o, h1, h2⟩

/-! ## Initialisation and the split policy -/

/-- The state `zm_mem_init` produces when the aligned end is more than two headers above
the aligned begin. -/
theorem init_state (m : State) (b e : Nat)
    (h : ZM_ALIGN_DOWN (e % 4294967296) ZM_MEM_ALIGN_SIZE -
      ZM_ALIGN (b % 4294967296) ZM_MEM_ALIGN_SIZE > 2 * MEM_STRUCT_SIZE) :
    (zm_mem_init m b e).zmMemHeap = ZM_ALIGN (b % 4294967296) ZM_MEM_ALIGN_SIZE ∧
    zm_getMemTotal (zm_mem_init m b e) =
      ZM_ALIGN_DOWN (e % 4294967296) ZM_MEM_ALIGN_SIZE -
        ZM_ALIGN (b % 4294967296) ZM_MEM_ALIGN_SIZE - 2 * MEM_STRUCT_SIZE ∧
    (zm_mem_init m b e).hdr 0 =
      ⟨ZM_HEAP_MAGIC, 0, 0, zm_getMemTotal (zm_mem_init m b e) + MEM_STRUCT_SIZE⟩ ∧
    (zm_mem_init m b e).hdr (zm_getMemTotal (zm_mem_init m b e) + MEM_STRUCT_SIZE) =
      ⟨ZM_HEAP_MAGIC, 1, zm_getMemTotal (zm_mem_init m b e) + MEM_STRUCT_SIZE,
        zm_getMemTotal (zm_mem_init m b e) + MEM_STRUCT_SIZE⟩ ∧
    (zm_mem_init m b e).zmMemEnd =
      (zm_mem_init m b e).zmMemHeap + (zm_getMemTotal (zm_mem_init m b e) + MEM_STRUCT_SIZE) ∧
    (zm_mem_init m b e).lfree = (zm_mem_init m b e).zmMemHeap + 0 ∧
    zm_getMemUsed (zm_mem_init m b e) = 0 ∧ zm_getMemMaxUsed (zm_mem_init m b e) = 0 := by
  have hacc : ZM_ALIGN_DOWN (e % 4294967296) ZM_MEM_ALIGN_SIZE > 2 * MEM_STRUCT_SIZE ∧
      u32sub (ZM_ALIGN_DOWN (e % 4294967296) ZM_MEM_ALIGN_SIZE) (2 * MEM_STRUCT_SIZE) ≥
        ZM_ALIGN (b % 4294967296) ZM_MEM_ALIGN_SIZE := by
    rw [MEM_STRUCT_SIZE_eq] at h ⊢
    rw [ZM_ALIGN_DOWN_four] at h ⊢
    have he : e % 4294967296 < 4294967296 := Nat.mod_lt _ (by norm_num)
    generalize ZM_ALIGN (b % 4294967296) ZM_MEM_ALIGN_SIZE = B at h ⊢
    generalize e % 4294967296 = E at h he ⊢
    unfold u32sub
    omega
  obtain ⟨f1, f2, f3, f4, f5, f6, f7, f8, _, _⟩ := init_fields m b e hacc
  unfold zm_getMemTotal zm_getMemUsed zm_getMemMaxUsed
  rw [MEM_STRUCT_SIZE_eq]
  refine ⟨f1, ?_, f7, f8, f3, by rw [f4]; rfl, f5, f6⟩
  rw [f2]

/-- What `zm_mem_malloc` does to the block it takes. -/
theorem malloc_split (s : State) (L : List Nat) (fuel n p : Nat) (t : State)
    (hw : WFL s L) (hr : zm_mem_malloc fuel s n = Outcome.ret p t) (hp : p ≠ 0) :
    ∃ o ∈ L, p = s.zmMemHeap + o + 12 ∧ s.isFree o ∧ s.cap o = (s.hdr o).next - o - 12 ∧
      mallocSize n ≤ (s.hdr o).next - o - 12 ∧
      (mallocSize n + 24 ≤ (s.hdr o).next - o - 12 →
        t.hdr o = ⟨ZM_HEAP_MAGIC, 1, (s.hdr o).prev, o + 12 + mallocSize n⟩ ∧
        t.hdr (o + 12 + mallocSize n) = ⟨ZM_HEAP_MAGIC, 0, o, (s.hdr o).next⟩ ∧
        ((s.hdr o).next ≠ s.sentinel →
          t.hdr (s.hdr o).next = { s.hdr (s.hdr o).next with prev := o + 12 + mallocSize n }) ∧
        (∀ x, x ≠ o → x ≠ o + 12 + mallocSize n →
          (x ≠ (s.hdr o).next ∨ (s.hdr o).next = s.sentinel) → t.hdr x = s.hdr x)) ∧
      ((s.hdr o).next - o - 12 < mallocSize n + 24 →
        ∀ x, t.hdr x = if x = o then { s.hdr o with used := 1 } else s.hdr x) := by
  rcases malloc_wf s L fuel n hw with h | h | ⟨L1, o, L2, lf', hL, hfo, hfit, _, _, h, _⟩
  · rw [h] at hr; cases hr
  · rw [h] at hr
    exact absurd (Outcome.ret_inj hr).1.symm hp
  · rw [h] at hr
    obtain ⟨hp', hs1⟩ := Outcome.ret_inj hr
    subst hL
    obtain ⟨hcap, h12, hnS⟩ := wfc_cap_eq hw.toWFC
    obtain ⟨_, cm, _⟩ := chain_cut s L1 L2 o hw.chain
    have h28 := wfb_size28 hw.toWFB
    have hS := sentinel_eq s
    rw [hcap] at hfit
    refine ⟨o, by simp, hp'.symm, hfo, hcap, hfit, ?_, ?_⟩
    · intro hc
      obtain ⟨k1, k2, k3, k4, _, _⟩ := mallocBody_split s (mallocSize n) o h12 (by omega) h28 hc
      rw [← hs1]
      generalize mallocBody s (mallocSize n) o = tb at *
      have hh : ∀ x, ({ tb with lfree := s.zmMemHeap + lf' } : State).hdr x = tb.hdr x :=
        fun _ => rfl
      simp only [hh]
      exact ⟨k1, k2, k4, k3⟩
    · intro hc
      obtain ⟨k1, k2, _, _⟩ := mallocBody_whole s (mallocSize n) o h12 (by omega) h28 hfit hc
      rw [← hs1]
      generalize mallocBody s (mallocSize n) o = tb at *
      have hh : ∀ x, ({ tb with lfree := s.zmMemHeap + lf' } : State).hdr x = tb.hdr x :=
        fun _ => rfl
      simp only [hh]
      intro x
      by_cases hx : x = o
      · rw [if_pos hx, hx, k1]
        exact zmMem_ext _ _ cm.symm rfl rfl rfl
      · rw [if_neg hx]
        exact k2 x hx

/-! ## The claims on initialisation and on the split policy -/

/-- Claim C13. For every begin and end address whose aligned values satisfy
`aligned_end - aligned_begin > 2 * H`, `zm_mem_init` produces the state with the heap at
the aligned begin, `zm_getMemTotal() = aligned_end - aligned_begin - 2 * H`, a first
header at offset `0` with the magic, `used = 0`, `prev = 0`, `next = total + H`, a sentinel
header at offset `total + H` with the magic, `used = 1`, `prev = next = total + H`,
`zmMemEnd` at the sentinel, `lfree` at offset `0` and `usedSize = maxSize = 0`. -/
theorem C13_init_state (m : State) (b e : Nat)
    (h : ZM_ALIGN_DOWN (e % 4294967296) ZM_MEM_ALIGN_SIZE -
      ZM_ALIGN (b % 4294967296) ZM_MEM_ALIGN_SIZE > 2 * MEM_STRUCT_SIZE) :
    (zm_mem_init m b e).zmMemHeap = ZM_ALIGN (b % 4294967296) ZM_MEM_ALIGN_SIZE ∧
    zm_getMemTotal (zm_mem_init m b e) =
      ZM_ALIGN_DOWN (e % 4294967296) ZM_MEM_ALIGN_SIZE -
        ZM_ALIGN (b % 4294967296) ZM_MEM_ALIGN_SIZE - 2 * MEM_STRUCT_SIZE ∧
    (zm_mem_init m b e).hdr 0 =
      ⟨ZM_HEAP_MAGIC, 0, 0, zm_getMemTotal (zm_mem_init m b e) + MEM_STRUCT_SIZE⟩ ∧
    (zm_mem_init m b e).hdr (zm_getMemTotal (zm_mem_init m b e) + MEM_STRUCT_SIZE) =
      ⟨ZM_HEAP_MAGIC, 1, zm_getMemTotal (zm_mem_init m b e) + MEM_STRUCT_SIZE,
        zm_getMemTotal (zm_mem_init m b e) + MEM_STRUCT_SIZE⟩ ∧
    (zm_mem_init m b e).zmMemEnd =
      (zm_mem_init m b e).zmMemHeap + (zm_getMemTotal (zm_mem_init m b e) + MEM_STRUCT_SIZE) ∧
    (zm_mem_init m b e).lfree = (zm_mem_init m b e).zmMemHeap + 0 ∧
    zm_getMemUsed (zm_mem_init m b e) = 0 ∧ zm_getMemMaxUsed (zm_mem_init m b e) = 0 :=
  init_state m b e h

/-- Witness of C13: the region of 256 bytes from address 4096, with 232 usable bytes. -/
theorem C13_init_state_witness :
    ZM_ALIGN_DOWN (4352 % 4294967296) ZM_MEM_ALIGN_SIZE -
      ZM_ALIGN (4096 % 4294967296) ZM_MEM_ALIGN_SIZE > 2 * MEM_STRUCT_SIZE ∧
    zm_getMemTotal heap256 = 232 ∧ heap256.hdr 0 = ⟨ZM_HEAP_MAGIC, 0, 0, 244⟩ ∧
    heap256.hdr 244 = ⟨ZM_HEAP_MAGIC, 1, 244, 244⟩ ∧ heap256.lfree = 4096 := by
  have h := C13_init_state zeroState 4096 4352 (by decide)
  exact ⟨by decide, by decide, by decide, by decide, h.2.2.2.2.2.1⟩

/-- Claim C11. Split policy: on a well-formed heap, when `zm_mem_malloc(n)` returns the
payload address of the block at offset `o`, that block was free with capacity
`c = next - o - H` at least `n' = max(ZM_ALIGN(n, A), M)`.  If `c >= n' + H + M` the block
is split: its `next` becomes `o + H + n'`, its `used` becomes `1`, a free header with the
magic is written at `o + H + n'` with `prev = o` and `next` the old `next`, whose payload
is at least `M`, the old successor gets `prev = o + H + n'` unless it is the sentinel, and
no other header changes.  Otherwise only the `used` flag of the block at `o` changes. -/
theorem C11_split_policy (s : State) (L : List Nat) (fuel n p : Nat) (t : State)
    (hw : WFL s L) (hr : zm_mem_malloc fuel s n = Outcome.ret p t) (hp : p ≠ 0) :
    ∃ o ∈ L, p = s.zmMemHeap + o + MEM_STRUCT_SIZE ∧ s.isFree o ∧
      max (ZM_ALIGN_GET n) MIN_SIZE_ALIGNED ≤ (s.hdr o).next - o - MEM_STRUCT_SIZE ∧
      (max (ZM_ALIGN_GET n) MIN_SIZE_ALIGNED + MEM_STRUCT_SIZE + MIN_SIZE_ALIGNED ≤
          (s.hdr o).next - o - MEM_STRUCT_SIZE →
        (t.hdr o).next = o + MEM_STRUCT_SIZE + max (ZM_ALIGN_GET n) MIN_SIZE_ALIGNED ∧
        (t.hdr o).used = 1 ∧
        t.hdr (o + MEM_STRUCT_SIZE + max (ZM_ALIGN_GET n) MIN_SIZE_ALIGNED) =
          ⟨ZM_HEAP_MAGIC, 0, o, (s.hdr o).next⟩ ∧
        MIN_SIZE_ALIGNED ≤ (s.hdr o).next -
          (o + MEM_STRUCT_SIZE + max (ZM_ALIGN_GET n) MIN_SIZE_ALIGNED) - MEM_STRUCT_SIZE ∧
        ((s.hdr o).next ≠ s.sentinel →
          t.hdr (s.hdr o).next = { s.hdr (s.hdr o).next with
            prev := o + MEM_STRUCT_SIZE + max (ZM_ALIGN_GET n) MIN_SIZE_ALIGNED }) ∧
        ((s.hdr o).next = s.sentinel → t.hdr s.sentinel = s.hdr s.sentinel) ∧
        (∀ x, x ≠ o → x ≠ o + MEM_STRUCT_SIZE + max (ZM_ALIGN_GET n) MIN_SIZE_ALIGNED →
          x ≠ (s.hdr o).next → t.hdr x = s.hdr x)) ∧
      ((s.hdr o).next - o - MEM_STRUCT_SIZE <
          max (ZM_ALIGN_GET n) MIN_SIZE_ALIGNED + MEM_STRUCT_SIZE + MIN_SIZE_ALIGNED →
        ∀ x, t.hdr x = if x = o then { s.hdr o with used := 1 } else s.hdr x) := by
  have hm : max (ZM_ALIGN_GET n) MIN_SIZE_ALIGNED = mallocSize n := by
    rw [mallocSize_eq, MIN_SIZE_ALIGNED_eq]
    split <;> omega
  rw [hm, MEM_STRUCT_SIZE_eq, MIN_SIZE_ALIGNED_eq]
  obtain ⟨o, ho, h1, h2, _, h4, h5, h6⟩ := malloc_split s L fuel n p t hw hr hp
  refine ⟨o, ho, h1, h2, h4, ?_, ?_⟩
  · intro hc
    obtain ⟨k1, k2, k3, k4⟩ := h5 (by omega)
    have hge := mallocSize_ge n
    refine ⟨by rw [k1], by rw [k1], k2, by omega, k3, ?_, ?_⟩
    · intro hs
      refine k4 _ ?_ ?_ (Or.inr hs)
      · rw [← hs]; omega
      · rw [← hs]; omega
    · intro x hx1 hx2 hx3
      exact k4 x hx1 hx2 (Or.inl hx3)
  · intro hc
    exact h6 (by omega)

/-- Witness of C11: the first allocation of 20 bytes on the 256-byte heap splits the
block at offset `0`. -/
theorem C11_split_policy_witness :
    WFL heap256 [0] ∧ zm_mem_malloc 8 heap256 20 = Outcome.ret 4108 heapA1 ∧ 4108 ≠ 0 ∧
    ∃ o ∈ [0], 4108 = heap256.zmMemHeap + o + MEM_STRUCT_SIZE ∧ heap256.isFree o ∧
      (heapA1.hdr o).next = 32 ∧ heapA1.hdr 32 = ⟨ZM_HEAP_MAGIC, 0, 0, 244⟩ := by
  obtain ⟨o, ho, h1, h2, _, h4, _⟩ :=
    C11_split_policy heap256 [0] 8 20 4108 heapA1 heap256_wf heapA1_eq (by decide)
  refine ⟨heap256_wf, heapA1_eq, by decide, o, ho, h1, h2, ?_⟩
  simp only [List.mem_singleton] at ho
  subst ho
  exact ⟨by decide, by decide⟩

/-! ## The scenarios with `zm_mem_realloc` -/

theorem heapC2_eq : zm_mem_realloc 8 heapC1 4108 50 = Outcome.ret 4108 heapC2 :=
  Outcome.eq_ret _ _ (by decide)

theorem heapE2_eq : zm_mem_malloc 8 heapC1 100 = Outcome.ret 4220 heapE2 :=
  Outcome.eq_ret _ _ (by decide)

theorem heapE3_eq : zm_mem_free heapE2 4220 = Outcome.ret () heapE3 :=
  Outcome.eq_ret _ _ (by decide)

theorem heapG2_eq : zm_mem_realloc 8 heapC1 4108 12 = Outcome.ret 4108 heapG2 :=
  Outcome.eq_ret _ _ (by decide)

theorem heapG3_eq : zm_mem_realloc 8 heapG2 4108 12 = Outcome.ret 4108 heapG3 :=
  Outcome.eq_ret _ _ (by decide)

theorem heapH2_eq : zm_mem_realloc 8 heapC1 4108 116 = Outcome.ret 4220 heapH2 :=
  Outcome.eq_ret _ _ (by decide)

theorem reachR_heap256 (sh : Bool) : ReachR sh heap256 [] :=
  ReachR.init zeroState 4096 4352 (by decide)

theorem reachR_heapC1 (sh : Bool) : ReachR sh heapC1 [4108] :=
  ReachR.malloc heap256 heapC1 [] 8 100 4108 (reachR_heap256 sh) (by decide) heapC1_eq

theorem reachR_heapC2 : ReachR true heapC2 [4108] :=
  ReachR.realloc heapC1 heapC2 [4108] 8 4108 50 4108 (reachR_heapC1 true) (by decide)
    (by decide) (by decide) heapC2_eq

theorem reachR_heapG3 : ReachR true heapG3 [4108] :=
  ReachR.realloc heapG2 heapG3 [4108] 8 4108 12 4108
    (ReachR.realloc heapC1 heapG2 [4108] 8 4108 12 4108 (reachR_heapC1 true) (by decide)
      (by decide) (by decide) heapG2_eq)
    (by decide) (by decide) (by decide) heapG3_eq

theorem reachR_heapH2 : ReachR false heapH2 [4220] :=
  ReachR.realloc heapC1 heapH2 [4108] 8 4108 116 4220 (reachR_heapC1 false) (by decide)
    (by decide) (fun _ => by decide) heapH2_eq

/-- A block in use of a list counts in `usedSum` with its whole extent. -/
theorem usedSum_ge (s : State) (o : Nat) (hu : (s.hdr o).used ≠ 0) :
    ∀ L : List Nat, o ∈ L → (s.hdr o).next - o ≤ usedSum s L := by
  intro L
  induction L with
  | nil => intro h; simp at h
  | cons a L ih =>
    intro h
    rw [usedSum_cons]
    rcases List.mem_cons.1 h with h | h
    · rw [← h, if_neg hu]; omega
    · have := ih h; omega

/-! ## The payload bytes -/

/-- The function `zm_mem_realloc` branch by branch. -/
theorem zm_mem_realloc_eq (fuel : Nat) (s : State) (p n : Nat) :
    zm_mem_realloc fuel s p n =
      if ZM_ALIGN_GET n > s.zmMemSize then Outcome.ret 0 s
      else if ZM_ALIGN_GET n = 0 then
        match zm_mem_free s p with
        | Outcome.ret _ s1 => Outcome.ret 0 s1
        | Outcome.halt s1 => Outcome.halt s1
        | Outcome.more => Outcome.more
      else if p = 0 then zm_mem_malloc fuel s (mallocSize n)
      else if p < s.zmMemHeap ∨ p ≥ s.zmMemEnd then Outcome.ret p s
      else if blockSize s p = mallocSize n then Outcome.ret p s
      else if u32add (u32add (mallocSize n) MEM_STRUCT_SIZE) MIN_SIZE_ALIGNED < blockSize s p then
        reallocShrink s p (mallocSize n) (ptrdiff (p - MEM_STRUCT_SIZE) s.zmMemHeap)
          (blockSize s p)
      else
        match zm_mem_malloc fuel s (mallocSize n) with
        | Outcome.ret newMem s1 =>
          if newMem ≠ 0 then
            match zm_mem_free
                (s1.memcpy newMem p
                  (if blockSize s p < mallocSize n then blockSize s p else mallocSize n)) p with
            | Outcome.ret _ s3 => Outcome.ret newMem s3
            | Outcome.halt s3 => Outcome.halt s3
            | Outcome.more => Outcome.more
          else Outcome.ret newMem s1
        | Outcome.halt s1 => Outcome.halt s1
        | Outcome.more => Outcome.more := rfl

/-- The loop that advances `lfree` changes `lfree` only. -/
theorem lfreeAdvance_frame : ∀ (fuel : Nat) (s t : State), lfreeAdvance fuel s = some t →
    ∃ a, t = { s with lfree := a } := by
  intro fuel
  induction fuel with
  | zero => intro s t h; simp [lfreeAdvance] at h
  | succ k ih =>
    intro s t h
    unfold lfreeAdvance at h
    split at h
    · obtain ⟨a, ha⟩ := ih _ _ h
      exact ⟨a, ha⟩
    · exact ⟨s.lfree, (Option.some.inj h).symm⟩

/-- The end of the block body changes `lfree` only. -/
theorem lfreeUpdate_frame (fuel : Nat) (s2 : State) (pMem v : Nat) (t : State)
    (h : lfreeUpdate fuel s2 pMem = Outcome.ret v t) : ∃ a, t = { s2 with lfree := a } := by
  unfold lfreeUpdate at h
  split at h
  · cases hadv : lfreeAdvance fuel s2 with
    | none => rw [hadv] at h; cases h
    | some s3 =>
      rw [hadv] at h
      dsimp only at h
      split at h
      · obtain ⟨a, ha⟩ := lfreeAdvance_frame _ _ _ hadv
        exact ⟨a, by rw [← (Outcome.ret_inj h).2]; exact ha⟩
      · cases h
  · exact ⟨s2.lfree, (Outcome.ret_inj h).2.symm⟩

/-- What the search loop returns: `NULL` and the state it was entered in, or the payload
address of a block at some offset `o` and the state the block body left, `lfree` apart. -/
theorem mallocLoop_frame (s : State) (size : Nat) : ∀ (fuel idx p : Nat) (t : State),
    mallocLoop fuel s size idx = Outcome.ret p t →
    (p = 0 ∧ t = s) ∨
      ∃ o a, p = s.zmMemHeap + o + 12 ∧ t = { mallocBody s size o with lfree := a } := by
  intro fuel
  induction fuel with
  | zero => intro idx p t h; simp [mallocLoop] at h
  | succ k ih =>
    intro idx p t h
    unfold mallocLoop at h
    split at h
    · dsimp only at h
      split at h
      · unfold mallocTake at h
        obtain ⟨a, ha⟩ := lfreeUpdate_frame _ _ _ _ _ h
        exact Or.inr ⟨idx, a, lfreeUpdate_val _ _ _ _ _ h, ha⟩
      · exact ih _ _ _ h
    · obtain ⟨h1, h2⟩ := Outcome.ret_inj h
      exact Or.inl ⟨h1.symm, h2.symm⟩

/-- The payload plane is not touched by `zm_mem_malloc`. -/
theorem malloc_bytes (fuel : Nat) (s : State) (n p : Nat) (t : State)
    (h : zm_mem_malloc fuel s n = Outcome.ret p t) : t.bytes = s.bytes := by
  unfold zm_mem_malloc at h
  split at h
  · rw [← (Outcome.ret_inj h).2]
  · split at h
    · rw [← (Outcome.ret_inj h).2]
    · rcases mallocLoop_frame _ _ _ _ _ _ h with ⟨_, h2⟩ | ⟨o, a, _, h2⟩
      · rw [h2]
      · have hb := (mallocBody_globals s (mallocSize n) o).2.2.2.2
        generalize mallocBody s (mallocSize n) o = tb at h2 hb
        rw [h2]
        exact hb

/-- The payload plane and the statistics are not touched by `zm_putTogether`. -/
theorem putTogether_frame (s : State) (a : Nat) :
    (zm_putTogether s a).bytes = s.bytes ∧ (zm_putTogether s a).usedSize = s.usedSize ∧
      (zm_putTogether s a).maxSize = s.maxSize ∧
      (zm_putTogether s a).zmMemSize = s.zmMemSize := by
  rw [zm_putTogether_split]
  generalize s.zmMemHeap + (s.mem a).next = nm
  have hf : (fwdMerge s a).bytes = s.bytes ∧ (fwdMerge s a).usedSize = s.usedSize ∧
      (fwdMerge s a).maxSize = s.maxSize ∧ (fwdMerge s a).zmMemSize = s.zmMemSize := by
    unfold fwdMerge
    dsimp only
    split
    · obtain ⟨_, _, g3, g4, g5, g6, _⟩ := mergeStep_globals s a (s.zmMemHeap + (s.mem a).next)
      exact ⟨g6, g4, g5, g3⟩
    · exact ⟨rfl, rfl, rfl, rfl⟩
  generalize fwdMerge s a = s1 at hf
  unfold bwdMerge
  dsimp only
  split
  · obtain ⟨_, _, g3, g4, g5, g6, _⟩ := mergeStep_globals s1 (s1.zmMemHeap + (s1.mem a).prev) a
    rw [g6, g4, g5, g3]
    exact hf
  · exact hf

/-- The payload plane is not touched by `zm_mem_free`. -/
theorem free_bytes (s : State) (p : Nat) (t : State)
    (h : zm_mem_free s p = Outcome.ret () t) : t.bytes = s.bytes := by
  rw [zm_mem_free_eq] at h
  split at h
  · rw [← (Outcome.ret_inj h).2]
  · split at h
    · rw [← (Outcome.ret_inj h).2]
    · split at h
      · cases h
      · rw [← (Outcome.ret_inj h).2, (putTogether_frame _ _).1]
        exact (freeMark_globals s _).2.2.2.2.1

/-- The shrink branch of `zm_mem_realloc` returns the pointer it was given and does not
touch the payload plane. -/
theorem reallocShrink_bytes (s : State) (ptr newsize idx size : Nat) :
    ∃ t, reallocShrink s ptr newsize idx size = Outcome.ret ptr t ∧ t.bytes = s.bytes := by
  unfold reallocShrink
  dsimp only
  refine ⟨_, rfl, ?_⟩
  rw [(putTogether_frame _ _).1]
  split <;> split <;> rfl

/-- The bytes after a `zm_mem_realloc` that returns a pointer: the call returned the
pointer it was given and no byte changed, or it returned the pointer of an allocation of
the rounded size, into which the old payload was copied. -/
theorem realloc_bytes (fuel : Nat) (s : State) (p n q : Nat) (t : State) (hp : p ≠ 0)
    (hr : zm_mem_realloc fuel s p n = Outcome.ret q t) (hq : q ≠ 0) :
    (q = p ∧ t.bytes = s.bytes) ∨
      (¬ (p < s.zmMemHeap ∨ p ≥ s.zmMemEnd) ∧
        ∃ sa, zm_mem_malloc fuel s (mallocSize n) = Outcome.ret q sa ∧
          t.bytes = (s.memcpy q p (min (blockSize s p) (mallocSize n))).bytes) := by
  rw [zm_mem_realloc_eq] at hr
  by_cases h1 : ZM_ALIGN_GET n > s.zmMemSize
  · rw [if_pos h1] at hr
    exact absurd (Outcome.ret_inj hr).1.symm hq
  rw [if_neg h1] at hr
  by_cases h2 : ZM_ALIGN_GET n = 0
  · rw [if_pos h2] at hr
    generalize zm_mem_free s p = r at hr
    cases r with
    | ret v s1 => exact absurd (Outcome.ret_inj hr).1.symm hq
    | halt s1 => cases hr
    | more => cases hr
  rw [if_neg h2, if_neg hp] at hr
  by_cases hin : p < s.zmMemHeap ∨ p ≥ s.zmMemEnd
  · rw [if_pos hin] at hr
    exact Or.inl ⟨(Outcome.ret_inj hr).1.symm, by rw [← (Outcome.ret_inj hr).2]⟩
  rw [if_neg hin] at hr
  by_cases h3 : blockSize s p = mallocSize n
  · rw [if_pos h3] at hr
    exact Or.inl ⟨(Outcome.ret_inj hr).1.symm, by rw [← (Outcome.ret_inj hr).2]⟩
  rw [if_neg h3] at hr
  by_cases h4 : u32add (u32add (mallocSize n) MEM_STRUCT_SIZE) MIN_SIZE_ALIGNED < blockSize s p
  · rw [if_pos h4] at hr
    obtain ⟨t', e1, e2⟩ := reallocShrink_bytes s p (mallocSize n)
      (ptrdiff (p - MEM_STRUCT_SIZE) s.zmMemHeap) (blockSize s p)
    rw [e1] at hr
    exact Or.inl ⟨(Outcome.ret_inj hr).1.symm, by rw [← (Outcome.ret_inj hr).2]; exact e2⟩
  rw [if_neg h4] at hr
  cases hmal : zm_mem_malloc fuel s (mallocSize n) with
  | ret newMem s1 =>
    rw [hmal] at hr
    dsimp only at hr
    by_cases hne : newMem ≠ 0
    · rw [if_pos hne] at hr
      have hmin : (if blockSize s p < mallocSize n then blockSize s p else mallocSize n) =
          min (blockSize s p) (mallocSize n) := by
        split <;> omega
      rw [hmin] at hr
      cases hfr : zm_mem_free (s1.memcpy newMem p (min (blockSize s p) (mallocSize n))) p with
      | ret v s3 =>
        rw [hfr] at hr
        obtain ⟨e1, e2⟩ := Outcome.ret_inj hr
        rw [e1] at hmal hfr
        refine Or.inr ⟨hin, s1, by rw [e1], ?_⟩
        rw [← e2, free_bytes _ _ _ hfr]
        have hb := malloc_bytes _ _ _ _ _ hmal
        unfold State.memcpy
        dsimp only
        rw [hb]
      | halt s3 => rw [hfr] at hr; cases hr
      | more => rw [hfr] at hr; cases hr
    · rw [if_neg hne] at hr
      have : newMem = 0 := by
        by_contra hc
        exact hne hc
      exact absurd ((Outcome.ret_inj hr).1.symm.trans this) hq
  | halt s1 => rw [hmal] at hr; cases hr
  | more => rw [hmal] at hr; cases hr

/-! ## Resizing keeps the payload -/

/-- Well-formedness does not depend on the payload plane. -/
theorem wfl_bytes {s : State} {L : List Nat} (hw : WFL s L) (f : Nat → Nat) :
    WFL { s with bytes := f } L :=
  { toWFC := wfc_congr hw.toWFC (fun _ => rfl) rfl rfl rfl rfl rfl
    lfree_ok := lfreeOK_congr s _ L (fun _ => rfl) rfl rfl rfl hw.lfree_ok }

/-- The size `zm_mem_realloc` computes for a block of the chain is its payload capacity. -/
theorem blockSize_eq (s : State) (L : List Nat) (o : Nat) (hw : WFL s L) (ho : o ∈ L) :
    blockSize s (s.zmMemHeap + o + 12) = (s.hdr o).next - o - 12 ∧
      o + 12 ≤ (s.hdr o).next ∧ (s.hdr o).next ≤ s.zmMemSize + 12 := by
  obtain ⟨L1, L2, hL⟩ := List.append_of_mem ho
  subst hL
  obtain ⟨hcap, h12, hnS⟩ := wfc_cap_eq hw.toWFC
  have h28 := wfb_size28 hw.toWFB
  refine ⟨?_, h12, hnS⟩
  unfold blockSize
  rw [MEM_STRUCT_SIZE_eq]
  have hsub : s.zmMemHeap + o + 12 - 12 = s.zmMemHeap + o := by omega
  rw [hsub, ptrdiff_add _ _ (by omega), ← hdr_def]
  exact hcap

/-- Rounding and clamping a size that is already rounded and clamped changes nothing. -/
theorem mallocSize_idem (n : Nat) : mallocSize (mallocSize n) = mallocSize n := by
  have h1 := mallocSize_mod n
  have h2 := mallocSize_ge n
  have h3 : mallocSize n < 4294967296 := by
    rw [mallocSize_eq, ZM_ALIGN_GET_eq]
    split <;> omega
  rw [mallocSize_eq (mallocSize n), ZM_ALIGN_GET_eq]
  split <;> omega

/-- Resizing a block in use of a well-formed heap to a pointer that is not `NULL`: the
first `min(size, n')` bytes at the new pointer are those that were at the old one, and
the new pointer is the old one or the two payloads do not overlap. -/
theorem realloc_payload (s : State) (L : List Nat) (o fuel n q : Nat) (t : State)
    (hw : WFL s L) (ho : o ∈ L) (hu : ¬ s.isFree o)
    (hr : zm_mem_realloc fuel s (s.zmMemHeap + o + 12) n = Outcome.ret q t) (hq : q ≠ 0) :
    (∀ i, i < min ((s.hdr o).next - o - 12) (mallocSize n) →
      t.bytes (q + i) = s.bytes (s.zmMemHeap + o + 12 + i)) ∧
    (q = s.zmMemHeap + o + 12 ∨ q + mallocSize n ≤ s.zmMemHeap + o + 12 ∨
      s.zmMemHeap + o + 12 + ((s.hdr o).next - o - 12) ≤ q) := by
  obtain ⟨hbs, h12, hnS⟩ := blockSize_eq s L o hw ho
  rcases realloc_bytes fuel s _ n q t (by omega) hr hq with ⟨h1, h2⟩ | ⟨_, sa, h1, h2⟩
  · refine ⟨?_, Or.inl h1⟩
    intro i _
    rw [h1, h2]
  · rw [hbs] at h2
    refine ⟨?_, Or.inr ?_⟩
    · intro i hi
      rw [h2]
      unfold State.memcpy
      dsimp only
      rw [if_pos ⟨by omega, by omega⟩, Nat.add_sub_cancel_left]
    · obtain ⟨o', ho', e1, e2, _, e4, _⟩ := malloc_split s L fuel (mallocSize n) q sa hw h1 hq
      have hne : o' ≠ o := fun h => hu (h ▸ e2)
      have hms := mallocSize_idem n
      rw [hms] at e4
      have hge := mallocSize_ge n
      rcases chain_disjoint s L hw.chain o o' ho ho' hne with h | h
      · left; omega
      · right; omega

/-! ## The claim on resized payloads -/

/-- Claim C15. On a well-formed heap, for a pointer `p = o + H` to a block in use with
payload size `size = next - o - H` and a new size whose rounded and clamped value is
`n' = max(ZM_ALIGN(n, A), M)`: when `zm_mem_realloc(p, n)` returns a pointer `q` that is
not `NULL`, the first `min(size, n')` bytes at `q` after the call are the first
`min(size, n')` bytes at `p` before it; `q` is `p`, or the `n'` bytes at `q` and the
`size` bytes at `p` do not overlap. -/
theorem C15_realloc_keeps_payload (s : State) (L : List Nat) (o fuel n q : Nat) (t : State)
    (hw : WFL s L) (ho : o ∈ L) (hu : ¬ s.isFree o)
    (hr : zm_mem_realloc fuel s (s.zmMemHeap + o + MEM_STRUCT_SIZE) n = Outcome.ret q t)
    (hq : q ≠ 0) :
    (∀ i, i < min ((s.hdr o).next - o - MEM_STRUCT_SIZE)
        (max (ZM_ALIGN_GET n) MIN_SIZE_ALIGNED) →
      t.bytes (q + i) = s.bytes (s.zmMemHeap + o + MEM_STRUCT_SIZE + i)) ∧
    (q = s.zmMemHeap + o + MEM_STRUCT_SIZE ∨
      q + max (ZM_ALIGN_GET n) MIN_SIZE_ALIGNED ≤ s.zmMemHeap + o + MEM_STRUCT_SIZE ∨
      s.zmMemHeap + o + MEM_STRUCT_SIZE + ((s.hdr o).next - o - MEM_STRUCT_SIZE) ≤ q) := by
  have hm : max (ZM_ALIGN_GET n) MIN_SIZE_ALIGNED = mallocSize n := by
    rw [mallocSize_eq, MIN_SIZE_ALIGNED_eq]
    split <;> omega
  rw [hm]
  rw [MEM_STRUCT_SIZE_eq] at hr ⊢
  exact realloc_payload s L o fuel n q t hw ho hu hr hq

/-- Witness of C15: growing the block of 100 bytes to 116 bytes on the 256-byte heap moves
it from address 4108 to address 4220 with its 100 bytes. -/
theorem C15_realloc_keeps_payload_witness :
    ∃ L, WFL heapC1w L ∧ 0 ∈ L ∧ ¬ heapC1w.isFree 0 ∧
      zm_mem_realloc 8 heapC1w (heapC1w.zmMemHeap + 0 + MEM_STRUCT_SIZE) 116 =
        Outcome.ret 4220 heapH2w ∧ (4220 : Nat) ≠ 0 ∧
      (heapC1w.hdr 0).next - 0 - MEM_STRUCT_SIZE = 100 ∧
      ∀ i, i < min ((heapC1w.hdr 0).next - 0 - MEM_STRUCT_SIZE)
          (max (ZM_ALIGN_GET 116) MIN_SIZE_ALIGNED) →
        heapH2w.bytes (4220 + i) = heapC1w.bytes (heapC1w.zmMemHeap + 0 + MEM_STRUCT_SIZE + i) := by
  obtain ⟨L, hw, _, hO, _⟩ := reach_inv _ _
    (Reach.malloc heap256 heapC1 [] 8 100 4108 reach_heap256 (by decide) (by decide) heapC1_eq)
  obtain ⟨o, ho, hfo, hpo⟩ := (hO 4108).1 (by simp)
  have h0 : o = 0 := by
    have : heapC1.zmMemHeap = 4096 := by decide
    omega
  subst h0
  have hw' : WFL heapC1w L := wfl_bytes hw _
  have hr : zm_mem_realloc 8 heapC1w (heapC1w.zmMemHeap + 0 + MEM_STRUCT_SIZE) 116 =
      Outcome.ret 4220 heapH2w := Outcome.eq_ret _ _ (by decide)
  exact ⟨L, hw', ho, hfo, hr, by decide, by decide,
    (C15_realloc_keeps_payload heapC1w L 0 8 116 4220 heapH2w hw' ho hfo hr (by decide)).1⟩

/-! ## Freeing merges the neighbours -/

/-- The blocks of a chain begin at offset `0`. -/
theorem chain_head (s : State) (L : List Nat) (h : Seg s 0 0 L s.sentinel) :
    ∃ L', L = 0 :: L' := by
  cases L with
  | nil =>
    rw [seg_nil] at h
    have := sentinel_eq s
    omega
  | cons a L' => exact ⟨L', by rw [seg_head s _ _ _ _ _ h]⟩

/-- In a chain the block behind a block that does not end at the sentinel has that block
as its `prev`. -/
theorem chain_succ_prev (s : State) (L : List Nat) (h : Seg s 0 0 L s.sentinel) (b : Nat)
    (hb : b ∈ L) (hne : (s.hdr b).next ≠ s.sentinel) :
    (s.hdr b).next ∈ L ∧ (s.hdr (s.hdr b).next).prev = b := by
  obtain ⟨A, B, hL⟩ := List.append_of_mem hb
  subst hL
  obtain ⟨_, _, _, _, _, c2, _⟩ := chain_cut s A B b h
  cases B with
  | nil => rw [seg_nil] at c2; exact absurd c2 hne
  | cons y Q =>
    rw [seg_cons] at c2
    refine ⟨by rw [← c2.1]; simp, c2.2.2.1⟩

/-- Freeing a block in use of a well-formed heap, in the words of the merge: see
`free_merge`. -/
theorem free_merged_block (s : State) (L : List Nat) (o : Nat) (hw : WFL s L) (ho : o ∈ L)
    (hu : ¬ s.isFree o) (hin : o + 12 < s.sentinel) :
    ∃ t LC b e, zm_mem_free s (s.zmMemHeap + o + 12) = Outcome.ret () t ∧ WFL t LC ∧
      b = (if (s.hdr o).prev ≠ o ∧ s.isFree (s.hdr o).prev then (s.hdr o).prev else o) ∧
      e = (if s.isFree (s.hdr o).next ∧ (s.hdr o).next ≠ s.sentinel then
        (s.hdr (s.hdr o).next).next else (s.hdr o).next) ∧
      b ∈ LC ∧ t.isFree b ∧ (t.hdr b).next = e ∧ b ≤ o ∧ o < e ∧
      (∀ x ∈ LC, x ≤ o → o < (t.hdr x).next → x = b) ∧
      (e ≠ t.sentinel → e ∈ LC ∧ (t.hdr e).prev = b) ∧
      ((b ≠ o ∨ e ≠ (s.hdr o).next) → (t.hdr e).prev = b) ∧
      (∀ x ∈ LC, x ≠ b → (t.hdr x).used = (s.hdr x).used ∧ (t.hdr x).next = (s.hdr x).next) ∧
      (∀ x ∈ L, x ∉ LC → x = o ∨ x = (s.hdr o).next) ∧ (∀ x ∈ LC, x ∈ L) := by
  obtain ⟨L1, L2, hL⟩ := List.append_of_mem ho
  subst hL
  obtain ⟨t, LC, b, e, f1, f2, f3, f4, f5, f6, f7, f8, hb, he, k2, k3, k4, k5, k6, k7, k8, k9⟩ :=
    free_merge s L1 L2 o hw hu hin
  have hfb : t.isFree b := by
    unfold State.isFree
    rw [f5]
    split
    · rfl
    · next hne =>
      rw [hb]
      rw [hb] at hne
      split
      · next h => exact h.2
      · next h => rw [if_neg h] at hne; exact absurd rfl hne
  refine ⟨t, LC, b, e, f1, f2, hb, he, k2, hfb, k3, k8, k9, ?_, ?_, ?_, ?_, k7, f7⟩
  · intro x hx h1 h2
    by_contra hne
    rcases chain_disjoint t LC f2.chain b x k2 hx hne with h | h
    · omega
    · omega
  · intro hne
    rw [← k3] at hne ⊢
    exact chain_succ_prev t LC f2.chain b k2 hne
  · rintro (h | h)
    · exact k6 (Or.inl h)
    · exact k6 (Or.inr (Or.inr h))
  · intro x hx hne
    have hxo : x ≠ o := fun h => k5 (fun h' => hne (h.trans h')) (h ▸ hx)
    refine ⟨by rw [f5, if_neg hxo], k4 x hne hxo⟩

/-! ## The invariant along sequences with `zm_mem_realloc` -/

/-- The pointers owned are in the range `zm_mem_free` and `zm_mem_realloc` accept. -/
theorem owned_range {s : State} {L O : List Nat} (hw : WFL s L) (hO : Owned s L O) (p : Nat)
    (hp : p ∈ O) : p ≠ 0 ∧ ¬ (p < s.zmMemHeap ∨ p ≥ s.zmMemEnd) := by
  obtain ⟨_, hm, hc⟩ := hO
  obtain ⟨o, ho, hfo, hpo⟩ := (hm p).1 hp
  have h24 := hc o ho hfo
  obtain ⟨L1, L2, hL⟩ := List.append_of_mem ho
  subst hL
  obtain ⟨_, _, hnS⟩ := wfc_cap_eq hw.toWFC
  have hS := sentinel_eq s
  have he := hw.end_eq
  omega

/-- Owning `p` again after giving it up changes nothing. -/
theorem owned_swap {s : State} {L O : List Nat} (hO : Owned s L O) (p : Nat) (hp : p ∈ O) :
    Owned s L (p :: O.erase p) := by
  obtain ⟨hnd, hm, hc⟩ := hO
  refine ⟨List.nodup_cons.2 ⟨fun h => ((hnd.mem_erase_iff).1 h).1 rfl, hnd.erase p⟩, ?_, hc⟩
  intro q
  rw [← hm q, List.mem_cons, hnd.mem_erase_iff]
  constructor
  · rintro (h | ⟨_, h⟩)
    · rw [h]; exact hp
    · exact h
  · intro h
    by_cases hq : q = p
    · exact Or.inl hq
    · exact Or.inr ⟨hq, h⟩

/-- The blocks in use do not depend on the payload plane. -/
theorem owned_bytes {s : State} {L O : List Nat} (hO : Owned s L O) (f : Nat → Nat) :
    Owned { s with bytes := f } L O := hO

/-- One resize that does not shrink in place, of `NULL` or of a pointer of `O`, on a
well-formed heap whose blocks in use are the pointers of `O`: the heap is well formed
again and the blocks in use are the pointers the caller owns after the call. -/
theorem realloc_step (s : State) (L O : List Nat) (fuel p n q : Nat) (s1 : State)
    (hw : WFL s L) (hO : Owned s L O) (hp : p = 0 ∨ p ∈ O) (hs : ¬ takesShrink s p n)
    (hr : zm_mem_realloc fuel s p n = Outcome.ret q s1) :
    ∃ L', WFL s1 L' ∧ Owned s1 L' (reallocOwned O p n q) := by
  have h0 : (0 : Nat) ∉ O := fun h => (owned_range hw hO 0 h).1 rfl
  rw [zm_mem_realloc_eq] at hr
  by_cases h1 : ZM_ALIGN_GET n > s.zmMemSize
  · rw [if_pos h1] at hr
    obtain ⟨e1, e2⟩ := Outcome.ret_inj hr
    have hn0 : ZM_ALIGN_GET n ≠ 0 := by omega
    rw [← e1, ← e2]
    unfold reallocOwned
    rw [if_neg (by simp), if_neg hn0]
    exact ⟨L, hw, hO⟩
  rw [if_neg h1] at hr
  by_cases h2 : ZM_ALIGN_GET n = 0
  · rw [if_pos h2] at hr
    cases hfr : zm_mem_free s p with
    | ret v sa =>
      rw [hfr] at hr
      obtain ⟨e1, e2⟩ := Outcome.ret_inj hr
      rw [← e1, ← e2]
      unfold reallocOwned
      rw [if_neg (by simp), if_pos h2]
      rcases hp with hp | hp
      · rw [hp] at hfr ⊢
        rw [free_ignored s 0 (Or.inl rfl)] at hfr
        rw [← (Outcome.ret_inj hfr).2, List.erase_of_not_mem h0]
        exact ⟨L, hw, hO⟩
      · exact free_step s L O p sa hw hO hp hfr
    | halt sa => rw [hfr] at hr; cases hr
    | more => rw [hfr] at hr; cases hr
  rw [if_neg h2] at hr
  by_cases h3 : p = 0
  · rw [if_pos h3] at hr
    rw [h3]
    unfold reallocOwned
    rw [List.erase_of_not_mem h0]
    rcases malloc_step s L O fuel _ q s1 hw hO hr with ⟨e1, e2⟩ | ⟨e1, e2⟩
    · rw [e1, e2, if_neg (by simp), if_neg h2]
      exact ⟨L, hw, hO⟩
    · rw [if_pos e1]
      exact e2
  rw [if_neg h3] at hr
  have hpO : p ∈ O := by
    rcases hp with hp | hp
    · exact absurd hp h3
    · exact hp
  have hin := (owned_range hw hO p hpO).2
  rw [if_neg hin] at hr
  by_cases h4 : blockSize s p = mallocSize n
  · rw [if_pos h4] at hr
    obtain ⟨e1, e2⟩ := Outcome.ret_inj hr
    rw [← e1, ← e2]
    unfold reallocOwned
    rw [if_pos h3]
    exact ⟨L, hw, owned_swap hO p hpO⟩
  rw [if_neg h4] at hr
  by_cases h5 : u32add (u32add (mallocSize n) MEM_STRUCT_SIZE) MIN_SIZE_ALIGNED < blockSize s p
  · exact absurd ⟨h1, h2, h3, hin, h4, h5⟩ hs
  rw [if_neg h5] at hr
  cases hmal : zm_mem_malloc fuel s (mallocSize n) with
  | ret newMem sa =>
    rw [hmal] at hr
    dsimp only at hr
    rcases malloc_step s L O fuel _ newMem sa hw hO hmal with ⟨e1, e2⟩ | ⟨e1, La, wa, oa⟩
    · rw [if_neg (by rw [e1]; simp)] at hr
      obtain ⟨e3, e4⟩ := Outcome.ret_inj hr
      rw [← e3, ← e4, e1, e2]
      unfold reallocOwned
      rw [if_neg (by simp), if_neg h2]
      exact ⟨L, hw, hO⟩
    · rw [if_pos e1] at hr
      generalize (if blockSize s p < mallocSize n then blockSize s p else mallocSize n) = len
        at hr
      have wb : WFL (sa.memcpy newMem p len) La := wfl_bytes wa _
      have ob : Owned (sa.memcpy newMem p len) La (newMem :: O) := owned_bytes oa _
      cases hfr : zm_mem_free (sa.memcpy newMem p len) p with
      | ret v s3 =>
        rw [hfr] at hr
        obtain ⟨e3, e4⟩ := Outcome.ret_inj hr
        obtain ⟨L3, w3, o3⟩ := free_step _ La (newMem :: O) p s3 wb ob
          (List.mem_cons_of_mem _ hpO) hfr
        have hne : newMem ≠ p := by
          intro h
          have := (List.nodup_cons.1 oa.1).1
          rw [h] at this
          exact this hpO
        rw [← e3, ← e4]
        unfold reallocOwned
        rw [if_pos e1]
        have herase : (newMem :: O).erase p = newMem :: O.erase p := by
          rw [List.erase_cons_tail]
          simpa using hne
        rw [herase] at o3
        exact ⟨L3, w3, o3⟩
      | halt s3 => rw [hfr] at hr; cases hr
      | more => rw [hfr] at hr; cases hr
  | halt sa => rw [hmal] at hr; cases hr
  | more => rw [hmal] at hr; cases hr

/-- What `zm_mem_calloc` returns: what `zm_mem_malloc` returned for the product, with the
bytes of the payload set to zero. -/
theorem calloc_eq (fuel : Nat) (s : State) (c n p : Nat) (s1 : State)
    (hr : zm_mem_calloc fuel s c n = Outcome.ret p s1) :
    ∃ sa, zm_mem_malloc fuel s (u32mul c n) = Outcome.ret p sa ∧
      ((p = 0 ∧ s1 = sa) ∨ (p ≠ 0 ∧ s1 = sa.memset p 0 (u32mul c n))) := by
  unfold zm_mem_calloc at hr
  cases hmal : zm_mem_malloc fuel s (u32mul c n) with
  | ret q sa =>
    rw [hmal] at hr
    dsimp only at hr
    by_cases hq : q ≠ 0
    · rw [if_pos hq] at hr
      obtain ⟨e1, e2⟩ := Outcome.ret_inj hr
      rw [← e1, ← e2]
      exact ⟨sa, rfl, Or.inr ⟨hq, rfl⟩⟩
    · rw [if_neg hq] at hr
      obtain ⟨e1, e2⟩ := Outcome.ret_inj hr
      rw [← e1, ← e2]
      exact ⟨sa, rfl, Or.inl ⟨by
        by_contra h
        exact hq h, rfl⟩⟩
  | halt sa => rw [hmal] at hr; cases hr
  | more => rw [hmal] at hr; cases hr

/-- One zero-allocation on a well-formed heap whose blocks in use are the pointers of
`O`. -/
theorem calloc_step (s : State) (L O : List Nat) (fuel c n p : Nat) (s1 : State)
    (hw : WFL s L) (hO : Owned s L O) (hr : zm_mem_calloc fuel s c n = Outcome.ret p s1) :
    ∃ L', WFL s1 L' ∧ Owned s1 L' (if p = 0 then O else p :: O) := by
  obtain ⟨sa, hmal, hs⟩ := calloc_eq fuel s c n p s1 hr
  rcases malloc_step s L O fuel _ p sa hw hO hmal with ⟨e1, e2⟩ | ⟨e1, La, wa, oa⟩
  · rcases hs with ⟨_, h2⟩ | ⟨h1, _⟩
    · rw [if_pos e1, h2, e2]
      exact ⟨L, hw, hO⟩
    · exact absurd e1 h1
  · rcases hs with ⟨h1, _⟩ | ⟨_, h2⟩
    · exact absurd h1 e1
    · rw [if_neg e1, h2]
      exact ⟨La, wfl_bytes wa _, owned_bytes oa _⟩

/-- The bytes after a zero-allocation on a well-formed heap: the `count * size` bytes at
the pointer returned are zero, they lie inside the payload of the block taken, and every
other byte is as before. -/
theorem calloc_zeroed (s : State) (L : List Nat) (fuel c n p : Nat) (s1 : State)
    (hw : WFL s L) (hb : u32mul c n + ZM_ALIGN_SIZE ≤ 4294967296)
    (hr : zm_mem_calloc fuel s c n = Outcome.ret p s1) (hp : p ≠ 0) :
    (∀ i, i < u32mul c n → s1.bytes (p + i) = 0) ∧
    (∀ x, x < p ∨ p + u32mul c n ≤ x → s1.bytes x = s.bytes x) ∧
    ∃ o L', WFL s1 L' ∧ o ∈ L' ∧ p = s1.zmMemHeap + o + 12 ∧
      o + 12 + u32mul c n ≤ (s1.hdr o).next := by
  obtain ⟨sa, hmal, hs⟩ := calloc_eq fuel s c n p s1 hr
  rcases hs with ⟨h1, _⟩ | ⟨_, h2⟩
  · exact absurd h1 hp
  have hbytes := malloc_bytes _ _ _ _ _ hmal
  obtain ⟨o, L', k1, k2, k3, _, _, k6, _⟩ := malloc_payload s L fuel _ p sa hw hmal hp
  have hle := le_mallocSize (u32mul c n) hb
  rw [MEM_STRUCT_SIZE_eq] at k3 k6
  refine ⟨?_, ?_, o, L', by rw [h2]; exact wfl_bytes k1 _, k2, by rw [h2]; exact k3, ?_⟩
  · intro i hi
    rw [h2]
    unfold State.memset
    dsimp only
    rw [if_pos ⟨by omega, by omega⟩]
  · intro x hx
    rw [h2]
    unfold State.memset
    dsimp only
    rw [if_neg (by omega), hbytes]
  · rw [h2]
    show o + 12 + u32mul c n ≤ (sa.hdr o).next
    omega

/-- The invariant of the states reached without shrinking in place: the heap is well
formed and the pointers the caller owns are the blocks in use. -/
theorem reachN_inv (s : State) (O : List Nat) (h : ReachR false s O) :
    ∃ L, WFL s L ∧ Owned s L O := by
  induction h with
  | init m b e h => exact init_owned m b e h
  | malloc s s1 O fuel n p _ hn hr ih =>
    obtain ⟨L, hw, hO⟩ := ih
    rcases malloc_step s L O fuel n p s1 hw hO hr with ⟨e1, e2⟩ | ⟨e1, e2⟩
    · rw [if_pos e1, e2]
      exact ⟨L, hw, hO⟩
    · rw [if_neg e1]
      exact e2
  | calloc s s1 O fuel c n p _ hc hn hb hr ih =>
    obtain ⟨L, hw, hO⟩ := ih
    exact calloc_step s L O fuel c n p s1 hw hO hr
  | free s s1 O p _ hp hr ih =>
    obtain ⟨L, hw, hO⟩ := ih
    rcases hp with hp | hp
    · rw [hp] at hr ⊢
      rw [free_ignored s 0 (Or.inl rfl)] at hr
      rw [← (Outcome.ret_inj hr).2,
        List.erase_of_not_mem (fun h => (owned_range hw hO 0 h).1 rfl)]
      exact ⟨L, hw, hO⟩
    · exact free_step s L O p s1 hw hO hp hr
  | realloc s s1 O fuel p n q _ hp hn hs hr ih =>
    obtain ⟨L, hw, hO⟩ := ih
    exact realloc_step s L O fuel p n q s1 hw hO hp (hs rfl) hr

/-! ## The alignment invariant -/

theorem setMagic_mem (s : State) (a v x : Nat) :
    (s.setMagic a v).mem x = if x = a then { s.mem a with magic := v } else s.mem x := rfl

theorem setUsed_mem (s : State) (a v x : Nat) :
    (s.setUsed a v).mem x = if x = a then { s.mem a with used := v } else s.mem x := rfl

theorem setNext_mem (s : State) (a v x : Nat) :
    (s.setNext a v).mem x = if x = a then { s.mem a with next := v } else s.mem x := rfl

theorem setPrev_mem (s : State) (a v x : Nat) :
    (s.setPrev a v).mem x = if x = a then { s.mem a with prev := v } else s.mem x := rfl

/-- The invariant carries over to a state with the same base, an `lfree` among the
headers, and headers whose links lead to headers. -/
theorem alinv_of {s t : State} {W : List Nat} (h : AlInv s W)
    (g : t.zmMemHeap = s.zmMemHeap) (gl : t.lfree ∈ W)
    (hm : ∀ a ∈ W, s.zmMemHeap + (t.mem a).next ∈ W ∧ s.zmMemHeap + (t.mem a).prev ∈ W) :
    AlInv t W :=
  { base := by rw [g]; exact h.base
    lf := gl
    al := fun a ha => by rw [g]; exact h.al a ha
    nx := fun a ha => by rw [g]; exact (hm a ha).1
    pv := fun a ha => by rw [g]; exact (hm a ha).2 }

theorem alinv_setMagic {s : State} {W : List Nat} (h : AlInv s W) (a v : Nat) :
    AlInv (s.setMagic a v) W := by
  refine alinv_of h rfl h.lf ?_
  intro x hx
  rw [setMagic_mem]
  split
  · next e => rw [← e]; exact ⟨h.nx x hx, h.pv x hx⟩
  · exact ⟨h.nx x hx, h.pv x hx⟩

theorem alinv_setUsed {s : State} {W : List Nat} (h : AlInv s W) (a v : Nat) :
    AlInv (s.setUsed a v) W := by
  refine alinv_of h rfl h.lf ?_
  intro x hx
  rw [setUsed_mem]
  split
  · next e => rw [← e]; exact ⟨h.nx x hx, h.pv x hx⟩
  · exact ⟨h.nx x hx, h.pv x hx⟩

theorem alinv_setNext {s : State} {W : List Nat} (h : AlInv s W) (a v : Nat)
    (hv : s.zmMemHeap + v ∈ W) : AlInv (s.setNext a v) W := by
  refine alinv_of h rfl h.lf ?_
  intro x hx
  rw [setNext_mem]
  split
  · next e => rw [← e]; exact ⟨hv, h.pv x hx⟩
  · exact ⟨h.nx x hx, h.pv x hx⟩

theorem alinv_setPrev {s : State} {W : List Nat} (h : AlInv s W) (a v : Nat)
    (hv : s.zmMemHeap + v ∈ W) : AlInv (s.setPrev a v) W := by
  refine alinv_of h rfl h.lf ?_
  intro x hx
  rw [setPrev_mem]
  split
  · next e => rw [← e]; exact ⟨h.nx x hx, hv⟩
  · exact ⟨h.nx x hx, h.pv x hx⟩

theorem alinv_lfree {s : State} {W : List Nat} (h : AlInv s W) (a : Nat) (ha : a ∈ W) :
    AlInv { s with lfree := a } W :=
  alinv_of h rfl ha (fun x hx => ⟨h.nx x hx, h.pv x hx⟩)

theorem alinv_usedSize {s : State} {W : List Nat} (h : AlInv s W) (v : Nat) :
    AlInv { s with usedSize := v } W :=
  alinv_of h rfl h.lf (fun x hx => ⟨h.nx x hx, h.pv x hx⟩)

theorem alinv_bytes {s : State} {W : List Nat} (h : AlInv s W) (f : Nat → Nat) :
    AlInv { s with bytes := f } W :=
  alinv_of h rfl h.lf (fun x hx => ⟨h.nx x hx, h.pv x hx⟩)

theorem alinv_statsAdd {s : State} {W : List Nat} (h : AlInv s W) (d : Nat) :
    AlInv (statsAdd s d) W := by
  unfold statsAdd
  dsimp only
  split
  · exact alinv_of h rfl h.lf (fun x hx => ⟨h.nx x hx, h.pv x hx⟩)
  · exact alinv_usedSize h _

/-- A new header at an aligned address, written with links that lead to headers. -/
theorem alinv_new {s : State} {W : List Nat} (h : AlInv s W) (a m u v1 v2 : Nat)
    (ha : a % ZM_ALIGN_SIZE = 0 ∧ s.zmMemHeap ≤ a ∧ a < s.zmMemHeap + 4294967296)
    (h1 : s.zmMemHeap + v1 ∈ a :: W) (h2 : s.zmMemHeap + v2 ∈ a :: W) :
    AlInv ((((s.setMagic a m).setUsed a u).setNext a v1).setPrev a v2) (a :: W) := by
  have hmem : ∀ x, ((((s.setMagic a m).setUsed a u).setNext a v1).setPrev a v2).mem x =
      if x = a then ⟨m, u, v2, v1⟩ else s.mem x := by
    intro x
    by_cases hx : x = a
    · rw [if_pos hx, hx]
      simp only [setPrev_mem, setNext_mem, setUsed_mem, setMagic_mem, if_true]
    · rw [if_neg hx]
      simp only [setPrev_mem, setNext_mem, setUsed_mem, setMagic_mem, if_neg hx]
  refine
    { base := h.base
      lf := List.mem_cons_of_mem _ h.lf
      al := ?_
      nx := ?_
      pv := ?_ }
  · intro x hx
    rcases List.mem_cons.1 hx with e | e
    · rw [e]; exact ha
    · exact h.al x e
  · intro x hx
    rw [hmem]
    split
    · exact h1
    · next hne =>
      rcases List.mem_cons.1 hx with e | e
      · exact absurd e hne
      · exact List.mem_cons_of_mem _ (h.nx x e)
  · intro x hx
    rw [hmem]
    split
    · exact h2
    · next hne =>
      rcases List.mem_cons.1 hx with e | e
      · exact absurd e hne
      · exact List.mem_cons_of_mem _ (h.pv x e)

/-- An offset read from a header leads to an aligned header within reach. -/
theorem alinv_off {s : State} {W : List Nat} (h : AlInv s W) (v : Nat)
    (hv : s.zmMemHeap + v ∈ W) : v % 4 = 0 ∧ v < 4294967296 := by
  have := h.al _ hv
  have := h.base
  rw [ZM_ALIGN_SIZE_eq] at *
  omega

/-- The offset of a header, as the code computes it from its address. -/
theorem alinv_ptrdiff {s : State} {W : List Nat} (h : AlInv s W) (a : Nat) (ha : a ∈ W) :
    s.zmMemHeap + ptrdiff a s.zmMemHeap = a ∧ ptrdiff a s.zmMemHeap % 4 = 0 ∧
      ptrdiff a s.zmMemHeap < 4294967296 := by
  have h1 := h.al a ha
  have h2 := h.base
  rw [ZM_ALIGN_SIZE_eq] at *
  have h3 : a = s.zmMemHeap + (a - s.zmMemHeap) := by omega
  have h4 : ptrdiff a s.zmMemHeap = a - s.zmMemHeap := by
    conv_lhs => rw [h3]
    exact ptrdiff_add _ _ (by omega)
  rw [h4]
  omega

/-! ## The alignment invariant through `zm_mem_malloc` -/

theorem next_after_flags (s : State) (a m u x : Nat) :
    (((s.setMagic a m).setUsed a u).mem x).next = (s.mem x).next := by
  rw [setUsed_mem]
  split
  · next e => rw [setMagic_mem, if_pos rfl, e]
  · rw [setMagic_mem]
    split
    · next e => rw [e]
    · rfl

/-- The block body of `zm_mem_malloc` keeps the alignment invariant; the header it may
write is a new aligned one. -/
theorem alinv_mallocBody {s : State} {W : List Nat} (h : AlInv s W) (size idx : Nat)
    (hs : size % 4 = 0) (hi : s.zmMemHeap + idx ∈ W) :
    ∃ W', AlInv (mallocBody s size idx) W' ∧ ∀ a ∈ W, a ∈ W' := by
  obtain ⟨hi4, _⟩ := alinv_off h idx hi
  have hb := h.base
  rw [ZM_ALIGN_SIZE_eq] at hb
  unfold mallocBody
  dsimp only
  by_cases hc : u32sub (u32sub (s.mem (s.zmMemHeap + idx)).next idx) MEM_STRUCT_SIZE ≥
      u32add (u32add size MEM_STRUCT_SIZE) MIN_SIZE_ALIGNED
  · rw [if_pos hc]
    have hal : (s.zmMemHeap + u32add (u32add idx MEM_STRUCT_SIZE) size) % ZM_ALIGN_SIZE = 0 ∧
        s.zmMemHeap ≤ s.zmMemHeap + u32add (u32add idx MEM_STRUCT_SIZE) size ∧
        s.zmMemHeap + u32add (u32add idx MEM_STRUCT_SIZE) size <
          s.zmMemHeap + 4294967296 := by
      rw [ZM_ALIGN_SIZE_eq, MEM_STRUCT_SIZE_eq]
      unfold u32add
      omega
    have hmem : s.zmMemHeap + u32add (u32add idx MEM_STRUCT_SIZE) size ∈
        (s.zmMemHeap + u32add (u32add idx MEM_STRUCT_SIZE) size) :: W :=
      List.mem_cons_self _ _
    have i1 := alinv_new h (s.zmMemHeap + u32add (u32add idx MEM_STRUCT_SIZE) size)
      ZM_HEAP_MAGIC 0
      (((s.setMagic (s.zmMemHeap + u32add (u32add idx MEM_STRUCT_SIZE) size)
        ZM_HEAP_MAGIC).setUsed (s.zmMemHeap + u32add (u32add idx MEM_STRUCT_SIZE) size) 0).mem
          (s.zmMemHeap + idx)).next idx hal
      (by rw [next_after_flags]; exact List.mem_cons_of_mem _ (h.nx _ hi))
      (List.mem_cons_of_mem _ hi)
    refine ⟨(s.zmMemHeap + u32add (u32add idx MEM_STRUCT_SIZE) size) :: W,
      alinv_setMagic (alinv_statsAdd ?_ _) _ _, fun a ha => List.mem_cons_of_mem _ ha⟩
    split
    · exact alinv_setPrev (alinv_setUsed (alinv_setNext i1 _ _ hmem) _ _) _ _ hmem
    · exact alinv_setUsed (alinv_setNext i1 _ _ hmem) _ _
  · rw [if_neg hc]
    exact ⟨W, alinv_setMagic (alinv_statsAdd (alinv_setUsed h _ _) _) _ _, fun a ha => ha⟩

/-- The loop that advances `lfree` keeps the alignment invariant. -/
theorem alinv_lfreeAdvance {W : List Nat} : ∀ (fuel : Nat) (s t : State), AlInv s W →
    lfreeAdvance fuel s = some t → AlInv t W := by
  intro fuel
  induction fuel with
  | zero => intro s t _ h; simp [lfreeAdvance] at h
  | succ k ih =>
    intro s t hs h
    unfold lfreeAdvance at h
    split at h
    · exact ih _ _ (alinv_lfree hs _ (hs.nx _ hs.lf)) h
    · rw [← Option.some.inj h]; exact hs

theorem alinv_lfreeUpdate {W : List Nat} (fuel : Nat) (s2 : State) (pMem v : Nat) (t : State)
    (hs : AlInv s2 W) (h : lfreeUpdate fuel s2 pMem = Outcome.ret v t) : AlInv t W := by
  unfold lfreeUpdate at h
  split at h
  · cases hadv : lfreeAdvance fuel s2 with
    | none => rw [hadv] at h; cases h
    | some s3 =>
      rw [hadv] at h
      dsimp only at h
      split at h
      · rw [← (Outcome.ret_inj h).2]
        exact alinv_lfreeAdvance _ _ _ hs hadv
      · cases h
  · rw [← (Outcome.ret_inj h).2]; exact hs

/-- The search loop keeps the alignment invariant and returns `NULL` or the payload
address of an aligned header. -/
theorem alinv_mallocLoop (size : Nat) (hsz : size % 4 = 0) : ∀ (fuel : Nat) (s : State)
    (W : List Nat) (idx p : Nat) (t : State), AlInv s W → s.zmMemHeap + idx ∈ W →
    mallocLoop fuel s size idx = Outcome.ret p t →
    ∃ W', AlInv t W' ∧ (∀ a ∈ W, a ∈ W') ∧ (p = 0 ∨ (12 ≤ p ∧ p - 12 ∈ W')) := by
  intro fuel
  induction fuel with
  | zero => intro s W idx p t _ _ h; simp [mallocLoop] at h
  | succ k ih =>
    intro s W idx p t hs hi h
    unfold mallocLoop at h
    split at h
    · dsimp only at h
      split at h
      · unfold mallocTake at h
        obtain ⟨W', w1, w2⟩ := alinv_mallocBody hs size idx hsz hi
        have hv := lfreeUpdate_val _ _ _ _ _ h
        refine ⟨W', alinv_lfreeUpdate _ _ _ _ _ w1 h, w2, Or.inr ?_⟩
        rw [hv]
        have : s.zmMemHeap + idx + 12 - 12 = s.zmMemHeap + idx := by omega
        rw [this]
        exact ⟨by omega, w2 _ hi⟩
      · exact ih s W _ p t hs (hs.nx _ hi) h
    · obtain ⟨h1, h2⟩ := Outcome.ret_inj h
      rw [← h2]
      exact ⟨W, hs, fun a ha => ha, Or.inl h1.symm⟩

/-- A call of `zm_mem_malloc` keeps the alignment invariant and returns `NULL` or the
payload address of an aligned header. -/
theorem alinv_malloc {s : State} {W : List Nat} (fuel n p : Nat) (t : State) (hs : AlInv s W)
    (h : zm_mem_malloc fuel s n = Outcome.ret p t) :
    ∃ W', AlInv t W' ∧ (∀ a ∈ W, a ∈ W') ∧ (p = 0 ∨ (12 ≤ p ∧ p - 12 ∈ W')) := by
  unfold zm_mem_malloc at h
  split at h
  · obtain ⟨h1, h2⟩ := Outcome.ret_inj h
    rw [← h2]
    exact ⟨W, hs, fun a ha => ha, Or.inl h1.symm⟩
  · split at h
    · obtain ⟨h1, h2⟩ := Outcome.ret_inj h
      rw [← h2]
      exact ⟨W, hs, fun a ha => ha, Or.inl h1.symm⟩
    · refine alinv_mallocLoop _ (mallocSize_mod n) _ s W _ p t hs ?_ h
      rw [(alinv_ptrdiff hs _ hs.lf).1]
      exact hs.lf

/-! ## The alignment invariant through `zm_mem_free` -/

theorem alinv_mergeStep {s : State} {W : List Nat} (h : AlInv s W) (a b : Nat) (ha : a ∈ W)
    (hb : b ∈ W) : AlInv (mergeStep s a b) W := by
  unfold mergeStep
  dsimp only
  have i1 : AlInv (if s.lfree = b then { s with lfree := a } else s) W := by
    split
    · exact alinv_lfree h a ha
    · exact h
  have g1 : (if s.lfree = b then { s with lfree := a } else s).zmMemHeap = s.zmMemHeap := by
    split <;> rfl
  generalize (if s.lfree = b then { s with lfree := a } else s) = s1 at i1 g1
  refine alinv_setPrev (alinv_setNext i1 _ _ (i1.nx _ hb)) _ _ ?_
  show s1.zmMemHeap + ptrdiff a s1.zmMemHeap ∈ W
  rw [(alinv_ptrdiff i1 a ha).1]
  exact ha

theorem alinv_putTogether {s : State} {W : List Nat} (h : AlInv s W) (a : Nat) (ha : a ∈ W) :
    AlInv (zm_putTogether s a) W := by
  rw [zm_putTogether_split]
  generalize s.zmMemHeap + (s.mem a).next = nm
  have i1 : AlInv (fwdMerge s a) W := by
    unfold fwdMerge
    dsimp only
    split
    · exact alinv_mergeStep h _ _ ha (h.nx _ ha)
    · exact h
  generalize fwdMerge s a = s1 at i1
  unfold bwdMerge
  dsimp only
  split
  · exact alinv_mergeStep i1 _ _ (i1.pv _ ha) ha
  · exact i1

theorem alinv_freeMark {s : State} {W : List Nat} (h : AlInv s W) (a : Nat) (ha : a ∈ W) :
    AlInv (freeMark s a) W := by
  unfold freeMark
  dsimp only
  refine alinv_usedSize ?_ _
  split
  · exact alinv_lfree (alinv_setUsed h _ _) a ha
  · exact alinv_setUsed h _ _

/-- A call of `zm_mem_free` on `NULL`, on a pointer out of range or on the payload address
of a header keeps the alignment invariant. -/
theorem alinv_free {s : State} {W : List Nat} (p : Nat) (t : State) (hs : AlInv s W)
    (hp : p = 0 ∨ p - 12 ∈ W) (h : zm_mem_free s p = Outcome.ret () t) : AlInv t W := by
  rw [zm_mem_free_eq] at h
  by_cases h0 : p = 0
  · rw [if_pos h0] at h
    rw [← (Outcome.ret_inj h).2]; exact hs
  rw [if_neg h0] at h
  have hpW : p - 12 ∈ W := by
    rcases hp with hp | hp
    · exact absurd hp h0
    · exact hp
  split at h
  · rw [← (Outcome.ret_inj h).2]; exact hs
  · split at h
    · cases h
    · rw [← (Outcome.ret_inj h).2]
      exact alinv_putTogether (alinv_freeMark hs _ hpW) _ hpW

/-! ## The alignment invariant through `zm_mem_realloc` and along the calls -/

/-- The shrink branch of `zm_mem_realloc` in its parts. -/
theorem reallocShrink_eq (s : State) (ptr newsize idx size : Nat) :
    reallocShrink s ptr newsize idx size =
      Outcome.ret ptr (zm_putTogether
        (shrinkStats (shrinkPatch (shrinkHeader s ptr idx size)
          (s.zmMemHeap + u32add (u32add idx MEM_STRUCT_SIZE) size)
          (u32add (u32add idx MEM_STRUCT_SIZE) size))
          (s.zmMemHeap + u32add (u32add idx MEM_STRUCT_SIZE) size) size newsize)
        (s.zmMemHeap + u32add (u32add idx MEM_STRUCT_SIZE) size)) := rfl

/-- A call of `zm_mem_realloc` on `NULL` or on the payload address of a header, which does
not shrink in place, keeps the alignment invariant and returns `NULL` or the payload
address of an aligned header. -/
theorem alinv_realloc {s : State} {W : List Nat} (fuel p n q : Nat) (t : State)
    (hs : AlInv s W) (hp : p = 0 ∨ (12 ≤ p ∧ p - 12 ∈ W)) (hns : ¬ takesShrink s p n)
    (hr : zm_mem_realloc fuel s p n = Outcome.ret q t) :
    ∃ W', AlInv t W' ∧ (∀ a ∈ W, a ∈ W') ∧ (q = 0 ∨ (12 ≤ q ∧ q - 12 ∈ W')) := by
  have hp' : p = 0 ∨ p - 12 ∈ W := by
    rcases hp with h | h
    · exact Or.inl h
    · exact Or.inr h.2
  rw [zm_mem_realloc_eq] at hr
  by_cases h1 : ZM_ALIGN_GET n > s.zmMemSize
  · rw [if_pos h1] at hr
    obtain ⟨e1, e2⟩ := Outcome.ret_inj hr
    rw [← e2]
    exact ⟨W, hs, fun a ha => ha, Or.inl e1.symm⟩
  rw [if_neg h1] at hr
  by_cases h2 : ZM_ALIGN_GET n = 0
  · rw [if_pos h2] at hr
    cases hfr : zm_mem_free s p with
    | ret v sa =>
      rw [hfr] at hr
      obtain ⟨e1, e2⟩ := Outcome.ret_inj hr
      rw [← e2]
      exact ⟨W, alinv_free p sa hs hp' hfr, fun a ha => ha, Or.inl e1.symm⟩
    | halt sa => rw [hfr] at hr; cases hr
    | more => rw [hfr] at hr; cases hr
  rw [if_neg h2] at hr
  by_cases h3 : p = 0
  · rw [if_pos h3] at hr
    exact alinv_malloc fuel _ q t hs hr
  rw [if_neg h3] at hr
  have hpW : 12 ≤ p ∧ p - 12 ∈ W := by
    rcases hp with h | h
    · exact absurd h h3
    · exact h
  by_cases hin : p < s.zmMemHeap ∨ p ≥ s.zmMemEnd
  · rw [if_pos hin] at hr
    obtain ⟨e1, e2⟩ := Outcome.ret_inj hr
    rw [← e2, ← e1]
    exact ⟨W, hs, fun a ha => ha, Or.inr hpW⟩
  rw [if_neg hin] at hr
  by_cases h4 : blockSize s p = mallocSize n
  · rw [if_pos h4] at hr
    obtain ⟨e1, e2⟩ := Outcome.ret_inj hr
    rw [← e2, ← e1]
    exact ⟨W, hs, fun a ha => ha, Or.inr hpW⟩
  rw [if_neg h4] at hr
  by_cases h5 : u32add (u32add (mallocSize n) MEM_STRUCT_SIZE) MIN_SIZE_ALIGNED < blockSize s p
  · exact absurd ⟨h1, h2, h3, hin, h4, h5⟩ hns
  rw [if_neg h5] at hr
  cases hmal : zm_mem_malloc fuel s (mallocSize n) with
  | ret newMem sa =>
    rw [hmal] at hr
    dsimp only at hr
    obtain ⟨W1, w1, w2, w3⟩ := alinv_malloc fuel _ newMem sa hs hmal
    by_cases hne : newMem ≠ 0
    · rw [if_pos hne] at hr
      generalize (if blockSize s p < mallocSize n then blockSize s p else mallocSize n) = len
        at hr
      cases hfr : zm_mem_free (sa.memcpy newMem p len) p with
      | ret v s3 =>
        rw [hfr] at hr
        obtain ⟨e1, e2⟩ := Outcome.ret_inj hr
        have wb : AlInv (sa.memcpy newMem p len) W1 := alinv_bytes w1 _
        rw [← e2, ← e1]
        refine ⟨W1, alinv_free p s3 wb (Or.inr (w2 _ hpW.2)) hfr, w2, ?_⟩
        rcases w3 with h | h
        · exact absurd h hne
        · exact Or.inr h
      | halt s3 => rw [hfr] at hr; cases hr
      | more => rw [hfr] at hr; cases hr
    · rw [if_neg hne] at hr
      obtain ⟨e1, e2⟩ := Outcome.ret_inj hr
      rw [← e2, ← e1]
      exact ⟨W1, w1, w2, w3⟩
  | halt sa => rw [hmal] at hr; cases hr
  | more => rw [hmal] at hr; cases hr

/-- After `zm_mem_init` the alignment invariant holds with the first header and the
sentinel. -/
theorem alinv_init (m : State) (b e : Nat)
    (h : ZM_ALIGN_DOWN (e % 4294967296) ZM_MEM_ALIGN_SIZE > 2 * MEM_STRUCT_SIZE ∧
      u32sub (ZM_ALIGN_DOWN (e % 4294967296) ZM_MEM_ALIGN_SIZE) (2 * MEM_STRUCT_SIZE) ≥
        ZM_ALIGN (b % 4294967296) ZM_MEM_ALIGN_SIZE) :
    ∃ W, AlInv (zm_mem_init m b e) W := by
  obtain ⟨f1, _, _, f4, _, _, f7, f8, f9, f10⟩ := init_fields m b e h
  have hb : (zm_mem_init m b e).zmMemHeap % 4 = 0 := by
    rw [f1, ZM_ALIGN_four]
    omega
  generalize zm_mem_init m b e = t at *
  have m0 : t.mem t.zmMemHeap = ⟨ZM_HEAP_MAGIC, 0, 0, t.zmMemSize + 12⟩ := f7
  have m1 : t.mem (t.zmMemHeap + (t.zmMemSize + 12)) =
      ⟨ZM_HEAP_MAGIC, 1, t.zmMemSize + 12, t.zmMemSize + 12⟩ := f8
  refine ⟨[t.zmMemHeap, t.zmMemHeap + (t.zmMemSize + 12)],
    { base := hb, lf := by rw [f4]; simp, al := ?_, nx := ?_, pv := ?_ }⟩
  · intro a ha
    rw [ZM_ALIGN_SIZE_eq]
    simp only [List.mem_cons, List.mem_singleton, List.not_mem_nil, or_false] at ha
    rcases ha with ha | ha <;> rw [ha] <;> omega
  · intro a ha
    simp only [List.mem_cons, List.mem_singleton, List.not_mem_nil, or_false] at ha
    rcases ha with ha | ha
    · rw [ha, m0]; simp
    · rw [ha, m1]; simp
  · intro a ha
    simp only [List.mem_cons, List.mem_singleton, List.not_mem_nil, or_false] at ha
    rcases ha with ha | ha
    · rw [ha, m0]; simp
    · rw [ha, m1]; simp

/-- Along every sequence of calls without a resize that shrinks in place the alignment
invariant holds and the pointers the caller owns are payload addresses of aligned
headers. -/
theorem reachR_al (s : State) (O : List Nat) (h : ReachR false s O) :
    ∃ W, AlInv s W ∧ ∀ p ∈ O, 12 ≤ p ∧ p - 12 ∈ W := by
  induction h with
  | init m b e h =>
    obtain ⟨W, hW⟩ := alinv_init m b e h
    exact ⟨W, hW, fun p hp => by simp at hp⟩
  | malloc s s1 O fuel n p _ hn hr ih =>
    obtain ⟨W, hW, hO⟩ := ih
    obtain ⟨W', w1, w2, w3⟩ := alinv_malloc fuel n p s1 hW hr
    refine ⟨W', w1, ?_⟩
    intro q hq
    split at hq
    · exact ⟨(hO q hq).1, w2 _ (hO q hq).2⟩
    · next hp0 =>
      rcases List.mem_cons.1 hq with e | e
      · rw [e]
        rcases w3 with h | h
        · exact absurd h hp0
        · exact h
      · exact ⟨(hO q e).1, w2 _ (hO q e).2⟩
  | calloc s s1 O fuel c n p _ hc hn hb hr ih =>
    obtain ⟨W, hW, hO⟩ := ih
    obtain ⟨sa, hmal, hs⟩ := calloc_eq fuel s c n p s1 hr
    obtain ⟨W', w1, w2, w3⟩ := alinv_malloc fuel _ p sa hW hmal
    have w1' : AlInv s1 W' := by
      rcases hs with ⟨_, h2⟩ | ⟨_, h2⟩
      · rw [h2]; exact w1
      · rw [h2]; exact alinv_bytes w1 _
    refine ⟨W', w1', ?_⟩
    intro q hq
    split at hq
    · exact ⟨(hO q hq).1, w2 _ (hO q hq).2⟩
    · next hp0 =>
      rcases List.mem_cons.1 hq with e | e
      · rw [e]
        rcases w3 with h | h
        · exact absurd h hp0
        · exact h
      · exact ⟨(hO q e).1, w2 _ (hO q e).2⟩
  | free s s1 O p _ hp hr ih =>
    obtain ⟨W, hW, hO⟩ := ih
    have hp' : p = 0 ∨ p - 12 ∈ W := by
      rcases hp with h | h
      · exact Or.inl h
      · exact Or.inr (hO p h).2
    refine ⟨W, alinv_free p s1 hW hp' hr, ?_⟩
    intro q hq
    exact hO q (List.mem_of_mem_erase hq)
  | realloc s s1 O fuel p n q _ hp hn hs hr ih =>
    obtain ⟨W, hW, hO⟩ := ih
    have hp' : p = 0 ∨ (12 ≤ p ∧ p - 12 ∈ W) := by
      rcases hp with h | h
      · exact Or.inl h
      · exact Or.inr (hO p h)
    obtain ⟨W', w1, w2, w3⟩ := alinv_realloc fuel p n q s1 hW hp' (hs rfl) hr
    refine ⟨W', w1, ?_⟩
    have hold : ∀ x ∈ O, 12 ≤ x ∧ x - 12 ∈ W' := fun x hx => ⟨(hO x hx).1, w2 _ (hO x hx).2⟩
    intro x hx
    unfold reallocOwned at hx
    split at hx
    · next hq0 =>
      rcases List.mem_cons.1 hx with e | e
      · rw [e]
        rcases w3 with h | h
        · exact absurd h hq0
        · exact h
      · exact hold x (List.mem_of_mem_erase e)
    · split at hx
      · exact hold x (List.mem_of_mem_erase hx)
      · exact hold x hx

/-- A pointer returned by `zm_mem_malloc` after any sequence of calls without a resize that
shrinks in place is aligned. -/
theorem malloc_aligned (s : State) (O : List Nat) (h : ReachR false s O)
    (fuel n p : Nat) (t : State) (hr : zm_mem_malloc fuel s n = Outcome.ret p t) (hp : p ≠ 0) :
    p % 4 = 0 ∧ s.zmMemHeap % 4 = 0 ∧ (∃ o, p = s.zmMemHeap + o + 12 ∧ o % 4 = 0) ∧
      ∀ q ∈ O, q % 4 = 0 := by
  obtain ⟨W, hW, hO⟩ := reachR_al s O h
  obtain ⟨W', w1, w2, w3⟩ := alinv_malloc fuel n p t hW hr
  have hb := hW.base
  rw [ZM_ALIGN_SIZE_eq] at hb
  have hp4 : p % 4 = 0 := by
    rcases w3 with h | h
    · exact absurd h hp
    · have := (w1.al _ h.2).1
      rw [ZM_ALIGN_SIZE_eq] at this
      omega
  refine ⟨hp4, hb, ?_, ?_⟩
  · unfold zm_mem_malloc at hr
    split at hr
    · exact absurd (Outcome.ret_inj hr).1.symm hp
    · split at hr
      · exact absurd (Outcome.ret_inj hr).1.symm hp
      · rcases mallocLoop_frame _ _ _ _ _ _ hr with ⟨h1, _⟩ | ⟨o, a, h1, _⟩
        · exact absurd h1 hp
        · exact ⟨o, h1, by omega⟩
  · intro q hq
    have := (hW.al _ (hO q hq).2).1
    have := (hO q hq).1
    rw [ZM_ALIGN_SIZE_eq] at *
    omega

/-! ## The chain of a well-formed heap, block by block -/

/-- The links of a well-formed chain: the first block is at offset `0` with `prev = 0`;
every block has the magic, an aligned offset, a `next` above its header and at most the
sentinel; the block behind, unless it is the sentinel, is in the chain and points back;
the last block ends at the sentinel; no two blocks overlap. -/
theorem chain_facts (s : State) (L : List Nat) (hw : WFB s L) :
    (∃ L', L = 0 :: L') ∧ (s.hdr 0).prev = 0 ∧
    (∀ o ∈ L, (s.hdr o).magic = ZM_HEAP_MAGIC ∧ o % 4 = 0 ∧ o + 12 ≤ (s.hdr o).next ∧
      (s.hdr o).next ≤ s.sentinel ∧
      ((s.hdr o).next ≠ s.sentinel →
        (s.hdr o).next ∈ L ∧ (s.hdr (s.hdr o).next).prev = o)) ∧
    (∃ l ∈ L, (s.hdr l).next = s.sentinel) ∧
    (∀ x ∈ L, ∀ y ∈ L, x ≠ y → (s.hdr x).next ≤ y ∨ (s.hdr y).next ≤ x) := by
  obtain ⟨L', hL'⟩ := chain_head s L hw.chain
  refine ⟨⟨L', hL'⟩, ?_, ?_, ?_, ?_⟩
  · have hc := hw.chain
    rw [hL', seg_cons] at hc
    exact hc.2.2.1
  · intro o ho
    obtain ⟨A, B, hAB⟩ := List.append_of_mem ho
    have hc := hw.chain
    rw [hAB] at hc
    obtain ⟨_, cm, _, cal, cn, _, cle, _, _⟩ := chain_cut s A B o hc
    exact ⟨cm, cal, cn, cle, fun hne => chain_succ_prev s L hw.chain o ho hne⟩
  · rcases List.eq_nil_or_concat L with h | ⟨L0, l, h⟩
    · rw [h] at hL'; cases hL'
    · rw [List.concat_eq_append] at h
      have hc := hw.chain
      rw [h] at hc
      obtain ⟨_, _, _, _, _, c2, _⟩ := chain_cut s L0 [] l hc
      rw [seg_nil] at c2
      exact ⟨l, by rw [h]; simp, c2⟩
  · intro x hx y hy hne
    exact chain_disjoint s L hw.chain y x hy hx hne

/-! ## The peak of the statistics never decreases -/

theorem mallocBody_maxSize (s : State) (size idx : Nat) :
    s.maxSize ≤ (mallocBody s size idx).maxSize := by
  unfold mallocBody
  dsimp only
  split
  · show s.maxSize ≤ (statsAdd _ _).maxSize
    rw [statsAdd_maxSize]
    refine le_trans ?_ (le_max_left _ _)
    split <;> exact Nat.le_refl _
  · show s.maxSize ≤ (statsAdd _ _).maxSize
    rw [statsAdd_maxSize]
    exact le_max_left _ _

theorem malloc_maxSize (fuel : Nat) (s : State) (n p : Nat) (t : State)
    (h : zm_mem_malloc fuel s n = Outcome.ret p t) : s.maxSize ≤ t.maxSize := by
  unfold zm_mem_malloc at h
  split at h
  · rw [← (Outcome.ret_inj h).2]
  · split at h
    · rw [← (Outcome.ret_inj h).2]
    · rcases mallocLoop_frame _ _ _ _ _ _ h with ⟨_, h2⟩ | ⟨o, a, _, h2⟩
      · rw [h2]
      · have hb := mallocBody_maxSize s (mallocSize n) o
        generalize mallocBody s (mallocSize n) o = tb at h2 hb
        rw [h2]
        exact hb

theorem free_maxSize (s : State) (p : Nat) (t : State)
    (h : zm_mem_free s p = Outcome.ret () t) : t.maxSize = s.maxSize := by
  rw [zm_mem_free_eq] at h
  split at h
  · rw [← (Outcome.ret_inj h).2]
  · split at h
    · rw [← (Outcome.ret_inj h).2]
    · split at h
      · cases h
      · rw [← (Outcome.ret_inj h).2, (putTogether_frame _ _).2.2.1]
        exact (freeMark_globals s _).2.2.2.1

theorem reallocShrink_maxSize (s : State) (ptr newsize idx size : Nat) :
    ∃ t, reallocShrink s ptr newsize idx size = Outcome.ret ptr t ∧ t.maxSize = s.maxSize := by
  rw [reallocShrink_eq]
  refine ⟨_, rfl, ?_⟩
  rw [(putTogether_frame _ _).2.2.1]
  have h1 : (shrinkHeader s ptr idx size).maxSize = s.maxSize := rfl
  generalize shrinkHeader s ptr idx size = e at h1 ⊢
  have h2 : ∀ a b, (shrinkPatch e a b).maxSize = e.maxSize := by
    intro a b
    unfold shrinkPatch
    split <;> rfl
  rw [← h1, ← h2 (s.zmMemHeap + u32add (u32add idx MEM_STRUCT_SIZE) size)
    (u32add (u32add idx MEM_STRUCT_SIZE) size)]
  generalize shrinkPatch e _ _ = f
  unfold shrinkStats
  dsimp only
  split <;> rfl

/-- No call of `zm_mem_malloc`, `zm_mem_free` or `zm_mem_realloc` lowers `maxSize`,
whatever the state. -/
theorem realloc_maxSize (fuel : Nat) (s : State) (p n q : Nat) (t : State)
    (hr : zm_mem_realloc fuel s p n = Outcome.ret q t) : s.maxSize ≤ t.maxSize := by
  rw [zm_mem_realloc_eq] at hr
  by_cases h1 : ZM_ALIGN_GET n > s.zmMemSize
  · rw [if_pos h1] at hr
    rw [← (Outcome.ret_inj hr).2]
  rw [if_neg h1] at hr
  by_cases h2 : ZM_ALIGN_GET n = 0
  · rw [if_pos h2] at hr
    cases hfr : zm_mem_free s p with
    | ret v sa =>
      rw [hfr] at hr
      rw [← (Outcome.ret_inj hr).2, free_maxSize _ _ _ hfr]
    | halt sa => rw [hfr] at hr; cases hr
    | more => rw [hfr] at hr; cases hr
  rw [if_neg h2] at hr
  by_cases h3 : p = 0
  · rw [if_pos h3] at hr
    exact malloc_maxSize _ _ _ _ _ hr
  rw [if_neg h3] at hr
  by_cases hin : p < s.zmMemHeap ∨ p ≥ s.zmMemEnd
  · rw [if_pos hin] at hr
    rw [← (Outcome.ret_inj hr).2]
  rw [if_neg hin] at hr
  by_cases h4 : blockSize s p = mallocSize n
  · rw [if_pos h4] at hr
    rw [← (Outcome.ret_inj hr).2]
  rw [if_neg h4] at hr
  by_cases h5 : u32add (u32add (mallocSize n) MEM_STRUCT_SIZE) MIN_SIZE_ALIGNED < blockSize s p
  · rw [if_pos h5] at hr
    obtain ⟨t', k1, k2⟩ := reallocShrink_maxSize s p (mallocSize n)
      (ptrdiff (p - MEM_STRUCT_SIZE) s.zmMemHeap) (blockSize s p)
    rw [k1] at hr
    rw [← (Outcome.ret_inj hr).2, k2]
  rw [if_neg h5] at hr
  cases hmal : zm_mem_malloc fuel s (mallocSize n) with
  | ret newMem sa =>
    rw [hmal] at hr
    dsimp only at hr
    have hm := malloc_maxSize _ _ _ _ _ hmal
    by_cases hne : newMem ≠ 0
    · rw [if_pos hne] at hr
      generalize (if blockSize s p < mallocSize n then blockSize s p else mallocSize n) = len
        at hr
      cases hfr : zm_mem_free (sa.memcpy newMem p len) p with
      | ret v s3 =>
        rw [hfr] at hr
        rw [← (Outcome.ret_inj hr).2, free_maxSize _ _ _ hfr]
        exact hm
      | halt s3 => rw [hfr] at hr; cases hr
      | more => rw [hfr] at hr; cases hr
    · rw [if_neg hne] at hr
      rw [← (Outcome.ret_inj hr).2]
      exact hm
  | halt sa => rw [hmal] at hr; cases hr
  | more => rw [hmal] at hr; cases hr

/-! ## The claims on freeing, alignment, statistics and the chain -/

theorem reach_heapE2 : Reach heapE2 [4220, 4108] :=
  Reach.malloc heapC1 heapE2 [4108] 8 100 4220
    (Reach.malloc heap256 heapC1 [] 8 100 4108 reach_heap256 (by decide) (by decide) heapC1_eq)
    (by decide) (by decide) heapE2_eq

/-- A block in use of a reachable heap, found from its pointer. -/
theorem reach_block (s : State) (O : List Nat) (h : Reach s O) (p : Nat) (hp : p ∈ O) :
    ∃ L o, WFL s L ∧ o ∈ L ∧ ¬ s.isFree o ∧ p = s.zmMemHeap + o + 12 ∧
      o + 24 ≤ (s.hdr o).next := by
  obtain ⟨L, hw, _, hO, hc⟩ := reach_inv s O h
  obtain ⟨o, ho, hfo, hpo⟩ := (hO p).1 hp
  exact ⟨L, o, hw, ho, hfo, hpo, hc o ho hfo⟩

/-- Claim C12, as stated, fails: after `p1 = zm_mem_malloc(100); p2 = zm_mem_malloc(100)`
on the 256-byte heap the block of `p2` at offset `112` is in use, ends at the sentinel
and follows a block in use; `zm_mem_free(p2)` leaves it as a free block from `112` to the
sentinel, and the `prev` of its successor, the sentinel, is still `244`, not `112`. -/
theorem C12_free_keeps_sentinel_prev :
    (∃ L, WFL heapE2 L ∧ 112 ∈ L) ∧ ¬ heapE2.isFree 112 ∧
    heapE2.zmMemHeap + 112 + MEM_STRUCT_SIZE = 4220 ∧
    ¬ heapE2.isFree (heapE2.hdr 112).prev ∧ (heapE2.hdr 112).next = heapE2.sentinel ∧
    zm_mem_free heapE2 4220 = Outcome.ret () heapE3 ∧
    heapE3.isFree 112 ∧ (heapE3.hdr 112).next = 244 ∧
    (heapE3.hdr (heapE3.hdr 112).next).prev = 244 ∧
    (heapE3.hdr (heapE3.hdr 112).next).prev ≠ 112 := by
  refine ⟨?_, by decide, by decide, by decide, by decide, heapE3_eq, by decide, by decide,
    by decide, by decide⟩
  obtain ⟨L, o, hw, ho, _, hpo, _⟩ := reach_block heapE2 _ reach_heapE2 4220 (by simp)
  have h0 : heapE2.zmMemHeap = 4096 := by decide
  have : o = 112 := by omega
  rw [this] at ho
  exact ⟨L, hw, ho⟩

/-- Claim C12, amended. On a well-formed heap, for a block in use at offset `o` whose
pointer `p = o + H` is below the sentinel, `zm_mem_free(p)` returns in a well-formed heap
whose chain has one block covering `o`: it is free, it starts at `b`, which is
`heap[o].prev` when that block was free and distinct from `o`, and `o` otherwise, and it
ends at `e`, which is `heap[nx].next` when `nx = heap[o].next` was a free block other
than the sentinel, and `nx` otherwise.  The block at `e` has `prev = b` unless it is the
sentinel.  Every other block of the new chain keeps its `used` flag and its `next`, the
new chain is made of blocks of the old one, and the only blocks that leave the chain are
`o` and `nx`. -/
theorem C12_free_merges (s : State) (L : List Nat) (o : Nat) (hw : WFL s L) (ho : o ∈ L)
    (hu : ¬ s.isFree o) (hin : o + MEM_STRUCT_SIZE < s.sentinel) :
    ∃ t LC b e, zm_mem_free s (s.zmMemHeap + o + MEM_STRUCT_SIZE) = Outcome.ret () t ∧
      WFL t LC ∧
      b = (if (s.hdr o).prev ≠ o ∧ s.isFree (s.hdr o).prev then (s.hdr o).prev else o) ∧
      e = (if s.isFree (s.hdr o).next ∧ (s.hdr o).next ≠ s.sentinel then
        (s.hdr (s.hdr o).next).next else (s.hdr o).next) ∧
      b ∈ LC ∧ t.isFree b ∧ (t.hdr b).next = e ∧ b ≤ o ∧ o < e ∧
      (∀ x ∈ LC, x ≤ o → o < (t.hdr x).next → x = b) ∧
      (e ≠ t.sentinel → e ∈ LC ∧ (t.hdr e).prev = b) ∧
      (∀ x ∈ LC, x ≠ b → (t.hdr x).used = (s.hdr x).used ∧ (t.hdr x).next = (s.hdr x).next) ∧
      (∀ x ∈ L, x ∉ LC → x = o ∨ x = (s.hdr o).next) ∧ (∀ x ∈ LC, x ∈ L) := by
  rw [MEM_STRUCT_SIZE_eq] at hin ⊢
  obtain ⟨t, LC, b, e, k1, k2, k3, k4, k5, k6, k7, k8, k9, k10, k11, _, k13, k14, k15⟩ :=
    free_merged_block s L o hw ho hu hin
  exact ⟨t, LC, b, e, k1, k2, k3, k4, k5, k6, k7, k8, k9, k10, k11, k13, k14, k15⟩

/-- Witness of C12: freeing `p1` after `p1 = zm_mem_malloc(20); p2 = zm_mem_malloc(20);
zm_mem_free(p2)` on the 256-byte heap merges the block at offset `0` with the free block
behind it into one free block that ends at the sentinel. -/
theorem C12_free_merges_witness :
    ∃ L, WFL heapB3 L ∧ 0 ∈ L ∧ ¬ heapB3.isFree 0 ∧ 0 + MEM_STRUCT_SIZE < heapB3.sentinel ∧
      ∃ t LC, zm_mem_free heapB3 (heapB3.zmMemHeap + 0 + MEM_STRUCT_SIZE) = Outcome.ret () t ∧
        WFL t LC ∧ 0 ∈ LC ∧ t.isFree 0 ∧ (t.hdr 0).next = 244 := by
  have hr : Reach heapB3 [4108] :=
    Reach.free heapA2 heapB3 [4140, 4108] 4140 reach_heapA2 (by decide) heapB3_eq
  obtain ⟨L, o, hw, ho, hfo, hpo, _⟩ := reach_block heapB3 _ hr 4108 (by simp)
  have h0 : heapB3.zmMemHeap = 4096 := by decide
  have ho0 : o = 0 := by omega
  subst ho0
  have hin : 0 + MEM_STRUCT_SIZE < heapB3.sentinel := by decide
  obtain ⟨t, LC, b, e, k1, k2, k3, k4, k5, k6, k7, _⟩ :=
    C12_free_merges heapB3 L 0 hw ho hfo hin
  have hb : b = 0 := by rw [k3]; decide
  have he : e = 244 := by rw [k4]; decide
  rw [hb] at k5 k6 k7
  rw [he] at k7
  exact ⟨L, hw, ho, hfo, hin, t, LC, k1, k2, k5, k6, k7⟩

/-- Claim C16 (defect of the code): after `p1 = zm_mem_malloc(100); zm_mem_realloc(p1, 12);
zm_mem_realloc(p1, 12)` on the 256-byte heap, both resizes returning `p1`, `usedSize` is
`4294967232` and `maxSize` is `112`: the shrink branch leaves `heap[0].next` at `112`, so
the second call shrinks again and subtracts `88` from a `usedSize` of `24`. -/
theorem C16_repeated_shrink_passes_peak :
    ReachR true heapG3 [4108] ∧
    zm_mem_realloc 8 heapC1 4108 12 = Outcome.ret 4108 heapG2 ∧
    zm_mem_realloc 8 heapG2 4108 12 = Outcome.ret 4108 heapG3 ∧
    (heapG2.hdr 0).next = 112 ∧ zm_getMemUsed heapG2 = 24 ∧
    zm_getMemUsed heapG3 = 4294967232 ∧ zm_getMemMaxUsed heapG3 = 112 ∧
    ¬ (zm_getMemMaxUsed heapG3 ≥ zm_getMemUsed heapG3) :=
  ⟨reachR_heapG3, heapG2_eq, heapG3_eq, by decide, by decide, by decide, by decide, by decide⟩

/-- Claim C17 (defect of the code): after `p1 = zm_mem_malloc(100); zm_mem_realloc(p1, 50)`
on the 256-byte heap `usedSize` is `64`, while the block at offset `0` is in use with
`next - o = 112`: whatever list of blocks holds the block at offset `0`, the sum of
`next - o` over its blocks in use is more than `usedSize`. -/
theorem C17_shrink_breaks_used_count :
    ReachR true heapC2 [4108] ∧ zm_getMemUsed heapC2 = 64 ∧ (heapC2.hdr 0).used = 1 ∧
    (heapC2.hdr 0).next - 0 = 112 ∧
    ∀ L : List Nat, 0 ∈ L → zm_getMemUsed heapC2 < usedSum heapC2 L := by
  refine ⟨reachR_heapC2, by decide, by decide, by decide, ?_⟩
  intro L hL
  have h1 := usedSum_ge heapC2 0 (by decide) L hL
  have h2 : (heapC2.hdr 0).next - 0 = 112 := by decide
  have h3 : zm_getMemUsed heapC2 = 64 := by decide
  omega

/-- Claim C18, as stated, fails: after `p1 = zm_mem_malloc(100)` on the 256-byte heap,
`zm_mem_realloc(p1, 50)` returns `p1` and lowers `zm_getMemUsed()` from `112` to `64`,
that is by `48`, not by `48 + H = 60`. -/
theorem C18_shrink_used_drops_by_48 :
    zm_getMemTotal heap256 = 232 ∧ zm_mem_malloc 8 heap256 100 = Outcome.ret 4108 heapC1 ∧
    zm_mem_realloc 8 heapC1 4108 50 = Outcome.ret 4108 heapC2 ∧
    zm_getMemUsed heapC1 = 112 ∧ zm_getMemUsed heapC2 = 64 ∧
    zm_getMemUsed heapC1 - zm_getMemUsed heapC2 ≠ 48 + MEM_STRUCT_SIZE :=
  ⟨by decide, heapC1_eq, heapC2_eq, by decide, by decide, by decide⟩

/-- Claim C18, amended. With `A = 4`, `M = 12`, `H = 12` and a region of 256 bytes (232
usable): after `p1 = zm_mem_malloc(100)`, `zm_mem_realloc(p1, 50)` returns `p1`, the block
behind the block of `p1` is a free block, and `zm_getMemUsed()` is smaller than before the
call by exactly `48 = size - n'` bytes (`size = 100`, `n' = 52`). -/
theorem C18_shrink_in_place :
    ZM_ALIGN_SIZE = 4 ∧ MIN_SIZE_ALIGNED = 12 ∧ MEM_STRUCT_SIZE = 12 ∧
    zm_getMemTotal heap256 = 232 ∧ zm_mem_malloc 8 heap256 100 = Outcome.ret 4108 heapC1 ∧
    zm_mem_realloc 8 heapC1 4108 50 = Outcome.ret 4108 heapC2 ∧
    (heapC2.hdr (heapC2.hdr 0).next).magic = ZM_HEAP_MAGIC ∧
    heapC2.isFree (heapC2.hdr 0).next ∧
    blockSize heapC1 4108 = 100 ∧ mallocSize 50 = 52 ∧
    zm_getMemUsed heapC2 + 48 = zm_getMemUsed heapC1 :=
  ⟨rfl, by decide, by decide, by decide, heapC1_eq, heapC2_eq, by decide, by decide, by decide,
    by decide, by decide⟩

/-- Claim C19, as stated, fails: right after `zm_mem_init` on the 256 bytes the block at
offset `0` is not the sentinel, its `next` is the sentinel offset `244`, and the `prev`
of the header there is `244`, not `0`. -/
theorem C19_init_sentinel_prev :
    ReachR false heap256 [] ∧ (0 : Nat) ≠ heap256.sentinel ∧
    (heap256.hdr 0).next = heap256.sentinel ∧
    (heap256.hdr (heap256.hdr 0).next).prev = 244 ∧
    (heap256.hdr (heap256.hdr 0).next).prev ≠ 0 :=
  ⟨reachR_heap256 false, by decide, by decide, by decide, by decide⟩

/-- Claim C19, amended. After `zm_mem_init` and after every later call of
`zm_mem_malloc`, `zm_mem_calloc`, `zm_mem_free` or `zm_mem_realloc` on pointers the caller
owns, no resize taking the branch that shrinks in place and no zero-allocation of more
than `2^32 - A` bytes, the chain is doubly linked and ordered by address: with `L` the offsets met from offset `0` by following `next` up to the
sentinel, the first is `0` with `prev = 0`; every header of `L` and the sentinel have the
magic; every block `o` of `L` has `next > o`, at most the sentinel, and unless its `next`
is the sentinel the header there is in `L` with `prev = o`; the last block of `L` has
`next` equal to the sentinel offset; no two blocks overlap. -/
theorem C19_chain_linked (s : State) (O : List Nat) (h : ReachR false s O) :
    ∃ L, Seg s 0 0 L s.sentinel ∧ (∃ L', L = 0 :: L') ∧ (s.hdr 0).prev = 0 ∧
      (s.hdr s.sentinel).magic = ZM_HEAP_MAGIC ∧ s.zmMemEnd = s.zmMemHeap + s.sentinel ∧
      (∀ o ∈ L, (s.hdr o).magic = ZM_HEAP_MAGIC ∧ o < (s.hdr o).next ∧
        (s.hdr o).next ≤ s.sentinel ∧
        ((s.hdr o).next ≠ s.sentinel →
          (s.hdr o).next ∈ L ∧ (s.hdr (s.hdr o).next).prev = o)) ∧
      (∃ l ∈ L, (s.hdr l).next = s.sentinel) ∧
      (∀ x ∈ L, ∀ y ∈ L, x ≠ y → (s.hdr x).next ≤ y ∨ (s.hdr y).next ≤ x) := by
  obtain ⟨L, hw, _⟩ := reachN_inv s O h
  obtain ⟨c1, c2, c3, c4, c5⟩ := chain_facts s L hw.toWFB
  refine ⟨L, hw.chain, c1, c2, hw.sent_magic, hw.end_eq, ?_, c4, c5⟩
  intro o ho
  obtain ⟨k1, _, k3, k4, k5⟩ := c3 o ho
  exact ⟨k1, by omega, k4, k5⟩

/-- Witness of C19: the heap after `p1 = zm_mem_malloc(100); zm_mem_realloc(p1, 116)`,
whose chain is the free block at `0` and the block in use at `112`. -/
theorem C19_chain_linked_witness :
    ReachR false heapH2 [4220] ∧
    ∃ L, Seg heapH2 0 0 L heapH2.sentinel ∧ (∃ L', L = 0 :: L') ∧
      (∃ l ∈ L, (heapH2.hdr l).next = heapH2.sentinel) := by
  obtain ⟨L, h1, h2, _, _, _, _, h7, _⟩ := C19_chain_linked heapH2 [4220] reachR_heapH2
  exact ⟨reachR_heapH2, L, h1, h2, h7⟩

/-- Claim C20 (defect of the code): after `p1 = zm_mem_malloc(100); zm_mem_realloc(p1, 50)`
on the 256-byte heap, the block behind the block of `p1`, at offset `112`, is free and
its `next` is `112` again: the block `o = 112` of the chain and the block at
`heap[o].next` are both free. -/
theorem C20_shrink_leaves_free_pair :
    ReachR true heapC2 [4108] ∧ (heapC2.hdr 0).next = 112 ∧
    (heapC2.hdr 112).magic = ZM_HEAP_MAGIC ∧ heapC2.isFree 112 ∧
    (heapC2.hdr 112).next = 112 ∧ heapC2.isFree (heapC2.hdr 112).next :=
  ⟨reachR_heapC2, by decide, by decide, by decide, by decide, by decide⟩

/-! ## The scenarios on lfree, on the sentinel and on a small region -/

theorem heapK3_eq : zm_mem_malloc 8 heapC2 12 = Outcome.ret 4220 heapK3 :=
  Outcome.eq_ret _ _ (by decide)

theorem heapK4_eq : zm_mem_malloc 8 heapK3 12 = Outcome.ret 4244 heapK4 :=
  Outcome.eq_ret _ _ (by decide)

theorem heapK5_eq : zm_mem_free heapK4 4220 = Outcome.ret () heapK5 :=
  Outcome.eq_ret _ _ (by decide)

theorem heapJ1_eq : zm_mem_malloc 8 heap256 10 = Outcome.ret 4108 heapJ1 :=
  Outcome.eq_ret _ _ (by decide)

theorem heapJ2_eq : zm_mem_free heapJ1 4108 = Outcome.ret () heapJ2 :=
  Outcome.eq_ret _ _ (by decide)

theorem heapJ3_eq : zm_mem_malloc 8 heap256 220 = Outcome.ret 4108 heapJ3 :=
  Outcome.eq_ret _ _ (by decide)

theorem heapJ4_eq : zm_mem_realloc 8 heapJ3 4108 50 = Outcome.ret 4108 heapJ4 :=
  Outcome.eq_ret _ _ (by decide)

theorem heapW2_eq : zm_mem_free heapW1 4108 = Outcome.ret () heapW2 :=
  Outcome.eq_ret _ _ (by decide)

theorem reachR_heapK5 : ReachR true heapK5 [4244, 4108] :=
  ReachR.free heapK4 heapK5 [4244, 4220, 4108] 4220
    (ReachR.malloc heapK3 heapK4 [4220, 4108] 8 12 4244
      (ReachR.malloc heapC2 heapK3 [4108] 8 12 4220 reachR_heapC2 (by decide) heapK3_eq)
      (by decide) heapK4_eq)
    (by decide) heapK5_eq

theorem reachR_heapJ2 (sh : Bool) : ReachR sh heapJ2 [] :=
  ReachR.free heapJ1 heapJ2 [4108] 4108
    (ReachR.malloc heap256 heapJ1 [] 8 10 4108 (reachR_heap256 sh) (by decide) heapJ1_eq)
    (by decide) heapJ2_eq

theorem reachR_heapJ4 : ReachR true heapJ4 [4108] :=
  ReachR.realloc heapJ3 heapJ4 [4108] 8 4108 50 4108
    (ReachR.malloc heap256 heapJ3 [] 8 220 4108 (reachR_heap256 true) (by decide) heapJ3_eq)
    (by decide) (by decide) (by decide) heapJ4_eq

theorem reachR_heapTiny (sh : Bool) : ReachR sh heapTiny [] :=
  ReachR.init zeroState 4096 4128 (by decide)

theorem reach_heapTiny : Reach heapTiny [] := Reach.init zeroState 4096 4128 (by decide)

/-- On the heap of 8 usable bytes the search loop of `zm_mem_malloc`, looking for 12
bytes, never leaves the sentinel at offset `20`: the loop bound `zmMemSize - size` has
wrapped to `2^32 - 4`, the sentinel is in use and its `next` is `20` again. -/
theorem mallocLoop_tiny_sentinel : ∀ fuel : Nat, mallocLoop fuel heapTiny 12 20 = Outcome.more := by
  intro fuel
  induction fuel with
  | zero => rfl
  | succ k ih =>
    unfold mallocLoop
    rw [if_pos (by decide)]
    dsimp only
    rw [if_neg (by decide)]
    have h : (heapTiny.mem (heapTiny.zmMemHeap + 20)).next = 20 := by decide
    rw [h]
    exact ih

/-- On the heap of 8 usable bytes `zm_mem_malloc(1)` never returns. -/
theorem malloc_tiny_spins : ∀ fuel : Nat, zm_mem_malloc fuel heapTiny 1 = Outcome.more := by
  intro fuel
  unfold zm_mem_malloc
  rw [if_neg (by decide), if_neg (by decide)]
  have h1 : mallocSize 1 = 12 := by decide
  have h2 : ptrdiff heapTiny.lfree heapTiny.zmMemHeap = 0 := by decide
  rw [h1, h2]
  cases fuel with
  | zero => rfl
  | succ k =>
    unfold mallocLoop
    rw [if_pos (by decide)]
    dsimp only
    rw [if_neg (by decide)]
    have h : (heapTiny.mem (heapTiny.zmMemHeap + 0)).next = 20 := by decide
    rw [h]
    exact mallocLoop_tiny_sentinel k

/-! ## The chain of a state is unique; the usable size never changes -/

/-- Two runs with the same start and the same end over the same memory are the same. -/
theorem seg_unique (s : State) : ∀ (L L' : List Nat) (p a b : Nat),
    Seg s p a L b → Seg s p a L' b → L = L' := by
  intro L
  induction L with
  | nil =>
    intro L' p a b h h'
    rw [seg_nil] at h
    cases L' with
    | nil => rfl
    | cons o M =>
      have hb := (seg_bounds s _ _ _ _ h').2 o (List.mem_cons_self _ _)
      have ho := seg_head s _ _ _ _ _ h'
      omega
  | cons o L ih =>
    intro L' p a b h h'
    cases L' with
    | nil =>
      rw [seg_nil] at h'
      have hb := (seg_bounds s _ _ _ _ h).2 o (List.mem_cons_self _ _)
      have ho := seg_head s _ _ _ _ _ h
      omega
    | cons o' M =>
      rw [seg_cons] at h h'
      obtain ⟨h1, _, _, _, _, h6⟩ := h
      obtain ⟨h1', _, _, _, _, h6'⟩ := h'
      rw [h1, h1', ih M _ _ _ h6 h6']

/-- The list of blocks of a well-formed heap is determined by the state. -/
theorem wfl_unique {s : State} {L L' : List Nat} (h : WFL s L) (h' : WFL s L') : L = L' :=
  seg_unique s L L' 0 0 s.sentinel h.chain h'.chain

/-- A block of a chain ends behind its header and at most at the sentinel. -/
theorem chain_block (s : State) (L : List Nat) (h : Seg s 0 0 L s.sentinel) (o : Nat)
    (ho : o ∈ L) : o + 12 ≤ (s.hdr o).next ∧ (s.hdr o).next ≤ s.sentinel := by
  obtain ⟨A, B, hAB⟩ := List.append_of_mem ho
  rw [hAB] at h
  obtain ⟨_, _, _, _, cn, _, cle, _, _⟩ := chain_cut s A B o h
  exact ⟨cn, cle⟩

/-- The usable size is not touched by `zm_mem_malloc`. -/
theorem malloc_size (fuel : Nat) (s : State) (n p : Nat) (t : State)
    (h : zm_mem_malloc fuel s n = Outcome.ret p t) : t.zmMemSize = s.zmMemSize := by
  unfold zm_mem_malloc at h
  split at h
  · rw [← (Outcome.ret_inj h).2]
  · split at h
    · rw [← (Outcome.ret_inj h).2]
    · rcases mallocLoop_frame _ _ _ _ _ _ h with ⟨_, h2⟩ | ⟨o, a, _, h2⟩
      · rw [h2]
      · have hb := (mallocBody_globals s (mallocSize n) o).2.2.2.1
        generalize mallocBody s (mallocSize n) o = tb at h2 hb
        rw [h2]
        exact hb

/-- The usable size is not touched by `zm_mem_free`. -/
theorem free_size (s : State) (p : Nat) (t : State)
    (h : zm_mem_free s p = Outcome.ret () t) : t.zmMemSize = s.zmMemSize := by
  rw [zm_mem_free_eq] at h
  split at h
  · rw [← (Outcome.ret_inj h).2]
  · split at h
    · rw [← (Outcome.ret_inj h).2]
    · split at h
      · cases h
      · rw [← (Outcome.ret_inj h).2, (putTogether_frame _ _).2.2.2]
        exact (freeMark_globals s _).2.2.1

/-- The usable size is not touched by `zm_mem_calloc`. -/
theorem calloc_size (fuel : Nat) (s : State) (c n p : Nat) (t : State)
    (h : zm_mem_calloc fuel s c n = Outcome.ret p t) : t.zmMemSize = s.zmMemSize := by
  obtain ⟨sa, hmal, hs⟩ := calloc_eq fuel s c n p t h
  have := malloc_size _ _ _ _ _ hmal
  rcases hs with ⟨_, h2⟩ | ⟨_, h2⟩
  · rw [h2]; exact this
  · rw [h2]; exact this

/-- The ways a call of `zm_mem_realloc` that does not shrink in place returns: with the
state it was given; as `zm_mem_free(ptr)`; as `zm_mem_malloc(newsize)`; or as
`zm_mem_malloc(newsize)` followed by the copy and by `zm_mem_free(ptr)`. -/
theorem realloc_cases (fuel : Nat) (s : State) (p n q : Nat) (t : State)
    (hs : ¬ takesShrink s p n) (hr : zm_mem_realloc fuel s p n = Outcome.ret q t) :
    t = s ∨ zm_mem_free s p = Outcome.ret () t ∨
    zm_mem_malloc fuel s (mallocSize n) = Outcome.ret q t ∨
    ∃ sa len, q ≠ 0 ∧ p ≠ 0 ∧ zm_mem_malloc fuel s (mallocSize n) = Outcome.ret q sa ∧
      zm_mem_free (sa.memcpy q p len) p = Outcome.ret () t := by
  rw [zm_mem_realloc_eq] at hr
  by_cases h1 : ZM_ALIGN_GET n > s.zmMemSize
  · rw [if_pos h1] at hr
    exact Or.inl (Outcome.ret_inj hr).2.symm
  rw [if_neg h1] at hr
  by_cases h2 : ZM_ALIGN_GET n = 0
  · rw [if_pos h2] at hr
    cases hfr : zm_mem_free s p with
    | ret v sa =>
      rw [hfr] at hr
      rw [← (Outcome.ret_inj hr).2]
      exact Or.inr (Or.inl rfl)
    | halt sa => rw [hfr] at hr; cases hr
    | more => rw [hfr] at hr; cases hr
  rw [if_neg h2] at hr
  by_cases h3 : p = 0
  · rw [if_pos h3] at hr
    exact Or.inr (Or.inr (Or.inl hr))
  rw [if_neg h3] at hr
  by_cases hin : p < s.zmMemHeap ∨ p ≥ s.zmMemEnd
  · rw [if_pos hin] at hr
    exact Or.inl (Outcome.ret_inj hr).2.symm
  rw [if_neg hin] at hr
  by_cases h4 : blockSize s p = mallocSize n
  · rw [if_pos h4] at hr
    exact Or.inl (Outcome.ret_inj hr).2.symm
  rw [if_neg h4] at hr
  by_cases h5 : u32add (u32add (mallocSize n) MEM_STRUCT_SIZE) MIN_SIZE_ALIGNED < blockSize s p
  · exact absurd ⟨h1, h2, h3, hin, h4, h5⟩ hs
  rw [if_neg h5] at hr
  cases hmal : zm_mem_malloc fuel s (mallocSize n) with
  | ret newMem sa =>
    rw [hmal] at hr
    dsimp only at hr
    by_cases hne : newMem ≠ 0
    · rw [if_pos hne] at hr
      generalize (if blockSize s p < mallocSize n then blockSize s p else mallocSize n) = len
        at hr
      cases hfr : zm_mem_free (sa.memcpy newMem p len) p with
      | ret v s3 =>
        rw [hfr] at hr
        obtain ⟨e1, e2⟩ := Outcome.ret_inj hr
        rw [← e1, ← e2]
        exact Or.inr (Or.inr (Or.inr ⟨sa, len, hne, h3, rfl, hfr⟩))
      | halt s3 => rw [hfr] at hr; cases hr
      | more => rw [hfr] at hr; cases hr
    · rw [if_neg hne] at hr
      obtain ⟨e1, e2⟩ := Outcome.ret_inj hr
      rw [← e1, ← e2]
      exact Or.inr (Or.inr (Or.inl rfl))
  | halt sa => rw [hmal] at hr; cases hr
  | more => rw [hmal] at hr; cases hr

/-- The usable size is not touched by a `zm_mem_realloc` that does not shrink in place. -/
theorem realloc_size (fuel : Nat) (s : State) (p n q : Nat) (t : State)
    (hs : ¬ takesShrink s p n) (hr : zm_mem_realloc fuel s p n = Outcome.ret q t) :
    t.zmMemSize = s.zmMemSize := by
  rcases realloc_cases fuel s p n q t hs hr with h | h | h | ⟨sa, len, _, _, h1, h2⟩
  · rw [h]
  · exact free_size _ _ _ h
  · exact malloc_size _ _ _ _ _ h
  · rw [free_size _ _ _ h2]
    exact malloc_size fuel s (mallocSize n) q sa h1

/-! ## Free blocks hold the minimum size -/

theorem minFree_iff (s : State) (L : List Nat) :
    MinFree s L ↔ ∀ o ∈ L, s.isFree o → o + 24 ≤ (s.hdr o).next := by
  unfold MinFree
  rw [MEM_STRUCT_SIZE_eq, MIN_SIZE_ALIGNED_eq]

/-- The free block that a split of `zm_mem_malloc` adds to the chain holds the minimum
size. -/
theorem mallocBody_tail (s : State) (L1 L2 : List Nat) (o size : Nat)
    (hw : WFC s (L1 ++ o :: L2)) (x : Nat) (hx : x ∈ takeList s L1 L2 o size)
    (hn : x ∉ L1 ++ o :: L2) : x + 24 ≤ ((mallocBody s size o).hdr x).next := by
  obtain ⟨hcap, hn12, hnS⟩ := (wfc_cap_eq hw)
  obtain ⟨_, _, _, _, _, _, cle, _, _⟩ := chain_cut s L1 L2 o hw.chain
  have h28 := (wfb_size28 hw.toWFB)
  unfold takeList at hx
  by_cases hc : size + 24 ≤ s.cap o
  · rw [if_pos hc] at hx
    rw [hcap] at hc
    obtain ⟨_, bp, _⟩ := mallocBody_split s size o hn12 cle h28 hc
    have : x = o + 12 + size := by
      rcases List.mem_append.1 hx with h | h
      · exact absurd (List.mem_append_left _ h) hn
      · rcases List.mem_cons.1 h with h | h
        · rw [h] at hn; simp at hn
        · rcases List.mem_cons.1 h with h | h
          · exact h
          · exact absurd (List.mem_append_right _ (List.mem_cons_of_mem _ h)) hn
    rw [this, bp]
    dsimp only
    omega
  · rw [if_neg hc] at hx
    exact absurd hx hn

/-- One allocation on a well-formed heap whose free blocks hold the minimum size: they
still do. -/
theorem malloc_min (s : State) (L O : List Nat) (fuel n p : Nat) (s1 : State)
    (hw : WFL s L) (hOw : Owned s L O)
    (hm : ∀ o ∈ L, s.isFree o → o + 24 ≤ (s.hdr o).next)
    (hr : zm_mem_malloc fuel s n = Outcome.ret p s1) :
    ∃ L', WFL s1 L' ∧ Owned s1 L' (if p = 0 then O else p :: O) ∧
      ∀ o ∈ L', s1.isFree o → o + 24 ≤ (s1.hdr o).next := by
  rcases malloc_step s L O fuel n p s1 hw hOw hr with ⟨e1, e2⟩ | ⟨e1, L', w', o'⟩
  · rw [if_pos e1, e2]
    exact ⟨L, hw, hOw, hm⟩
  rw [if_neg e1]
  refine ⟨L', w', o', ?_⟩
  rcases malloc_wf s L fuel n hw with h | h | ⟨L1, o, L2, lf', hL, hfo, hfit, _, _, h, hw2⟩
  · rw [h] at hr; cases hr
  · rw [h] at hr
    exact absurd (Outcome.ret_inj hr).1.symm e1
  · rw [h] at hr
    obtain ⟨_, hs1⟩ := Outcome.ret_inj hr
    subst hL
    obtain ⟨k1, _, _, _, k5, _, _⟩ :=
      mallocBody_facts s L1 L2 o (mallocSize n) hw.toWFC hfit
    have kt := mallocBody_tail s L1 L2 o (mallocSize n) hw.toWFC
    generalize mallocBody s (mallocSize n) o = tb at *
    have hh : ∀ x, s1.hdr x = tb.hdr x := by
      intro x; rw [← hs1]; rfl
    rw [hs1] at hw2
    have hLL := wfl_unique w' hw2
    intro x hx hfx
    rw [hLL] at hx
    unfold State.isFree at hfx
    rw [hh] at hfx ⊢
    by_cases hxL : x ∈ L1 ++ o :: L2
    · by_cases hxo : x = o
      · rw [hxo, k1] at hfx
        exact absurd hfx (by decide)
      · have hx2 : x ∈ L1 ++ L2 := by
          rcases List.mem_append.1 hxL with h | h
          · exact List.mem_append_left _ h
          · rcases List.mem_cons.1 h with h | h
            · exact absurd h hxo
            · exact List.mem_append_right _ h
        obtain ⟨u1, u2⟩ := k5 x hx2
        rw [u2]
        rw [u1] at hfx
        exact hm x hxL hfx
    · exact kt x hx hxL

/-- One free of a pointer the caller owns on a well-formed heap whose free blocks hold the
minimum size: they still do. -/
theorem free_min (s : State) (L O : List Nat) (p : Nat) (s1 : State)
    (hw : WFL s L) (hOw : Owned s L O)
    (hm : ∀ o ∈ L, s.isFree o → o + 24 ≤ (s.hdr o).next) (hp : p ∈ O)
    (hr : zm_mem_free s p = Outcome.ret () s1) :
    ∃ L', WFL s1 L' ∧ Owned s1 L' (O.erase p) ∧
      ∀ o ∈ L', s1.isFree o → o + 24 ≤ (s1.hdr o).next := by
  obtain ⟨L', w', o'⟩ := free_step s L O p s1 hw hOw hp hr
  refine ⟨L', w', o', ?_⟩
  obtain ⟨_, hO, hcap⟩ := hOw
  obtain ⟨o, ho, hfo, hpo⟩ := (hO p).1 hp
  have hc := hcap o ho hfo
  obtain ⟨_, hoS⟩ := chain_block s L hw.chain o ho
  obtain ⟨t, LC, b, e, f1, f2, _, he, _, _, k3, k8, _, _, _, _, k13, _, k15⟩ :=
    free_merged_block s L o hw ho hfo (by omega)
  rw [hpo, f1] at hr
  have hts := (Outcome.ret_inj hr).2
  subst hts
  have hLL := wfl_unique w' f2
  intro x hx hfx
  rw [hLL] at hx
  by_cases hxb : x = b
  · rw [hxb, k3]
    have hle : (s.hdr o).next ≤ e := by
      rw [he]
      by_cases hcond : s.isFree (s.hdr o).next ∧ (s.hdr o).next ≠ s.sentinel
      · rw [if_pos hcond]
        have hin := (chain_succ_prev s L hw.chain o ho hcond.2).1
        have := (chain_block s L hw.chain _ hin).1
        omega
      · rw [if_neg hcond]
    omega
  · obtain ⟨u1, u2⟩ := k13 x hx hxb
    rw [u2]
    refine hm x (k15 x hx) ?_
    unfold State.isFree at hfx ⊢
    rw [← u1]
    exact hfx

/-- One resize that does not shrink in place on a well-formed heap whose free blocks hold
the minimum size: they still do. -/
theorem realloc_min (s : State) (L O : List Nat) (fuel p n q : Nat) (s1 : State)
    (hw : WFL s L) (hOw : Owned s L O)
    (hm : ∀ o ∈ L, s.isFree o → o + 24 ≤ (s.hdr o).next) (hp : p = 0 ∨ p ∈ O)
    (hs : ¬ takesShrink s p n) (hr : zm_mem_realloc fuel s p n = Outcome.ret q s1) :
    ∃ L', WFL s1 L' ∧ ∀ o ∈ L', s1.isFree o → o + 24 ≤ (s1.hdr o).next := by
  have h0 : (0 : Nat) ∉ O := fun h => (owned_range hw hOw 0 h).1 rfl
  rcases realloc_cases fuel s p n q s1 hs hr with h | h | h | ⟨sa, len, hq, hp0, h1, h2⟩
  · rw [h]
    exact ⟨L, hw, hm⟩
  · rcases hp with hp | hp
    · rw [hp, free_ignored s 0 (Or.inl rfl)] at h
      rw [← (Outcome.ret_inj h).2]
      exact ⟨L, hw, hm⟩
    · obtain ⟨L', a1, _, a3⟩ := free_min s L O p s1 hw hOw hm hp h
      exact ⟨L', a1, a3⟩
  · obtain ⟨L', a1, _, a3⟩ := malloc_min s L O fuel _ q s1 hw hOw hm h
    exact ⟨L', a1, a3⟩
  · obtain ⟨La, a1, a2, a3⟩ := malloc_min s L O fuel _ q sa hw hOw hm h1
    rw [if_neg hq] at a2
    have hpO : p ∈ O := by
      rcases hp with hp | hp
      · exact absurd hp hp0
      · exact hp
    obtain ⟨L', b1, _, b3⟩ := free_min (sa.memcpy q p len) La (q :: O) p s1
      (wfl_bytes a1 _) (owned_bytes a2 _) a3 (List.mem_cons_of_mem _ hpO) h2
    exact ⟨L', b1, b3⟩

/-- After a successful `zm_mem_init` on a region of at least `M` usable bytes and any
sequence of calls that return, none shrinking in place, the heap is well formed, the
pointers the caller owns are the blocks in use, and every free block holds at least the
minimum size. -/
theorem reachN_min (s : State) (O : List Nat) (h : ReachR false s O) :
    12 ≤ s.zmMemSize →
    ∃ L, WFL s L ∧ Owned s L O ∧ ∀ o ∈ L, s.isFree o → o + 24 ≤ (s.hdr o).next := by
  induction h with
  | init m b e h =>
    intro hM
    obtain ⟨L, hw, hO⟩ := init_owned m b e h
    obtain ⟨hw0, _⟩ := init_wf m b e h
    obtain ⟨_, _, _, _, _, _, f7, _⟩ := init_fields m b e h
    have hLL := wfl_unique hw hw0
    refine ⟨L, hw, hO, ?_⟩
    intro x hx _
    rw [hLL] at hx
    simp at hx
    rw [hx, f7]
    dsimp only
    omega
  | malloc s s1 O fuel n p _ hn hr ih =>
    intro hM
    rw [malloc_size _ _ _ _ _ hr] at hM
    obtain ⟨L, hw, hO, hm⟩ := ih hM
    exact malloc_min s L O fuel n p s1 hw hO hm hr
  | calloc s s1 O fuel c n p _ hc hn hb hr ih =>
    intro hM
    rw [calloc_size _ _ _ _ _ _ hr] at hM
    obtain ⟨L, hw, hO, hm⟩ := ih hM
    obtain ⟨sa, hmal, hs⟩ := calloc_eq fuel s c n p s1 hr
    obtain ⟨La, a1, a2, a3⟩ := malloc_min s L O fuel _ p sa hw hO hm hmal
    rcases hs with ⟨_, h2⟩ | ⟨_, h2⟩
    · rw [h2]
      exact ⟨La, a1, a2, a3⟩
    · rw [h2]
      exact ⟨La, wfl_bytes a1 _, owned_bytes a2 _, a3⟩
  | free s s1 O p _ hp hr ih =>
    intro hM
    rw [free_size _ _ _ hr] at hM
    obtain ⟨L, hw, hO, hm⟩ := ih hM
    rcases hp with hp | hp
    · rw [hp] at hr ⊢
      rw [free_ignored s 0 (Or.inl rfl)] at hr
      rw [← (Outcome.ret_inj hr).2,
        List.erase_of_not_mem (fun h => (owned_range hw hO 0 h).1 rfl)]
      exact ⟨L, hw, hO, hm⟩
    · exact free_min s L O p s1 hw hO hm hp hr
  | realloc s s1 O fuel p n q _ hp hn hs hr ih =>
    intro hM
    rw [realloc_size _ _ _ _ _ _ (hs rfl) hr] at hM
    obtain ⟨L, hw, hO, hm⟩ := ih hM
    obtain ⟨L', b1, b2⟩ := realloc_step s L O fuel p n q s1 hw hO hp (hs rfl) hr
    obtain ⟨L'', c1, c2⟩ := realloc_min s L O fuel p n q s1 hw hO hm hp (hs rfl) hr
    rw [← wfl_unique b1 c1] at c2
    exact ⟨L', b1, b2, c2⟩

/-! ## The loops of `zm_mem_malloc` end -/

/-- With one more iteration than blocks ahead, and a size that the region holds, the
search loop ends: it gives up at the loop bound, or it takes a free block. -/
theorem mallocLoop_ends (s : State) (size : Nat) (hsz : size ≤ s.zmMemSize)
    (h32 : s.zmMemSize < 4294967296) :
    ∀ (fuel : Nat) (L2 : List Nat) (q idx : Nat), Seg s q idx L2 s.sentinel →
      L2.length + 1 ≤ fuel →
      mallocLoop fuel s size idx = Outcome.ret 0 s ∨
      ∃ k M1 o M2, L2 = M1 ++ o :: M2 ∧ s.isFree o ∧ size ≤ s.cap o ∧
        fuel ≤ k + M1.length + 1 ∧ mallocLoop fuel s size idx = mallocTake k s size o := by
  have hbound : u32sub s.zmMemSize size ≤ s.zmMemSize := by unfold u32sub; omega
  have hS := sentinel_eq s
  intro fuel
  induction fuel with
  | zero => intro L2 q idx _ hlen; omega
  | succ fuel ih =>
    intro L2 q idx hseg hlen
    unfold mallocLoop
    by_cases hb : idx < u32sub s.zmMemSize size
    · rw [if_pos hb]
      dsimp only
      cases L2 with
      | nil =>
        rw [seg_nil] at hseg
        omega
      | cons y M =>
        rw [seg_cons] at hseg
        obtain ⟨hy, _, _, _, _, ht⟩ := hseg
        subst hy
        by_cases hfit : (s.mem (s.zmMemHeap + y)).used = 0 ∧
            u32sub (u32sub (s.mem (s.zmMemHeap + y)).next y) MEM_STRUCT_SIZE ≥ size
        · rw [if_pos hfit]
          exact Or.inr ⟨fuel, [], y, M, rfl, hfit.1, hfit.2, by simp, rfl⟩
        · rw [if_neg hfit, ← hdr_def]
          rcases ih M y _ ht (by simpa using hlen) with h | ⟨k, M1, o, M2, e1, e2, e3, e4, e5⟩
          · exact Or.inl h
          · exact Or.inr ⟨k, y :: M1, o, M2, by rw [e1]; rfl, e2, e3, by simp; omega, e5⟩
    · rw [if_neg hb]
      exact Or.inl rfl

/-- On a well-formed heap of at least `M` usable bytes every call of `zm_mem_malloc`
returns, once the iterations allowed are three more than the blocks of the chain: the
search loop visits each block from `lfree` to the sentinel at most once, and so does the
loop that advances `lfree`. -/
theorem malloc_terminates (s : State) (L : List Nat) (n : Nat) (hw : WFL s L)
    (hM : 12 ≤ s.zmMemSize) (fuel : Nat) (hfuel : L.length + 3 ≤ fuel) :
    ∃ p t, zm_mem_malloc fuel s n = Outcome.ret p t := by
  unfold zm_mem_malloc
  by_cases h0 : n = 0
  · rw [if_pos h0]; exact ⟨_, _, rfl⟩
  rw [if_neg h0]
  by_cases h1 : ZM_ALIGN_GET n > s.zmMemSize
  · rw [if_pos h1]; exact ⟨_, _, rfl⟩
  rw [if_neg h1]
  obtain ⟨lf, l1, l2, l3⟩ := hw.lfree_ok
  have h28 := wfb_size28 hw.toWFB
  have hS := sentinel_eq s
  have hsz : mallocSize n ≤ s.zmMemSize := mallocSize_le n _ (by omega) hM
  rcases l2 with h | ⟨hlfL, _⟩
  · rw [l1, ptrdiff_add _ _ (by omega)]
    have hseg : Seg s 0 lf [] s.sentinel := by rw [seg_nil]; exact h
    rcases mallocLoop_ends s _ hsz (by omega) fuel [] 0 lf hseg (by simp; omega) with
      h | ⟨k, M1, o, M2, e1, _⟩
    · exact ⟨_, _, h⟩
    · simp at e1
  · obtain ⟨P, R, hPR⟩ := List.append_of_mem hlfL
    subst hPR
    obtain ⟨_, cm, cp, cal, cn, c2, cle, _, _⟩ := chain_cut s P R lf hw.chain
    rw [l1, ptrdiff_add _ _ (by omega)]
    have hseg : Seg s (P.getLastD 0) lf (lf :: R) s.sentinel :=
      (seg_cons _ _ _ _ _ _).2 ⟨rfl, cm, cp, cal, cn, c2⟩
    rcases mallocLoop_ends s _ hsz (by omega) fuel (lf :: R) _ lf hseg
        (by simp at hfuel ⊢; omega) with h | ⟨k, M1, o, M2, e1, e2, e3, e4, e5⟩
    · exact ⟨_, _, h⟩
    · have hL : P ++ lf :: R = (P ++ M1) ++ o :: M2 := by rw [e1]; simp
      have hlen : (P ++ lf :: R).length = P.length + M1.length + 1 + M2.length := by
        rw [hL]; simp; omega
      rw [e5]
      rw [hL] at hw
      rcases mallocTake_wf s (P ++ M1) M2 o (mallocSize n) k hw e2 e3 (mallocSize_mod n) with
        h | ⟨lf', h1, _⟩
      · omega
      · exact ⟨_, _, h1⟩

/-- Freeing a block in use of a well-formed heap returns and leaves a well-formed heap;
this covers the block whose payload is empty and ends at the sentinel, whose pointer
`zm_mem_free` ignores. -/
theorem free_block_wf (s : State) (L : List Nat) (o : Nat) (hw : WFL s L) (ho : o ∈ L)
    (hu : ¬ s.isFree o) :
    ∃ t L', zm_mem_free s (s.zmMemHeap + o + 12) = Outcome.ret () t ∧ WFL t L' := by
  obtain ⟨h1, h2⟩ := chain_block s L hw.chain o ho
  by_cases hin : o + 12 < s.sentinel
  · obtain ⟨t, LC, _, _, f1, f2, _⟩ := free_merged_block s L o hw ho hu hin
    exact ⟨t, LC, f1, f2⟩
  · refine ⟨s, L, free_ignored s _ (Or.inr (Or.inr ?_)), hw⟩
    rw [hw.end_eq]
    omega

/-! ## The invariant in the words of the specification and the invariant of the proofs -/

theorem segSpec_cons (s : State) (a o b : Nat) (L : List Nat) :
    SegSpec s a (o :: L) b ↔
      o = a ∧ (s.hdr a).magic = ZM_HEAP_MAGIC ∧ a % 4 = 0 ∧
        a + 12 ≤ (s.hdr a).next ∧ SegSpec s (s.hdr a).next L b := Iff.rfl

theorem segSpec_bounds (s : State) : ∀ (L : List Nat) (a b : Nat), SegSpec s a L b →
    a ≤ b ∧ ∀ x ∈ L, a ≤ x ∧ x + 12 ≤ b := by
  intro L
  induction L with
  | nil => intro a b h; exact ⟨le_of_eq h, fun x hx => by simp at hx⟩
  | cons o L ih =>
    intro a b h
    rw [segSpec_cons] at h
    obtain ⟨ho, _, _, hn, ht⟩ := h
    obtain ⟨h1, h2⟩ := ih _ _ ht
    refine ⟨by omega, ?_⟩
    intro x hx
    rcases List.mem_cons.1 hx with hx | hx
    · subst hx; subst ho; exact ⟨le_refl _, by omega⟩
    · obtain ⟨h3, h4⟩ := h2 x hx
      exact ⟨by omega, h4⟩

/-- A run, seen without its `prev` fields, and the back links of its blocks. -/
theorem seg_to_spec (s : State) : ∀ (L : List Nat) (p a b : Nat), Seg s p a L b →
    SegSpec s a L b ∧ ∀ o ∈ L, (s.hdr o).next ≠ b → (s.hdr (s.hdr o).next).prev = o := by
  intro L
  induction L with
  | nil => intro p a b h; exact ⟨h, fun x hx => by simp at hx⟩
  | cons o L ih =>
    intro p a b h
    rw [seg_cons] at h
    obtain ⟨ho, hm, _, hal, hn, ht⟩ := h
    obtain ⟨i1, i2⟩ := ih _ _ _ ht
    refine ⟨(segSpec_cons _ _ _ _ _).2 ⟨ho, hm, hal, hn, i1⟩, ?_⟩
    intro x hx hne
    rcases List.mem_cons.1 hx with hx | hx
    · rw [hx, ho] at hne ⊢
      cases L with
      | nil => rw [seg_nil] at ht; exact absurd ht hne
      | cons y M =>
        rw [seg_cons] at ht
        exact ht.2.2.1
    · exact i2 x hx hne

/-- A run rebuilt from the offsets visited, the back links and the `prev` of its first
block. -/
theorem spec_to_seg (s : State) : ∀ (L : List Nat) (p a b : Nat), SegSpec s a L b →
    (∀ o ∈ L, (s.hdr o).next ≠ b → (s.hdr (s.hdr o).next).prev = o) →
    (a ∈ L → (s.hdr a).prev = p) → Seg s p a L b := by
  intro L
  induction L with
  | nil => intro p a b h _ _; exact h
  | cons o L ih =>
    intro p a b h hback hp
    rw [segSpec_cons] at h
    obtain ⟨ho, hm, hal, hn, ht⟩ := h
    subst ho
    have hbt := segSpec_bounds s _ _ _ ht
    refine (seg_cons _ _ _ _ _ _).2 ⟨rfl, hm, hp (List.mem_cons_self _ _), hal, hn, ?_⟩
    refine ih _ _ _ ht (fun x hx => hback x (List.mem_cons_of_mem _ hx)) ?_
    intro hmem
    have := (hbt.2 _ hmem).2
    exact hback o (List.mem_cons_self _ _) (by omega)

/-- The invariant of the proofs is the invariant in the words of the specification
together with `prev = 0` in the first header. -/
theorem wfl_iff_spec (s : State) (L : List Nat) :
    WFL s L ↔ WFspec s L ∧ (s.hdr 0).prev = 0 := by
  constructor
  · intro hw
    obtain ⟨c1, c2⟩ := seg_to_spec s L 0 0 s.sentinel hw.chain
    exact ⟨{ size_al := hw.size_al, size_lt := hw.size_lt, end_eq := hw.end_eq,
             sent_magic := hw.sent_magic, sent_used := hw.sent_used, sent_next := hw.sent_next,
             chain := c1, back := c2, noadj := hw.noadj, lfree_ok := hw.lfree_ok,
             stats := hw.stats, peak := hw.peak }, (chain_facts s L hw.toWFB).2.1⟩
  · rintro ⟨hs, h0⟩
    exact
      { size_al := hs.size_al, size_lt := hs.size_lt, end_eq := hs.end_eq,
        chain := spec_to_seg s L 0 0 s.sentinel hs.chain hs.back (fun _ => h0),
        sent_magic := hs.sent_magic, sent_used := hs.sent_used, sent_next := hs.sent_next,
        stats := hs.stats, peak := hs.peak, noadj := hs.noadj, lfree_ok := hs.lfree_ok }

/-! ## The invariant of the specification is kept by init, allocation and free -/

/-- The heap of the counterexample to the invariant as worded: the chain `0, 32, 64` after
two allocations of 20 bytes, the first header having `prev = 64`. -/
theorem heapW1_spec : WFspec heapW1 [0, 32, 64] := by
  have hS : heapW1.sentinel = 244 := by decide
  have n0 : (heapW1.hdr 0).next = 32 := by decide
  have n1 : (heapW1.hdr 32).next = 64 := by decide
  have n2 : (heapW1.hdr 64).next = 244 := by decide
  refine
    { size_al := by decide
      size_lt := by decide
      end_eq := by decide
      sent_magic := by decide
      sent_used := by decide
      sent_next := by decide
      chain := ?_
      back := by decide
      noadj := ?_
      lfree_ok := ⟨64, by decide, Or.inr ⟨by simp, by decide⟩, by decide⟩
      stats := by decide
      peak := by decide }
  · rw [hS, segSpec_cons, n0, segSpec_cons, n1, segSpec_cons, n2]
    exact ⟨rfl, by decide, by decide, by decide, rfl, by decide, by decide, by decide, rfl,
      by decide, by decide, by decide, rfl⟩
  · refine List.Chain'.cons ?_ (List.Chain'.cons ?_ (List.chain'_singleton _))
    · decide
    · decide

/-- After `zm_mem_free(p1)` on that heap no list of offsets satisfies the invariant as
worded: the block at offset `0` is free and starts every chain, and `lfree` is at offset
`64`. -/
theorem heapW2_not_spec : ¬ ∃ L, WFspec heapW2 L := by
  rintro ⟨L, hw⟩
  have hH : heapW2.zmMemHeap = 4096 := by decide
  have hl : heapW2.lfree = 4160 := by decide
  have hf : heapW2.isFree 0 := by decide
  have hS : heapW2.sentinel = 244 := by decide
  obtain ⟨lf, l1, _, l3⟩ := hw.lfree_ok
  have h0 : 0 ∈ L := by
    have hc := hw.chain
    cases L with
    | nil =>
      have : (0 : Nat) = heapW2.sentinel := hc
      omega
    | cons a M =>
      rw [segSpec_cons] at hc
      rw [hc.1]
      exact List.mem_cons_self _ _
  have := l3 0 h0 hf
  omega

/-- An accepted `zm_mem_init` leaves a heap that satisfies the invariant in the words of
the specification, with `prev = 0` in the first header. -/
theorem spec_init (m : State) (b e : Nat)
    (h : 2 * MEM_STRUCT_SIZE <
      ZM_ALIGN_DOWN (e % 4294967296) ZM_MEM_ALIGN_SIZE -
        ZM_ALIGN (b % 4294967296) ZM_MEM_ALIGN_SIZE) :
    WFspec (zm_mem_init m b e) [0] ∧ ((zm_mem_init m b e).hdr 0).prev = 0 := by
  have hacc : ZM_ALIGN_DOWN (e % 4294967296) ZM_MEM_ALIGN_SIZE > 2 * MEM_STRUCT_SIZE ∧
      u32sub (ZM_ALIGN_DOWN (e % 4294967296) ZM_MEM_ALIGN_SIZE) (2 * MEM_STRUCT_SIZE) ≥
        ZM_ALIGN (b % 4294967296) ZM_MEM_ALIGN_SIZE := by
    rw [MEM_STRUCT_SIZE_eq] at h ⊢
    rw [ZM_ALIGN_DOWN_four] at h ⊢
    have he : e % 4294967296 < 4294967296 := Nat.mod_lt _ (by norm_num)
    generalize ZM_ALIGN (b % 4294967296) ZM_MEM_ALIGN_SIZE = B at h ⊢
    generalize e % 4294967296 = E at h he ⊢
    unfold u32sub
    omega
  exact (wfl_iff_spec _ _).1 (init_wf m b e hacc).1

/-- A call of `zm_mem_malloc` that returns keeps the invariant. -/
theorem spec_malloc (s : State) (L : List Nat) (hw : WFspec s L) (h0 : (s.hdr 0).prev = 0)
    (fuel n p : Nat) (t : State) (hr : zm_mem_malloc fuel s n = Outcome.ret p t) :
    ∃ L', WFspec t L' ∧ (t.hdr 0).prev = 0 := by
  have hwl : WFL s L := (wfl_iff_spec s L).2 ⟨hw, h0⟩
  rcases malloc_wf s L fuel n hwl with h | h | ⟨L1, o, L2, lf', _, _, _, _, _, h, hw2⟩
  · rw [h] at hr; cases hr
  · rw [h] at hr
    rw [← (Outcome.ret_inj hr).2]
    exact ⟨L, hw, h0⟩
  · rw [h] at hr
    rw [← (Outcome.ret_inj hr).2]
    exact ⟨_, (wfl_iff_spec _ _).1 hw2⟩

/-- Freeing a block in use returns and keeps the invariant. -/
theorem spec_free (s : State) (L : List Nat) (hw : WFspec s L) (h0 : (s.hdr 0).prev = 0)
    (o : Nat) (ho : o ∈ L) (hu : ¬ s.isFree o) :
    ∃ t L', zm_mem_free s (s.zmMemHeap + o + 12) = Outcome.ret () t ∧
      WFspec t L' ∧ (t.hdr 0).prev = 0 := by
  have hwl : WFL s L := (wfl_iff_spec s L).2 ⟨hw, h0⟩
  obtain ⟨t, L', h1, h2⟩ := free_block_wf s L o hwl ho hu
  exact ⟨t, L', h1, (wfl_iff_spec _ _).1 h2⟩

/-- The heap after two allocations of 20 bytes satisfies the invariant, and its first
block is in use. -/
theorem heapA2_spec : ∃ L, WFspec heapA2 L ∧ (heapA2.hdr 0).prev = 0 ∧ 0 ∈ L := by
  obtain ⟨L, hw, _⟩ := reach_inv _ _ reach_heapA2
  obtain ⟨L', hL'⟩ := chain_head heapA2 L hw.chain
  obtain ⟨h1, h2⟩ := (wfl_iff_spec _ _).1 hw
  exact ⟨L, h1, h2, by rw [hL']; exact List.mem_cons_self _ _⟩

/-- A state reached without shrinking in place, on a region of at least `M` usable bytes:
its chain and the minimum size of its free blocks. -/
theorem reachN_minFree (s : State) (O : List Nat) (h : ReachR false s O)
    (hM : 12 ≤ s.zmMemSize) :
    ∃ L, Seg s 0 0 L s.sentinel ∧
      ∀ o ∈ L, s.isFree o → o + 12 ≤ (s.hdr o).next ∧ 12 ≤ (s.hdr o).next - o - 12 := by
  obtain ⟨L, hw, _, hm⟩ := reachN_min s O h hM
  refine ⟨L, hw.chain, ?_⟩
  intro o ho hf
  have := hm o ho hf
  exact ⟨by omega, by omega⟩

/-! ## The claims on lfree, on the sentinel, on the minimum size and on termination -/

/-- Claim C21 (defect of the code): after `p1 = zm_mem_malloc(100); zm_mem_realloc(p1, 50);
p3 = zm_mem_malloc(12); p4 = zm_mem_malloc(12); zm_mem_free(p3)` on the 256-byte heap,
every call given pointers the caller owns, `lfree` is at offset `160`, a free block,
while the block at offset `112`, the `next` of the block at offset `0`, is free as well:
a free block of the chain lies below `lfree`.  The shrink branch left the header at `112`
with `next = 112`; the two allocations split that block "backwards", and the free of `p3`
merged the block at `112` into the block at `heap[112].prev = 160`. -/
theorem C21_lfree_above_free_block :
    ReachR true heapK5 [4244, 4108] ∧
    zm_mem_realloc 8 heapC1 4108 50 = Outcome.ret 4108 heapC2 ∧
    zm_mem_malloc 8 heapC2 12 = Outcome.ret 4220 heapK3 ∧
    zm_mem_malloc 8 heapK3 12 = Outcome.ret 4244 heapK4 ∧
    zm_mem_free heapK4 4220 = Outcome.ret () heapK5 ∧
    (heapK4.hdr 112).prev = 160 ∧
    heapK5.lfree = heapK5.zmMemHeap + 160 ∧ heapK5.isFree 160 ∧
    (heapK5.hdr 0).next = 112 ∧ (heapK5.hdr 112).magic = ZM_HEAP_MAGIC ∧
    heapK5.isFree 112 ∧ 112 < 160 ∧ heapK5.sentinel = 244 :=
  ⟨reachR_heapK5, heapC2_eq, heapK3_eq, heapK4_eq, heapK5_eq, by decide, by decide, by decide,
    by decide, by decide, by decide, by decide, by decide⟩

/-- Claim C22 (defect of the code): after `p1 = zm_mem_malloc(10); zm_mem_free(p1)` on the
256-byte heap the sentinel header at offset `S = 244`, which was `magic, used = 1,
prev = 244, next = 244` after `zm_mem_init` and after the allocation, has `prev = 0`:
`zm_putTogether` merged the free block behind into the block at `0` and wrote the offset
of the merged block into the `prev` of the header that follows, the sentinel.  And after
`p1 = zm_mem_malloc(220); zm_mem_realloc(p1, 50)` the sentinel has `used = 0` and
`prev = 0`: the shrink branch wrote its free header at the old `next` of the block, which
is the sentinel. -/
theorem C22_free_rewrites_sentinel_prev :
    ReachR false heapJ2 [] ∧ heap256.sentinel = 244 ∧ heapJ2.sentinel = 244 ∧
    heap256.hdr 244 = ⟨ZM_HEAP_MAGIC, 1, 244, 244⟩ ∧
    zm_mem_malloc 8 heap256 10 = Outcome.ret 4108 heapJ1 ∧
    heapJ1.hdr 244 = ⟨ZM_HEAP_MAGIC, 1, 244, 244⟩ ∧
    zm_mem_free heapJ1 4108 = Outcome.ret () heapJ2 ∧
    heapJ2.hdr 244 = ⟨ZM_HEAP_MAGIC, 1, 0, 244⟩ ∧
    (heapJ2.hdr heapJ2.sentinel).prev ≠ heapJ2.sentinel ∧
    ReachR true heapJ4 [4108] ∧
    zm_mem_malloc 8 heap256 220 = Outcome.ret 4108 heapJ3 ∧
    heapJ3.hdr 244 = ⟨ZM_HEAP_MAGIC, 1, 244, 244⟩ ∧
    zm_mem_realloc 8 heapJ3 4108 50 = Outcome.ret 4108 heapJ4 ∧
    heapJ4.sentinel = 244 ∧ heapJ4.hdr 244 = ⟨ZM_HEAP_MAGIC, 0, 0, 244⟩ :=
  ⟨reachR_heapJ2 false, by decide, by decide, by decide, heapJ1_eq, by decide, heapJ2_eq,
    by decide, by decide, reachR_heapJ4, heapJ3_eq, by decide, heapJ4_eq, by decide,
    by decide⟩

/-- Claim C23, as stated, fails: `zm_mem_init` accepts the 32 bytes from address 4096
(the aligned end is more than two headers above the aligned begin), and the heap it
leaves has 8 usable bytes: its one block, at offset `0`, is free and ends at the sentinel
at offset `20`, so its payload size `next - o - H` is `8`, less than `M = 12`. -/
theorem C23_init_small_region :
    (ZM_ALIGN_DOWN (4128 % 4294967296) ZM_MEM_ALIGN_SIZE > 2 * MEM_STRUCT_SIZE ∧
      u32sub (ZM_ALIGN_DOWN (4128 % 4294967296) ZM_MEM_ALIGN_SIZE) (2 * MEM_STRUCT_SIZE) ≥
        ZM_ALIGN (4096 % 4294967296) ZM_MEM_ALIGN_SIZE) ∧
    ReachR false heapTiny [] ∧ zm_getMemTotal heapTiny = 8 ∧ WFL heapTiny [0] ∧
    heapTiny.isFree 0 ∧ (heapTiny.hdr 0).next = 20 ∧ heapTiny.sentinel = 20 ∧
    (heapTiny.hdr 0).next - 0 - MEM_STRUCT_SIZE = 8 ∧
    ¬ (MIN_SIZE_ALIGNED ≤ (heapTiny.hdr 0).next - 0 - MEM_STRUCT_SIZE) :=
  ⟨by decide, reachR_heapTiny false, by decide, (init_wf zeroState 4096 4128 (by decide)).1,
    by decide, by decide, by decide, by decide, by decide⟩

/-- Claim C23, amended. After `zm_mem_init` on a region it accepts with at least `M`
usable bytes (`zm_getMemTotal()`, which no later call changes) and after every later call
of `zm_mem_malloc`, `zm_mem_calloc`, `zm_mem_free` or `zm_mem_realloc` on pointers the
caller owns, no resize taking the branch that shrinks in place and no zero-allocation of
more than `2^32 - A` bytes, every free block `o` of the chain has `next - o - H ≥ M`.  In
particular this holds in the state any further `zm_mem_malloc` returns in: a split
leaves no free tail smaller than `M`. -/
theorem C23_free_blocks_hold_min (s : State) (O : List Nat) (h : ReachR false s O)
    (hM : MIN_SIZE_ALIGNED ≤ zm_getMemTotal s) :
    (∃ L, Seg s 0 0 L s.sentinel ∧
      ∀ o ∈ L, s.isFree o → o + MEM_STRUCT_SIZE ≤ (s.hdr o).next ∧
        MIN_SIZE_ALIGNED ≤ (s.hdr o).next - o - MEM_STRUCT_SIZE) ∧
    ∀ fuel n p t, n < 4294967296 → zm_mem_malloc fuel s n = Outcome.ret p t →
      ∃ L, Seg t 0 0 L t.sentinel ∧
        ∀ o ∈ L, t.isFree o → o + MEM_STRUCT_SIZE ≤ (t.hdr o).next ∧
          MIN_SIZE_ALIGNED ≤ (t.hdr o).next - o - MEM_STRUCT_SIZE := by
  rw [MIN_SIZE_ALIGNED_eq, MEM_STRUCT_SIZE_eq] at *
  refine ⟨reachN_minFree s O h hM, ?_⟩
  intro fuel n p t hn hr
  refine reachN_minFree t _ (ReachR.malloc s t O fuel n p h hn hr) ?_
  rw [malloc_size _ _ _ _ _ hr]
  exact hM

/-- Witness of C23: the heap after `p1 = zm_mem_malloc(100); zm_mem_realloc(p1, 116)` on
the 256-byte region, 232 usable bytes, whose free block at offset `0` holds 100 bytes. -/
theorem C23_free_blocks_hold_min_witness :
    ReachR false heapH2 [4220] ∧ MIN_SIZE_ALIGNED ≤ zm_getMemTotal heapH2 ∧
    heapH2.isFree 0 ∧
    ∃ L, Seg heapH2 0 0 L heapH2.sentinel ∧
      ∀ o ∈ L, heapH2.isFree o → o + MEM_STRUCT_SIZE ≤ (heapH2.hdr o).next ∧
        MIN_SIZE_ALIGNED ≤ (heapH2.hdr o).next - o - MEM_STRUCT_SIZE :=
  ⟨reachR_heapH2, by decide, by decide,
    (C23_free_blocks_hold_min heapH2 [4220] reachR_heapH2 (by decide)).1⟩

/-- Claim C24 (defect of the code): `zm_mem_init` accepts the 32 bytes from address 4096
and leaves 8 usable bytes; on that heap `zm_mem_malloc(1)` passes the test
`size > zmMemSize` with `size = 4`, then raises `size` to `12`, so the loop bound
`zmMemSize - size` wraps to `2^32 - 4`; the block at `0` holds 8 bytes only, the loop
moves on to the sentinel at offset `20`, which is in use and whose `next` is `20` again:
whatever the number of iterations allowed, the call has not returned. -/
theorem C24_malloc_spins_on_small_heap :
    (ZM_ALIGN_DOWN (4128 % 4294967296) ZM_MEM_ALIGN_SIZE > 2 * MEM_STRUCT_SIZE ∧
      u32sub (ZM_ALIGN_DOWN (4128 % 4294967296) ZM_MEM_ALIGN_SIZE) (2 * MEM_STRUCT_SIZE) ≥
        ZM_ALIGN (4096 % 4294967296) ZM_MEM_ALIGN_SIZE) ∧
    Reach heapTiny [] ∧ zm_getMemTotal heapTiny = 8 ∧ ZM_ALIGN_GET 1 = 4 ∧
    mallocSize 1 = 12 ∧ u32sub heapTiny.zmMemSize (mallocSize 1) = 4294967292 ∧
    heapTiny.cap 0 = 8 ∧ (heapTiny.hdr 0).next = 20 ∧ heapTiny.sentinel = 20 ∧
    (heapTiny.hdr 20).used = 1 ∧ (heapTiny.hdr 20).next = 20 ∧
    ∀ fuel : Nat, zm_mem_malloc fuel heapTiny 1 = Outcome.more :=
  ⟨by decide, reach_heapTiny, by decide, by decide, by decide, by decide, by decide, by decide,
    by decide, by decide, by decide, malloc_tiny_spins⟩

/-- Claim C25, as stated, fails: the heap `heapW1` (chain `0, 32, 64`, the blocks at `0`
and `32` in use, the block at `64` free, `prev = 64` in the first header) satisfies the
invariant as worded, which says nothing of the `prev` of the first block.  The block at
offset `0` is in use and `p = 0 + H` is its pointer; `zm_mem_free(p)` returns, having
merged the block at `0` "backwards" into the block at `heap[0].prev = 64`: the block at
`0` is free, `lfree` is at offset `64`, `heap[64].next = 32`, and no list of offsets
satisfies the invariant in the state reached. -/
theorem C25_free_with_stale_first_prev :
    WFspec heapW1 [0, 32, 64] ∧ ¬ heapW1.isFree 0 ∧ (heapW1.hdr 0).prev = 64 ∧
    heapW1.isFree 64 ∧ heapW1.zmMemHeap + 0 + MEM_STRUCT_SIZE = 4108 ∧
    zm_mem_free heapW1 4108 = Outcome.ret () heapW2 ∧
    heapW2.isFree 0 ∧ heapW2.lfree = heapW2.zmMemHeap + 64 ∧ (heapW2.hdr 64).next = 32 ∧
    ¬ ∃ L, WFspec heapW2 L :=
  ⟨heapW1_spec, by decide, by decide, by decide, by decide, heapW2_eq, by decide, by decide,
    by decide, heapW2_not_spec⟩

/-- Claim C25, amended. Let `WF(s)` be the invariant as worded (`WFspec`) together with
`prev = 0` in the first header.  `WF` holds after `zm_mem_init` on a region with at least
`M` usable bytes.  For every state `s` with `WF(s)`: every call `zm_mem_malloc(n)` with
`n < 2^32 - A` that returns does so in a state with `WF`, and the call returns when the
region has at least `M` usable bytes, once the iterations allowed are three more than the
blocks of the chain; and for every block `o` of the chain that is in use,
`zm_mem_free(o + H)` returns in a state with `WF`. -/
theorem C25_wf_preserved (m : State) (b e : Nat)
    (hinit : 2 * MEM_STRUCT_SIZE + MIN_SIZE_ALIGNED ≤
      ZM_ALIGN_DOWN (e % 4294967296) ZM_MEM_ALIGN_SIZE -
        ZM_ALIGN (b % 4294967296) ZM_MEM_ALIGN_SIZE)
    (s : State) (L : List Nat) (hw : WFspec s L) (h0 : (s.hdr 0).prev = 0) :
    (∃ L0, WFspec (zm_mem_init m b e) L0 ∧ ((zm_mem_init m b e).hdr 0).prev = 0) ∧
    (∀ n, n < 4294967296 - ZM_ALIGN_SIZE →
      (∀ fuel p t, zm_mem_malloc fuel s n = Outcome.ret p t →
        ∃ L', WFspec t L' ∧ (t.hdr 0).prev = 0) ∧
      (MIN_SIZE_ALIGNED ≤ zm_getMemTotal s → ∀ fuel, L.length + 3 ≤ fuel →
        ∃ p t, zm_mem_malloc fuel s n = Outcome.ret p t)) ∧
    (∀ o ∈ L, ¬ s.isFree o →
      ∃ t L', zm_mem_free s (s.zmMemHeap + o + MEM_STRUCT_SIZE) = Outcome.ret () t ∧
        WFspec t L' ∧ (t.hdr 0).prev = 0) := by
  rw [MIN_SIZE_ALIGNED_eq, MEM_STRUCT_SIZE_eq] at *
  refine ⟨⟨[0], spec_init m b e (by rw [MEM_STRUCT_SIZE_eq]; omega)⟩, ?_, ?_⟩
  · intro n _
    refine ⟨fun fuel p t hr => spec_malloc s L hw h0 fuel n p t hr, ?_⟩
    intro hM fuel hfuel
    exact malloc_terminates s L n ((wfl_iff_spec s L).2 ⟨hw, h0⟩) hM fuel hfuel
  · intro o ho hu
    exact spec_free s L hw h0 o ho hu

/-- Witness of C25: `zm_mem_init` on the 256 bytes from address 4096, and the heap after
`p1 = zm_mem_malloc(20); p2 = zm_mem_malloc(20)`, on which `zm_mem_malloc(12)` returns
and `zm_mem_free(p1)` returns, each in a state with the invariant. -/
theorem C25_wf_preserved_witness :
    2 * MEM_STRUCT_SIZE + MIN_SIZE_ALIGNED ≤
      ZM_ALIGN_DOWN (4352 % 4294967296) ZM_MEM_ALIGN_SIZE -
        ZM_ALIGN (4096 % 4294967296) ZM_MEM_ALIGN_SIZE ∧
    ∃ L, WFspec heapA2 L ∧ (heapA2.hdr 0).prev = 0 ∧ 0 ∈ L ∧ ¬ heapA2.isFree 0 ∧
      (∃ L0, WFspec (zm_mem_init zeroState 4096 4352) L0 ∧
        ((zm_mem_init zeroState 4096 4352).hdr 0).prev = 0) ∧
      (∃ p t L', zm_mem_malloc (L.length + 3) heapA2 12 = Outcome.ret p t ∧ WFspec t L' ∧
        (t.hdr 0).prev = 0) ∧
      (∃ t L', zm_mem_free heapA2 (heapA2.zmMemHeap + 0 + MEM_STRUCT_SIZE) = Outcome.ret () t ∧
        WFspec t L' ∧ (t.hdr 0).prev = 0) := by
  obtain ⟨L, hw, h0, hin⟩ := heapA2_spec
  have hu : ¬ heapA2.isFree 0 := by decide
  obtain ⟨k1, k2, k3⟩ := C25_wf_preserved zeroState 4096 4352 (by decide) heapA2 L hw h0
  obtain ⟨k4, k5⟩ := k2 12 (by decide)
  obtain ⟨p, t, hr⟩ := k5 (by decide) (L.length + 3) (le_refl _)
  obtain ⟨L', hw'⟩ := k4 _ p t hr
  exact ⟨by decide, L, hw, h0, hin, hu, k1, ⟨p, t, L', hr, hw'⟩, k3 0 hin hu⟩

/-! ## The claims on the payload of an allocation and on alignment -/

/-- Claim C1 (defect of the code): on the fresh 256-byte heap, which is well formed,
`zm_mem_malloc(4294967295)` returns the pointer `4108 = 0 + H` of the block at offset
`0`; the block is in use and ends at `24`, so its payload capacity `next - o - H` is `12`,
less than the request and than `align_up(max(n, M), A) = 2^32`.  The macro `ZM_ALIGN`
wrapped the request to `0`, which passed the test `size > zmMemSize` and was raised to
`12`. -/
theorem C1_huge_request_short_payload :
    WFL heap256 [0] ∧ zm_mem_malloc 8 heap256 4294967295 = Outcome.ret 4108 heapHuge ∧
    4108 = heapHuge.zmMemHeap + 0 + MEM_STRUCT_SIZE ∧ (heapHuge.hdr 0).used = 1 ∧
    (heapHuge.hdr 0).next = 24 ∧ (heapHuge.hdr 0).next - 0 - MEM_STRUCT_SIZE = 12 ∧
    align_up (max 4294967295 ZM_MIN_SIZE) ZM_ALIGN_SIZE = 4294967296 ∧
    ¬ (align_up (max 4294967295 ZM_MIN_SIZE) ZM_ALIGN_SIZE ≤
      (heapHuge.hdr 0).next - 0 - MEM_STRUCT_SIZE) ∧
    ¬ (4294967295 ≤ (heapHuge.hdr 0).next - 0 - MEM_STRUCT_SIZE) ∧
    ZM_ALIGN_GET 4294967295 = 0 ∧ mallocSize 4294967295 = 12 :=
  ⟨heap256_wf, Outcome.eq_ret _ _ (by decide), by decide, by decide, by decide, by decide,
    by decide, by decide, by decide, by decide, by decide⟩

/-- Claim C14 (defect of the code), on the memory as bytes.  The region is the 8192 bytes
from address 4096, which `zm_mem_init` accepts; before the call its bytes are zero but
for the five bytes of `Raw.stale`.  After `p1 = zm_mem_malloc(100); p2 = zm_mem_malloc(12);
p3 = zm_mem_malloc(12); zm_mem_realloc(p1, 50)` the shrink branch has made the header of
`p2` at offset `112` a free block with `next = 112`; `zm_mem_malloc(20)` takes that block
and writes the header of its tail at offset `112 + 12 + 20 = 144`, on the `next` field of
the header of `p3` at offset `136`, which reads `7840` from then on; `zm_mem_free(p3)`
merges the block of `p3` with the stale header at offset `7840` and takes its `next`,
`201`; `zm_mem_malloc(56)` then walks from offset `136` to offset `201` and returns
`4096 + 201 + 12 = 4309`, which is not a multiple of `A`. -/
theorem C14_misaligned_pointer_after_shrink :
    (ZM_ALIGN_DOWN (12288 % 4294967296) ZM_MEM_ALIGN_SIZE > 2 * MEM_STRUCT_SIZE ∧
      u32sub (ZM_ALIGN_DOWN (12288 % 4294967296) ZM_MEM_ALIGN_SIZE) (2 * MEM_STRUCT_SIZE) ≥
        ZM_ALIGN (4096 % 4294967296) ZM_MEM_ALIGN_SIZE) ∧
    Raw.heapM0.zmMemHeap = 4096 ∧ Raw.heapM0.zmMemSize = 8168 ∧
    Raw.heapM0.zmMemEnd = 4096 + 8180 ∧
    (Raw.zm_mem_malloc 8 Raw.heapM0 100).val = some 4108 ∧
    (Raw.zm_mem_malloc 8 Raw.heapM1 12).val = some 4220 ∧
    (Raw.zm_mem_malloc 8 Raw.heapM2 12).val = some 4244 ∧
    Raw.heapM3.next (4096 + 136) = 160 ∧
    (Raw.zm_mem_realloc 8 Raw.heapM3 4108 50).val = some 4108 ∧
    Raw.heapM4.used (4096 + 112) = 0 ∧ Raw.heapM4.next (4096 + 112) = 112 ∧
    Raw.heapM4.lfree = 4096 + 112 ∧
    (Raw.zm_mem_malloc 8 Raw.heapM4 20).val = some 4220 ∧
    Raw.heapM5.next (4096 + 136) = 7840 ∧
    (Raw.zm_mem_free Raw.heapM5 4244).val = some () ∧
    Raw.heapM6.lfree = 4096 + 136 ∧ Raw.heapM6.next (4096 + 136) = 201 ∧
    (Raw.zm_mem_malloc 8 Raw.heapM6 56).val = some 4309 ∧
    4309 % ZM_ALIGN_SIZE = 1 ∧ ¬ (4309 % ZM_ALIGN_SIZE = 0) := by
  decide

end ZM
